import Mathlib

/-!
# licence-cli: the license entity and the license manager

A shallow embedding of `pkg/models/license.go`, `internal/license/manager.go`
and `internal/crypto/rsa.go`, together with models of the Go standard-library
calls they make (`time`, `encoding/json`, `encoding/base64`, `crypto/rsa`).

Conventions of the embedding:
* a Go `string` or `[]byte` is a list of bytes (`GoString`), so strings that
  are not valid UTF-8 are values of the model, as they are in Go;
* an `error` is its message;
* every call of `time.Now()` is an explicit clock reading passed as an argument;
* the Location of a time (`time.Local` for a clock reading) is passed as an
  argument to the methods that reach `AddDate`, which alone consults it;
* a method with a pointer receiver that mutates the license returns the
  license as it is in memory after the call.
-/

set_option maxRecDepth 100000

namespace LicenceCli

/-! ## Bytes, strings and errors -/

/-- One byte. -/
abbrev Byte := Fin 256

/-- A Go `string` (or `[]byte`): an arbitrary sequence of bytes. -/
abbrev GoString := List Byte

/-- The bytes of an ASCII literal of the source. -/
def ascii (s : String) : GoString := s.data.map (fun c => Fin.ofNat c.toNat)

/-- A Go `error` value, identified with the message it carries. -/
structure Error where
  msg : String
deriving DecidableEq, Repr

/-! ## `time.Time` -/

/-- A `time.Time`: the instant in nanoseconds since the Unix epoch and the
offset (seconds east of UTC) the value is presented with, the one its Location
has in force at that instant. The instant is an unbounded integer, of which
the instants of Go (seconds since 0001-01-01 in an `int64`, and nanoseconds)
are a part; `AddDate`, the one operation of this program that computes a new
instant, is modelled with its 64-bit arithmetic. The monotonic clock reading
is not part of the model: the `ExpiresAt` values built by `NewLicense`,
`Renew` and `LoadLicense` carry none, so `After` and `Sub` compare wall-clock
instants. -/
structure Time where
  unixNano : Int
  offset : Int
deriving DecidableEq, Repr

/-- Nanoseconds in a second. -/
def nanosPerSecond : Int := 1000000000

/-- Nanoseconds in a day of 24 hours. -/
def nanosPerDay : Int := 86400 * nanosPerSecond

/-- `t.After(u)`: the instant of `t` is strictly later than that of `u`. -/
def Time.After (t u : Time) : Bool := decide (u.unixNano < t.unixNano)

/-- `isLeap`: whether a year of the proleptic Gregorian calendar has 366 days. -/
def isLeap (year : Int) : Bool := year % 4 = 0 && (year % 100 ≠ 0 || year % 400 = 0)

/-- The `daysBefore` table: the days of a non-leap year before the month
`m + 1`. -/
def daysBefore (m : Int) : Int :=
  if m ≤ 0 then 0 else if m = 1 then 31 else if m = 2 then 59 else if m = 3 then 90
  else if m = 4 then 120 else if m = 5 then 151 else if m = 6 then 181
  else if m = 7 then 212 else if m = 8 then 243 else if m = 9 then 273
  else if m = 10 then 304 else if m = 11 then 334 else 365

/-- The year of a day count since 0001-01-01 and the day within that year,
counted from zero, as `absDate` finds them: 400-year cycles are cut off, then
100-year cycles, 4-year cycles and years, a quotient of 4 in the second and
fourth step being cut back to 3. -/
def yearDay (z : Int) : Int × Int :=
  let n400 := z / 146097
  let d1 := z % 146097
  let n100 := d1 / 36524 - d1 / 36524 / 4
  let d2 := d1 - 36524 * n100
  let n4 := d2 / 1461
  let d3 := d2 - 1461 * n4
  let n1 := d3 / 365 - d3 / 365 / 4
  (400 * n400 + 100 * n100 + 4 * n4 + n1 + 1, d3 - 365 * n1)

/-- The month and the day of the month of the day `yday` (counted from zero)
of a year, as `absDate` finds them: the leap day is set apart, the month is
estimated as if every month had 31 days and corrected by the table. -/
def monthDay (leap : Bool) (yday : Int) : Int × Int :=
  if leap = true ∧ yday = 59 then (2, 29)
  else
    let day := if leap = true ∧ 59 < yday then yday - 1 else yday
    if daysBefore (day / 31 + 1) ≤ day then (day / 31 + 2, day - daysBefore (day / 31 + 1) + 1)
    else (day / 31 + 1, day - daysBefore (day / 31) + 1)

/-- The day count since 1970-01-01 split into the year, month and day of the
proleptic Gregorian calendar, as `Time.Date` reports them. -/
def civilFromDays (z : Int) : Int × Int × Int :=
  let yd := yearDay (z + 719162)
  (yd.1, monthDay (isLeap yd.1) yd.2)

/-- The days from 0001-01-01 to the first day of a year (`daysSinceEpoch`). -/
def daysSinceEpoch (year : Int) : Int :=
  let y := year - 1
  let n400 := y / 400
  let y1 := y - 400 * n400
  let n100 := y1 / 100
  let y2 := y1 - 100 * n100
  let n4 := y2 / 4
  146097 * n400 + 36524 * n100 + 1461 * n4 + 365 * (y2 - 4 * n4)

/-- The day count since 1970-01-01 of a date of the proleptic Gregorian
calendar, as `time.Date` computes it. -/
def daysFromCivil (y m d : Int) : Int :=
  daysSinceEpoch y + daysBefore (m - 1) + (if isLeap y = true ∧ 3 ≤ m then 1 else 0)
    + (d - 1) - 719162

/-- The value of an `int64` (and of an `int`, 64 bits wide on the platforms Go
runs this program on) after an arithmetic operation whose exact result is `n`:
the result wraps around in two's complement. -/
def wrap64 (n : Int) : Int :=
  (n + 9223372036854775808) % 18446744073709551616 - 9223372036854775808

/-- A `*time.Location`, as far as this program consults it: what
`Location.lookup` reports for an instant given in seconds since the Unix
epoch, namely the offset in force (seconds east of UTC) and the first and the
end of the range of instants over which that offset stays in force. A `Time`
of the model records the instant and the offset it is presented with; the
rules of its Location are passed to the one method that consults them,
`AddDate`. -/
structure Location where
  lookup : Int → Int × Int × Int

/-- `time.FixedZone`, and `time.UTC` for the offset zero: one offset in force
from `alpha` to `omega`, the least and the greatest `int64`. -/
def FixedZone (offset : Int) : Location :=
  ⟨fun _ => (offset, -9223372036854775808, 9223372036854775807)⟩

/-- Seconds since the Unix epoch, `t.unixSec()`. -/
def Time.unixSec (t : Time) : Int := t.unixNano / nanosPerSecond

/-- The nanoseconds within the second, `t.nsec()`. -/
def Time.nsec (t : Time) : Int := t.unixNano % nanosPerSecond

/-- `unixToInternal`: the seconds from 0001-01-01 to 1970-01-01. -/
def unixToInternal : Int := 62135596800

/-- `time.Date(year, month, day, hour, min, sec, nsec, loc)` for a month from 1
to 12 and a clock reading within the day, given as the seconds `secOfDay`
since midnight and `nsec` (the normalising steps of `Date` leave such values
as they are). The day may be any `int`: `day - 1` is added to the day count of
the first of the month. The seconds of the wall clock are computed in 64 bits
and wrap around; the offset to subtract is the one the location reports for
the wall-clock seconds read as an instant, or, when the instant so found is
outside the range that offset is in force, the one it reports for that
instant. The time is stored as seconds since 0001-01-01 in an `int64`. -/
def Date (year month day secOfDay nsec : Int) (loc : Location) : Time :=
  let unix := wrap64 (daysFromCivil year month day * 86400 + secOfDay)
  let zone := loc.lookup unix
  let unix :=
    if zone.1 ≠ 0 then
      let utc := wrap64 (unix - zone.1)
      let offset := if utc < zone.2.1 ∨ zone.2.2 ≤ utc then (loc.lookup utc).1 else zone.1
      wrap64 (unix - offset)
    else unix
  let ext := wrap64 (unix + unixToInternal)
  { unixNano := (ext - unixToInternal) * nanosPerSecond + nsec
    offset := (loc.lookup (wrap64 (ext - unixToInternal))).1 }

/-- `t.AddDate(0, 0, days)` for a time `t` whose Location is `loc`: the date
and the clock reading `t` shows in `loc` are taken apart (`t.Date()`,
`t.Clock()`) and `Date` is called with `days` added to the day of the month,
an addition of `int`s. -/
def Time.AddDate (t : Time) (loc : Location) (days : Int) : Time :=
  let wall := t.unixSec + (loc.lookup t.unixSec).1
  let date := civilFromDays (wall / 86400)
  Date date.1 date.2.1 (wrap64 (date.2.2 + days)) (wall % 86400) t.nsec loc

/-- The offset `Date` settles on for the wall-clock seconds `wall` in `loc`
while the arithmetic stays within 64 bits: the offset `loc` reports for `wall`
read as an instant, or, when the instant this gives is outside the range over
which that offset is in force, the offset `loc` reports for that instant. -/
def Location.wallOffset (loc : Location) (wall : Int) : Int :=
  let zone := loc.lookup wall
  if zone.1 ≠ 0 ∧ (wall - zone.1 < zone.2.1 ∨ zone.2.2 ≤ wall - zone.1)
  then (loc.lookup (wall - zone.1)).1 else zone.1

/-- The time `r` is the time `t` moved by `d` days of the calendar of `loc`:
the wall clock of `r`, under the offset `Date` settles on for it, reads what
the wall clock of `t` reads in `loc` plus `d` times 24 hours, and `r` is
presented with the offset `loc` has in force at `r`. -/
def MovedByDays (loc : Location) (t : Time) (d : Int) (r : Time) : Prop :=
  r.unixNano
      + loc.wallOffset (t.unixSec + (loc.lookup t.unixSec).1 + d * 86400) * nanosPerSecond
    = t.unixNano + (loc.lookup t.unixSec).1 * nanosPerSecond + d * nanosPerDay ∧
  r.offset = (loc.lookup r.unixSec).1

/-- An instant within `10^17` seconds (some three billion years) of the Unix
epoch. -/
def Time.InRange (t : Time) : Prop :=
  -100000000000000000000000000 ≤ t.unixNano ∧ t.unixNano ≤ 100000000000000000000000000

/-- A location all of whose offsets are within `100000` seconds of UTC (the
zones of the time zone database are within 16 hours, the zones an RFC 3339
text can name within 24). -/
def Location.Bounded (loc : Location) : Prop :=
  ∀ sec, -100000 ≤ (loc.lookup sec).1 ∧ (loc.lookup sec).1 ≤ 100000

/-- `maxDuration`, the largest `time.Duration` (nanoseconds in an `int64`). -/
def maxDuration : Int := 9223372036854775807

/-- `minDuration`, the smallest `time.Duration`. -/
def minDuration : Int := -9223372036854775808

/-- `t.Sub(u)`: the duration `t - u` in nanoseconds, or the largest (smallest)
duration when the difference does not fit a `Duration`. -/
def Time.Sub (t u : Time) : Int :=
  if maxDuration < t.unixNano - u.unixNano then maxDuration
  else if t.unixNano - u.unixNano < minDuration then minDuration
  else t.unixNano - u.unixNano

/-! ## `float64` -/

/-- The integer nearest to `q`, the even one of the two when `q` is half-way. -/
def roundHalfEven (q : ℚ) : Int :=
  if q - ⌊q⌋ < 1 / 2 then ⌊q⌋
  else if 1 / 2 < q - ⌊q⌋ then ⌊q⌋ + 1
  else if ⌊q⌋ % 2 = 0 then ⌊q⌋ else ⌊q⌋ + 1

/-- The `float64` nearest to the real number `x` (IEEE 754 binary64, round to
nearest, ties to even): `x` is rounded to 53 significant bits. A `float64`
is identified with the rational it denotes; the exponent is not bounded, the
magnitudes that occur here (between `2^-42` and `2^22`) being far from the
subnormal and overflow ranges. -/
def round64 (x : ℚ) : ℚ :=
  if x = 0 then 0
  else roundHalfEven (x / 2 ^ (Int.log 2 |x| - 52)) * 2 ^ (Int.log 2 |x| - 52)

/-- Nanoseconds in an hour, the `time.Hour` constant. -/
def nanosPerHour : Int := 3600000000000

/-- `Duration.Hours`: `float64(d / Hour) + float64(d % Hour) / (60*60*1e9)`,
the integer division and remainder truncating towards zero and every
`float64` operation rounding its exact result. -/
def Hours (d : Int) : ℚ :=
  round64 (round64 (d.tdiv nanosPerHour) + round64 (round64 (d.tmod nanosPerHour) / 3600000000000))

/-- The conversion `int(f)` of a `float64`: the fraction is discarded
(truncation towards zero). -/
def truncToInt (f : ℚ) : Int := if 0 ≤ f then ⌊f⌋ else ⌈f⌉

/-! ## `pkg/models/license.go` -/

/-- The `License` struct. `LicenseLevel` is a string type, so `Level` is any
string; `Features` is a slice, `none` being the nil slice. -/
structure License where
  ID : GoString
  UserName : GoString
  DeviceID : GoString
  Level : GoString
  IssuedAt : Time
  ExpiresAt : Time
  Features : Option (List GoString)
  Signature : GoString
  IssuerID : GoString
  Version : GoString
deriving DecidableEq, Repr

/-- `NewLicense`: `now` is the reading of `time.Now()`, `localLoc` its
Location (`time.Local`), `uuid` the string of the freshly drawn `uuid.New()`. -/
def NewLicense (localLoc : Location) (now : Time) (uuid : GoString)
    (userName deviceID level : GoString) (validDays : Int) : License :=
  { ID := uuid
    UserName := userName
    DeviceID := deviceID
    Level := level
    IssuedAt := now
    ExpiresAt := now.AddDate localLoc validDays
    Features := none
    Signature := []
    IssuerID := []
    Version := ascii "1.0" }

/-- `License.IsExpired`, at clock reading `now`. -/
def License.IsExpired (now : Time) (l : License) : Bool :=
  now.After l.ExpiresAt

/-- `License.IsValid`, at clock reading `now`. -/
def License.IsValid (now : Time) (l : License) (deviceID : GoString) : Bool :=
  if l.IsExpired now then false
  else if l.DeviceID ≠ deviceID then false
  else true

/-- `License.DaysUntilExpiration`: `now` is the clock reading taken by
`IsExpired`, `now2` the later one passed to `Sub`. -/
def License.DaysUntilExpiration (now now2 : Time) (l : License) : Int :=
  if l.IsExpired now then 0
  else truncToInt (round64 (Hours (l.ExpiresAt.Sub now2) / 24))

/-- `License.Renew`: `now` is the clock reading taken by `IsExpired`, `now2`
the later reading taken by the expired branch, `localLoc` the Location of that
reading (`time.Local`) and `loc` the Location of `l.ExpiresAt`. -/
def License.Renew (localLoc loc : Location) (now now2 : Time) (l : License) (days : Int) :
    License :=
  if l.IsExpired now then { l with ExpiresAt := now2.AddDate localLoc days }
  else { l with ExpiresAt := l.ExpiresAt.AddDate loc days }

/-! ## `unicode/utf8` -/

/-- `utf8.RuneError`, U+FFFD. -/
def RuneError : Nat := 0xFFFD

/-- The width of the encoding a leading byte from `0xC2` to `0xF4` announces
(the `first` table). -/
def utf8Size (s0 : Byte) : Nat := if s0.val < 0xE0 then 2 else if s0.val < 0xF0 then 3 else 4

/-- The least second byte accepted after a leading byte (the `acceptRanges`
table): it excludes the overlong encodings. -/
def acceptLo (s0 : Byte) : Nat :=
  if s0.val = 0xE0 then 0xA0 else if s0.val = 0xF0 then 0x90 else 0x80

/-- The greatest second byte accepted after a leading byte: it excludes the
surrogates and the runes beyond U+10FFFF. -/
def acceptHi (s0 : Byte) : Nat :=
  if s0.val = 0xED then 0x9F else if s0.val = 0xF4 then 0x8F else 0xBF

/-- `utf8.DecodeRune`: the first rune of `s` and its width in bytes;
`(RuneError, 1)` when `s` does not start with a valid encoding (too short,
overlong, a surrogate, or beyond U+10FFFF) and `(RuneError, 0)` when `s` is
empty. -/
def decodeRune : GoString → Nat × Nat
  | [] => (RuneError, 0)
  | s0 :: rest =>
    if s0.val < 0x80 then (s0.val, 1)
    else if s0.val < 0xC2 ∨ 0xF4 < s0.val then (RuneError, 1)
    else
      match rest with
      | [] => (RuneError, 1)
      | s1 :: rest1 =>
        if s1.val < acceptLo s0 ∨ acceptHi s0 < s1.val then (RuneError, 1)
        else if utf8Size s0 ≤ 2 then ((s0.val % 32) * 64 + s1.val % 64, 2)
        else
          match rest1 with
          | [] => (RuneError, 1)
          | s2 :: rest2 =>
            if s2.val < 0x80 ∨ 0xBF < s2.val then (RuneError, 1)
            else if utf8Size s0 ≤ 3 then
              ((s0.val % 16) * 4096 + (s1.val % 64) * 64 + s2.val % 64, 3)
            else
              match rest2 with
              | [] => (RuneError, 1)
              | s3 :: _ =>
                if s3.val < 0x80 ∨ 0xBF < s3.val then (RuneError, 1)
                else ((s0.val % 8) * 262144 + (s1.val % 64) * 4096
                        + (s2.val % 64) * 64 + s3.val % 64, 4)

/-- `utf8.EncodeRune`: the UTF-8 encoding of a rune; surrogates and values
beyond U+10FFFF are encoded as U+FFFD. -/
def encodeRune (r : Nat) : GoString :=
  if r < 0x80 then [Fin.ofNat r]
  else if r < 0x800 then [Fin.ofNat (0xC0 + r / 64), Fin.ofNat (0x80 + r % 64)]
  else if (0xD800 ≤ r ∧ r ≤ 0xDFFF) ∨ 0x10FFFF < r then [0xEF, 0xBF, 0xBD]
  else if r < 0x10000 then
    [Fin.ofNat (0xE0 + r / 4096), Fin.ofNat (0x80 + r / 64 % 64), Fin.ofNat (0x80 + r % 64)]
  else
    [Fin.ofNat (0xF0 + r / 262144), Fin.ofNat (0x80 + r / 4096 % 64),
     Fin.ofNat (0x80 + r / 64 % 64), Fin.ofNat (0x80 + r % 64)]

/-- `utf8.ValidString`, with `fuel` bounding the number of runes read. -/
def validUTF8Aux : Nat → GoString → Bool
  | _, [] => true
  | 0, _ :: _ => false
  | fuel + 1, b :: rest =>
    let ds := decodeRune (b :: rest)
    if ds.1 = RuneError ∧ ds.2 = 1 then false
    else validUTF8Aux fuel ((b :: rest).drop ds.2)

/-- `utf8.ValidString`. -/
def validUTF8 (s : GoString) : Bool := validUTF8Aux s.length s

/-! ## `encoding/json`: encoding -/

/-- The lower-case hexadecimal digit of `n < 16`. -/
def hexDigit (n : Nat) : Byte := if n < 10 then Fin.ofNat (48 + n) else Fin.ofNat (87 + n)

/-- Membership in `htmlSafeSet`: the ASCII bytes the encoder copies unescaped
(everything from space to DEL except the double quote, the backslash and the
three HTML characters). -/
def htmlSafe (b : Byte) : Bool :=
  decide (0x20 ≤ b.val ∧ b.val < 0x80 ∧ b.val ≠ 0x22 ∧ b.val ≠ 0x5C ∧
    b.val ≠ 0x3C ∧ b.val ≠ 0x3E ∧ b.val ≠ 0x26)

/-- The escape sequence the encoder writes for an ASCII byte outside
`htmlSafeSet`. -/
def escapeByte (b : Byte) : GoString :=
  if b.val = 0x5C ∨ b.val = 0x22 then [0x5C, b]
  else if b.val = 0x08 then ascii "\\b"
  else if b.val = 0x0C then ascii "\\f"
  else if b.val = 0x0A then ascii "\\n"
  else if b.val = 0x0D then ascii "\\r"
  else if b.val = 0x09 then ascii "\\t"
  else ascii "\\u00" ++ [hexDigit (b.val / 16), hexDigit (b.val % 16)]

/-- The body of the encoder's `appendString` loop (with `escapeHTML` set, as
`json.Marshal` does): safe ASCII is copied, other ASCII is escaped, a byte that
starts no valid UTF-8 encoding becomes the six-character escape of U+FFFD, U+2028 and
U+2029 are escaped and every other rune is copied. `fuel` bounds the number
of steps. -/
def appendStringAux : Nat → GoString → GoString
  | 0, _ => []
  | _ + 1, [] => []
  | fuel + 1, b :: rest =>
    if b.val < 0x80 then
      if htmlSafe b then b :: appendStringAux fuel rest
      else escapeByte b ++ appendStringAux fuel rest
    else
      let ds := decodeRune (b :: rest)
      if ds.1 = RuneError ∧ ds.2 = 1 then
        ascii "\\ufffd" ++ appendStringAux fuel rest
      else if ds.1 = 0x2028 ∨ ds.1 = 0x2029 then
        ascii "\\u202" ++ [hexDigit (ds.1 % 16)]
          ++ appendStringAux fuel ((b :: rest).drop ds.2)
      else (b :: rest).take ds.2 ++ appendStringAux fuel ((b :: rest).drop ds.2)

/-- The JSON string literal the encoder writes for a Go string. -/
def appendString (s : GoString) : GoString :=
  [0x22] ++ appendStringAux s.length s ++ [0x22]

/-- Nanoseconds since the Unix epoch of the wall clock shown in the zone of
`t` (the instant shifted by the zone offset). -/
def Time.localNano (t : Time) : Int := t.unixNano + t.offset * nanosPerSecond

/-- `t.Year()`, in the zone of `t`. -/
def Time.Year (t : Time) : Int := (civilFromDays (t.localNano / nanosPerDay)).1

/-- `n` written with exactly `w` decimal digits (the low `w` digits of `n`). -/
def digits : Nat → Nat → GoString
  | 0, _ => []
  | w + 1, n => digits w (n / 10) ++ [Fin.ofNat (48 + n % 10)]

/-- `appendNano` for the layout `.999999999`: nothing when the nanoseconds
are zero, else a point and nine digits without their trailing zeros. -/
def trimZeros : GoString → GoString
  | [] => []
  | b :: rest =>
    match trimZeros rest with
    | [] => if b = 48 then [] else [b]
    | r => b :: r

/-- The fractional-second part of the RFC 3339 layout with nanoseconds. -/
def formatFrac (nsec : Nat) : GoString :=
  if nsec = 0 then [] else 0x2E :: trimZeros (digits 9 nsec)

/-- The zone part of the layout `Z07:00`: `Z` for offset zero, else the sign
and the offset in hours and minutes, the seconds of the offset being dropped
(the division truncates towards zero). -/
def formatZone (offset : Int) : GoString :=
  if offset = 0 then [0x5A]
  else
    let zone := offset.tdiv 60
    (if zone < 0 then [0x2D] else [0x2B])
      ++ digits 2 (zone.natAbs / 60) ++ [0x3A] ++ digits 2 (zone.natAbs % 60)

/-- `t.AppendFormat(b, time.RFC3339Nano)` for a year of four digits. -/
def Time.formatRFC3339Nano (t : Time) : GoString :=
  let date := civilFromDays (t.localNano / nanosPerDay)
  let inDay := (t.localNano % nanosPerDay).toNat
  let secs := inDay / 1000000000
  digits 4 date.1.toNat ++ [0x2D] ++ digits 2 date.2.1.toNat ++ [0x2D]
    ++ digits 2 date.2.2.toNat ++ [0x54]
    ++ digits 2 (secs / 3600) ++ [0x3A] ++ digits 2 (secs / 60 % 60) ++ [0x3A]
    ++ digits 2 (secs % 60) ++ formatFrac (inDay % 1000000000) ++ formatZone t.offset

/-- The error `json.Marshal` returns when `Time.MarshalJSON` refuses a time. -/
def errMarshalTime (reason : String) : Error :=
  ⟨"json: error calling MarshalJSON for type time.Time: Time.MarshalJSON: " ++ reason⟩

/-- `Time.MarshalJSON`: the quoted RFC 3339 text with nanoseconds; an error
when the year (in the zone of `t`) is outside `[0,9999]` or the zone offset
is 24 hours or more. -/
def Time.MarshalJSON (t : Time) : Except Error GoString :=
  if t.Year < 0 ∨ 9999 < t.Year then
    .error (errMarshalTime "year outside of range [0,9999]")
  else if 24 ≤ (t.offset.tdiv 60).natAbs / 60 then
    .error (errMarshalTime "timezone hour outside of range [0,23]")
  else .ok ([0x22] ++ t.formatRFC3339Nano ++ [0x22])

/-- The elements of a JSON array, separated by `sep`. -/
def joinWith (sep : GoString) : List GoString → GoString
  | [] => []
  | [x] => x
  | x :: y :: rest => x ++ sep ++ joinWith sep (y :: rest)

/-- The white space an encoding is laid out with: after the colon of a member,
after the opening brace, after the comma between members, before the closing
brace, and the same three for the brackets and commas of the array. -/
structure Layout where
  colon : GoString
  objOpen : GoString
  objSep : GoString
  objClose : GoString
  arrOpen : GoString
  arrSep : GoString
  arrClose : GoString

/-- The encoding of the `Features` slice: `null` for the nil slice, `[]` for
the empty one, else the string literals of the elements between brackets. -/
def encodeFeatures (w : Layout) : Option (List GoString) → GoString
  | none => ascii "null"
  | some [] => ascii "[]"
  | some (x :: xs) =>
    [0x5B] ++ w.arrOpen ++ joinWith ([0x2C] ++ w.arrSep) ((x :: xs).map appendString)
      ++ w.arrClose ++ [0x5D]

/-- The JSON object of a license, the fields in declaration order under their
`json` tags, laid out with the white space of `w`. It fails when one of the
two times cannot be encoded. -/
def encodeLicense (w : Layout) (l : License) : Except Error GoString :=
  match l.IssuedAt.MarshalJSON with
  | .error e => .error e
  | .ok issuedAt =>
    match l.ExpiresAt.MarshalJSON with
    | .error e => .error e
    | .ok expiresAt =>
      .ok ([0x7B] ++ w.objOpen
        ++ appendString (ascii "id") ++ [0x3A] ++ w.colon ++ appendString l.ID
        ++ [0x2C] ++ w.objSep
        ++ appendString (ascii "userName") ++ [0x3A] ++ w.colon ++ appendString l.UserName
        ++ [0x2C] ++ w.objSep
        ++ appendString (ascii "deviceId") ++ [0x3A] ++ w.colon ++ appendString l.DeviceID
        ++ [0x2C] ++ w.objSep
        ++ appendString (ascii "level") ++ [0x3A] ++ w.colon ++ appendString l.Level
        ++ [0x2C] ++ w.objSep
        ++ appendString (ascii "issuedAt") ++ [0x3A] ++ w.colon ++ issuedAt
        ++ [0x2C] ++ w.objSep
        ++ appendString (ascii "expiresAt") ++ [0x3A] ++ w.colon ++ expiresAt
        ++ [0x2C] ++ w.objSep
        ++ appendString (ascii "features") ++ [0x3A] ++ w.colon ++ encodeFeatures w l.Features
        ++ [0x2C] ++ w.objSep
        ++ appendString (ascii "signature") ++ [0x3A] ++ w.colon ++ appendString l.Signature
        ++ [0x2C] ++ w.objSep
        ++ appendString (ascii "issuerId") ++ [0x3A] ++ w.colon ++ appendString l.IssuerID
        ++ [0x2C] ++ w.objSep
        ++ appendString (ascii "version") ++ [0x3A] ++ w.colon ++ appendString l.Version
        ++ w.objClose ++ [0x7D])

/-- The layout of `json.Marshal`: no white space. -/
def compactLayout : Layout := ⟨[], [], [], [], [], [], []⟩

/-- The layout of `json.MarshalIndent(v, "", "  ")`: one member or element a
line, indented by two spaces a level, a space after each colon. -/
def indentLayout : Layout :=
  ⟨ascii " ", ascii "\n  ", ascii "\n  ", ascii "\n", ascii "\n    ", ascii "\n    ",
    ascii "\n  "⟩

/-- `json.Marshal(license)`. -/
def Marshal (l : License) : Except Error GoString := encodeLicense compactLayout l

/-- `json.MarshalIndent(license, "", "  ")`. -/
def MarshalIndent (l : License) : Except Error GoString := encodeLicense indentLayout l

/-! ## `encoding/json`: decoding

The decoder is modelled on the documents that consist of one object (or
`null`) whose member values are string literals, `null` or arrays of string
literals and `null`: the fragment that holds every encoding of a license.
White space, the order and repetition of the keys, the escapes of the string
literals, unknown keys and `null` values are treated as `json.Unmarshal`
treats them; a document with another kind of value (a number, a boolean, a
nested object or array) is rejected by the model, whatever its key. -/

/-- A syntax error of the decoder; the position is left out. -/
def errSyntax : Error := ⟨"invalid character in JSON input"⟩

/-- The input ended inside a value. -/
def errUnexpectedEnd : Error := ⟨"unexpected end of JSON input"⟩

/-- A value of a kind the Go type of the field cannot hold. -/
def errUnmarshalType : Error := ⟨"json: cannot unmarshal value into Go struct field of License"⟩

/-- JSON white space: space, tab, carriage return, line feed. -/
def isSpace (c : Byte) : Bool := c = 0x20 || c = 0x09 || c = 0x0D || c = 0x0A

/-- The input after its leading white space. -/
def skipSpace : GoString → GoString
  | [] => []
  | c :: rest => if isSpace c then skipSpace rest else c :: rest

/-- A hexadecimal digit, of either case. -/
def isHex (c : Byte) : Bool :=
  (48 ≤ c.val && c.val ≤ 57) || (97 ≤ c.val && c.val ≤ 102) || (65 ≤ c.val && c.val ≤ 70)

/-- The value of a hexadecimal digit. -/
def hexVal (c : Byte) : Nat :=
  if c.val ≤ 57 then c.val - 48 else if 97 ≤ c.val then c.val - 87 else c.val - 55

/-- The characters that may follow a backslash other than `u`:
`"`, `\`, `/`, `b`, `f`, `n`, `r`, `t`. -/
def isSimpleEscape (c : Byte) : Bool :=
  c = 0x22 || c = 0x5C || c = 0x2F || c = 0x62 || c = 0x66 || c = 0x6E || c = 0x72 || c = 0x74

/-- The states of the scanner inside a string literal: in the text, after a
backslash, and in a `\u` escape with `n + 1` hexadecimal digits to come. -/
inductive ScanState where
  | inString
  | inStringEsc
  | inStringEscU (n : Nat)
deriving DecidableEq, Repr

/-- The scanner inside a string literal, after the opening quote: the raw text
up to the closing quote and the input after it. A control character, an
unknown escape or the end of the input is an error. -/
def scanString : ScanState → GoString → Option (GoString × GoString)
  | _, [] => none
  | .inString, c :: rest =>
    if c = 0x22 then some ([], rest)
    else if c = 0x5C then (scanString .inStringEsc rest).map (fun p => (c :: p.1, p.2))
    else if c.val < 0x20 then none
    else (scanString .inString rest).map (fun p => (c :: p.1, p.2))
  | .inStringEsc, c :: rest =>
    if isSimpleEscape c then (scanString .inString rest).map (fun p => (c :: p.1, p.2))
    else if c = 0x75 then (scanString (.inStringEscU 3) rest).map (fun p => (c :: p.1, p.2))
    else none
  | .inStringEscU n, c :: rest =>
    if isHex c then
      (scanString (match n with | 0 => .inString | k + 1 => .inStringEscU k) rest).map
        (fun p => (c :: p.1, p.2))
    else none

/-- The byte a simple escape stands for (`unquote` also takes `\'`). -/
def unescape (e : Byte) : Option Byte :=
  if e = 0x22 || e = 0x5C || e = 0x2F || e = 0x27 then some e
  else if e = 0x62 then some 0x08
  else if e = 0x66 then some 0x0C
  else if e = 0x6E then some 0x0A
  else if e = 0x72 then some 0x0D
  else if e = 0x74 then some 0x09
  else none

/-- The rune of four hexadecimal digits (`getu4`). -/
def getu4 (h1 h2 h3 h4 : Byte) : Nat :=
  ((hexVal h1 * 16 + hexVal h2) * 16 + hexVal h3) * 16 + hexVal h4

/-- `unquote` after a `\u` escape of rune `rr`, `rest2` being the text after
its four digits and `next` the unquoting of what follows: the UTF-8 of the
rune; for a surrogate, the rune of the pair it forms with a second `\u`
escape, or U+FFFD when it forms none. -/
def unquoteU (next : GoString → Option GoString) (rr : Nat) (rest2 : GoString) :
    Option GoString :=
  if 0xD800 ≤ rr ∧ rr < 0xE000 then
    match rest2 with
    | c :: u :: k1 :: k2 :: k3 :: k4 :: rest3 =>
      if c = 0x5C ∧ u = 0x75 ∧ (isHex k1 && isHex k2 && isHex k3 && isHex k4) = true
          ∧ rr < 0xDC00 ∧ 0xDC00 ≤ getu4 k1 k2 k3 k4 ∧ getu4 k1 k2 k3 k4 < 0xE000 then
        (next rest3).map
          (encodeRune ((rr - 0xD800) * 1024 + (getu4 k1 k2 k3 k4 - 0xDC00) + 0x10000) ++ ·)
      else (next rest2).map (encodeRune RuneError ++ ·)
    | _ => (next rest2).map (encodeRune RuneError ++ ·)
  else (next rest2).map (encodeRune rr ++ ·)

/-- `unquote` after a backslash, `next` being the unquoting of what follows
the escape. -/
def unquoteEsc (next : GoString → Option GoString) (rest : GoString) : Option GoString :=
  match rest with
  | [] => none
  | e :: rest1 =>
    if e = 0x75 then
      match rest1 with
      | h1 :: h2 :: h3 :: h4 :: rest2 =>
        if (isHex h1 && isHex h2 && isHex h3 && isHex h4) = true then
          unquoteU next (getu4 h1 h2 h3 h4) rest2
        else none
      | _ => none
    else
      match unescape e with
      | some b => (next rest1).map (b :: ·)
      | none => none

/-- `unquote` on the raw text of a string literal: escapes are replaced by
what they stand for, a `\u` escape by the UTF-8 of its rune, and a byte that
starts no valid UTF-8 encoding by U+FFFD. -/
def unquoteAux : Nat → GoString → Option GoString
  | _, [] => some []
  | 0, _ :: _ => none
  | fuel + 1, c :: rest =>
    if c = 0x5C then unquoteEsc (unquoteAux fuel) rest
    else if c = 0x22 ∨ c.val < 0x20 then none
    else if c.val < 0x80 then (unquoteAux fuel rest).map (c :: ·)
    else
      (unquoteAux fuel ((c :: rest).drop (decodeRune (c :: rest)).2)).map
        (encodeRune (decodeRune (c :: rest)).1 ++ ·)

/-- `unquote` on the raw text of a string literal. -/
def unquote (raw : GoString) : Option GoString := unquoteAux raw.length raw

/-- `daysIn`: the number of days of a month of a year. -/
def daysIn (month year : Nat) : Nat :=
  if month = 2 then (if isLeap year then 29 else 28)
  else if month = 4 ∨ month = 6 ∨ month = 9 ∨ month = 11 then 30
  else 31

/-- The days of a month, for a flag that tells a leap year. -/
def monthLength (leap : Bool) (m : Int) : Int :=
  if m = 2 then (if leap then 29 else 28)
  else if m = 4 ∨ m = 6 ∨ m = 9 ∨ m = 11 then 30 else 31

/-- A decimal digit. -/
def isDigit (c : Byte) : Bool := 48 ≤ c.val && c.val ≤ 57

/-- The number a run of decimal digits denotes. -/
def natOfDigits (s : GoString) : Nat := s.foldl (fun n c => n * 10 + (c.val - 48)) 0

/-- The `parseUint` of `parseRFC3339`: the digits `s` as a number within
`[lo, hi]`. -/
def parseUint (s : GoString) (lo hi : Nat) : Option Nat :=
  if s.all isDigit ∧ lo ≤ natOfDigits s ∧ natOfDigits s ≤ hi then some (natOfDigits s) else none

/-- The fractional second after the seconds of an RFC 3339 time: a point and
digits, of which the first nine count; without a point and a digit there is
no fraction. The result is the nanoseconds and the text after the fraction. -/
def parseFrac (s : GoString) : Nat × GoString :=
  match s with
  | p :: d :: rest =>
    if p = 0x2E ∧ isDigit d then
      let ds := (d :: rest).takeWhile isDigit
      (natOfDigits (ds.take 9) * 10 ^ (9 - (ds.take 9).length), (d :: rest).dropWhile isDigit)
    else (0, s)
  | _ => (0, s)

/-- The zone of an RFC 3339 time: `Z`, or a sign, two digits of hours up to
23, a colon and two digits of minutes; the offset in seconds. -/
def parseZone (s : GoString) : Option Int :=
  match s with
  | [z] => if z = 0x5A then some 0 else none
  | [sg, h1, h2, c, m1, m2] =>
    match parseUint [h1, h2] 0 23, parseUint [m1, m2] 0 59 with
    | some hr, some mm =>
      if c = 0x3A ∧ sg = 0x2B then some (((hr * 60 + mm) * 60 : Nat) : Int)
      else if c = 0x3A ∧ sg = 0x2D then some (-(((hr * 60 + mm) * 60 : Nat) : Int))
      else none
    | _, _ => none
  | _ => none

/-- `parseRFC3339`, the parser `Time.UnmarshalJSON` tries first. (What only its
fallback `time.Parse` accepts, such as a one-digit hour, is rejected here.) -/
def parseRFC3339 (s : GoString) : Option Time :=
  match s with
  | y1 :: y2 :: y3 :: y4 :: c1 :: mo1 :: mo2 :: c2 :: d1 :: d2 :: c3 :: h1 :: h2 :: c4
      :: mi1 :: mi2 :: c5 :: s1 :: s2 :: rest =>
    match parseUint [y1, y2, y3, y4] 0 9999, parseUint [mo1, mo2] 1 12 with
    | some year, some month =>
      match parseUint [d1, d2] 1 (daysIn month year), parseUint [h1, h2] 0 23,
          parseUint [mi1, mi2] 0 59, parseUint [s1, s2] 0 59 with
      | some day, some hour, some min, some sec =>
        if c1 = 0x2D ∧ c2 = 0x2D ∧ c3 = 0x54 ∧ c4 = 0x3A ∧ c5 = 0x3A then
          match parseZone (parseFrac rest).2 with
          | some zoneOffset =>
            some
              { unixNano :=
                  ((daysFromCivil year month day * 86400 + (hour * 3600 + min * 60 + sec : Nat))
                    - zoneOffset) * nanosPerSecond + ((parseFrac rest).1 : Nat)
                offset := zoneOffset }
          | none => none
        else none
      | _, _, _, _ => none
    | _, _ => none
  | _ => none

/-- The error of `Time.UnmarshalJSON` on a text that is no RFC 3339 time. -/
def errParseTime : Error := ⟨"parsing time: cannot parse as RFC 3339"⟩

/-- A JSON value of the fragment: a string literal (its raw text), `null`, or
an array of string literals and `null`. -/
inductive Value where
  | str (raw : GoString)
  | null
  | arr (elems : List (Option GoString))
deriving DecidableEq, Repr

/-- The elements of an array after the first, up to the closing bracket: the
input stands after the white space that follows an element. -/
def parseElems : Nat → GoString → Except Error (List (Option GoString) × GoString)
  | 0, _ => .error errUnexpectedEnd
  | fuel + 1, s =>
    match s with
    | [] => .error errUnexpectedEnd
    | c :: rest =>
      if c = 0x5D then .ok ([], rest)
      else if c = 0x2C then
        match skipSpace rest with
        | 0x22 :: rest1 =>
          match scanString .inString rest1 with
          | none => .error errSyntax
          | some (raw, rest2) =>
            match parseElems fuel (skipSpace rest2) with
            | .error e => .error e
            | .ok (elems, rest3) => .ok (some raw :: elems, rest3)
        | 0x6E :: 0x75 :: 0x6C :: 0x6C :: rest1 =>
          match parseElems fuel (skipSpace rest1) with
          | .error e => .error e
          | .ok (elems, rest3) => .ok (none :: elems, rest3)
        | _ => .error errSyntax
      else .error errSyntax

/-- A value of the fragment at the head of the input, and the input after it. -/
def parseValue (s : GoString) : Except Error (Value × GoString) :=
  match s with
  | 0x22 :: rest =>
    match scanString .inString rest with
    | none => .error errSyntax
    | some (raw, rest1) => .ok (.str raw, rest1)
  | 0x6E :: 0x75 :: 0x6C :: 0x6C :: rest => .ok (.null, rest)
  | 0x5B :: rest =>
    match skipSpace rest with
    | 0x5D :: rest1 => .ok (.arr [], rest1)
    | 0x22 :: rest1 =>
      match scanString .inString rest1 with
      | none => .error errSyntax
      | some (raw, rest2) =>
        match parseElems rest2.length.succ (skipSpace rest2) with
        | .error e => .error e
        | .ok (elems, rest3) => .ok (.arr (some raw :: elems), rest3)
    | 0x6E :: 0x75 :: 0x6C :: 0x6C :: rest1 =>
      match parseElems rest1.length.succ (skipSpace rest1) with
      | .error e => .error e
      | .ok (elems, rest3) => .ok (.arr (none :: elems), rest3)
    | _ => .error errSyntax
  | _ => .error errSyntax

/-- The fields of `License`. -/
inductive Field where
  | ID | UserName | DeviceID | Level | IssuedAt | ExpiresAt | Features | Signature
  | IssuerID | Version
deriving DecidableEq, Repr

/-- The `json` tag of a field. -/
def Field.tag : Field → GoString
  | .ID => ascii "id"
  | .UserName => ascii "userName"
  | .DeviceID => ascii "deviceId"
  | .Level => ascii "level"
  | .IssuedAt => ascii "issuedAt"
  | .ExpiresAt => ascii "expiresAt"
  | .Features => ascii "features"
  | .Signature => ascii "signature"
  | .IssuerID => ascii "issuerId"
  | .Version => ascii "version"

/-- The fields in declaration order. -/
def allFields : List Field :=
  [.ID, .UserName, .DeviceID, .Level, .IssuedAt, .ExpiresAt, .Features, .Signature,
   .IssuerID, .Version]

/-- The case folding under which a key names a field: upper-case ASCII letters
become lower-case, and the two letters outside ASCII that Unicode folds onto
ASCII letters, U+017F (long s) and U+212A (Kelvin sign), become `s` and `k`. -/
def foldName : GoString → GoString
  | [] => []
  | c :: rest =>
    if c = 0xC5 ∧ rest.head? = some 0xBF then 0x73 :: foldName (rest.drop 1)
    else if c = 0xE2 ∧ rest.head? = some 0x84 ∧ (rest.drop 1).head? = some 0xAA then
      0x6B :: foldName (rest.drop 2)
    else (if 65 ≤ c.val ∧ c.val ≤ 90 then c + 32 else c) :: foldName rest
termination_by s => s.length
decreasing_by all_goals (simp only [List.length_cons, List.length_drop]; omega)

/-- The field a key of the object names: the one whose tag is the key, else
the first whose tag equals the key under case folding, else none. -/
def lookupField (key : GoString) : Option Field :=
  match allFields.find? (fun f => f.tag = key) with
  | some f => some f
  | none => allFields.find? (fun f => foldName f.tag = foldName key)

/-- The zero `License`, what `var license models.License` declares; the zero
`time.Time` is 0001-01-01T00:00:00Z. -/
def zeroLicense : License :=
  { ID := [], UserName := [], DeviceID := [], Level := []
    IssuedAt := ⟨-62135596800000000000, 0⟩, ExpiresAt := ⟨-62135596800000000000, 0⟩
    Features := none, Signature := [], IssuerID := [], Version := [] }

/-- A value stored into a string: a string literal is unquoted, `null` leaves
the string as it is, an array does not fit. -/
def storeString (v : Value) (old : GoString) : Except Error GoString :=
  match v with
  | .str raw =>
    match unquote raw with
    | some s => .ok s
    | none => .error errSyntax
  | .null => .ok old
  | .arr _ => .error errUnmarshalType

/-- `Time.UnmarshalJSON` on a value: the raw text of a string literal is parsed
as it stands, `null` leaves the time as it is. -/
def storeTime (v : Value) (old : Time) : Except Error Time :=
  match v with
  | .str raw =>
    match parseRFC3339 raw with
    | some t => .ok t
    | none => .error errParseTime
  | .null => .ok old
  | .arr _ => .error ⟨"Time.UnmarshalJSON: input is not a JSON string"⟩

/-- The elements of an array stored into a `[]string`: a `null` element is
the empty string. -/
def storeElems : List (Option GoString) → Except Error (List GoString)
  | [] => .ok []
  | none :: rest =>
    match storeElems rest with
    | .ok tail => .ok ([] :: tail)
    | .error e => .error e
  | some raw :: rest =>
    match unquote raw, storeElems rest with
    | some s, .ok tail => .ok (s :: tail)
    | none, _ => .error errSyntax
    | _, .error e => .error e

/-- A value stored into the `Features` slice: `null` makes it nil. -/
def storeFeatures (v : Value) : Except Error (Option (List GoString)) :=
  match v with
  | .str _ => .error errUnmarshalType
  | .null => .ok none
  | .arr elems =>
    match storeElems elems with
    | .ok fs => .ok (some fs)
    | .error e => .error e

/-- The value of a member stored into the field its key names; the value of
an unknown key is dropped. -/
def assign (f : Option Field) (v : Value) (l : License) : Except Error License :=
  match f with
  | none => .ok l
  | some .ID => (storeString v l.ID).map (fun x => { l with ID := x })
  | some .UserName => (storeString v l.UserName).map (fun x => { l with UserName := x })
  | some .DeviceID => (storeString v l.DeviceID).map (fun x => { l with DeviceID := x })
  | some .Level => (storeString v l.Level).map (fun x => { l with Level := x })
  | some .IssuedAt => (storeTime v l.IssuedAt).map (fun x => { l with IssuedAt := x })
  | some .ExpiresAt => (storeTime v l.ExpiresAt).map (fun x => { l with ExpiresAt := x })
  | some .Features => (storeFeatures v).map (fun x => { l with Features := x })
  | some .Signature => (storeString v l.Signature).map (fun x => { l with Signature := x })
  | some .IssuerID => (storeString v l.IssuerID).map (fun x => { l with IssuerID := x })
  | some .Version => (storeString v l.Version).map (fun x => { l with Version := x })

/-- The members of an object, from the opening quote of a key up to the
closing brace, stored into `l` one after the other. -/
def parseMembers : Nat → GoString → License → Except Error (License × GoString)
  | 0, _, _ => .error errUnexpectedEnd
  | fuel + 1, s, l =>
    match s with
    | 0x22 :: rest =>
      match scanString .inString rest with
      | none => .error errSyntax
      | some (rawKey, rest1) =>
        match unquote rawKey, skipSpace rest1 with
        | some key, 0x3A :: rest2 =>
          match parseValue (skipSpace rest2) with
          | .error e => .error e
          | .ok (v, rest3) =>
            match assign (lookupField key) v l with
            | .error e => .error e
            | .ok l2 =>
              match skipSpace rest3 with
              | 0x2C :: rest4 => parseMembers fuel (skipSpace rest4) l2
              | 0x7D :: rest4 => .ok (l2, rest4)
              | _ => .error errSyntax
        | _, _ => .error errSyntax
    | _ => .error errSyntax

/-- `json.Unmarshal(data, &license)` into a zero `License`: the license, or
the error. -/
def Unmarshal (data : GoString) : Except Error License :=
  match skipSpace data with
  | 0x7B :: rest =>
    match skipSpace rest with
    | 0x7D :: rest1 => if skipSpace rest1 = [] then .ok zeroLicense else .error errSyntax
    | s =>
      match parseMembers data.length s zeroLicense with
      | .error e => .error e
      | .ok (l, rest1) => if skipSpace rest1 = [] then .ok l else .error errSyntax
  | 0x6E :: 0x75 :: 0x6C :: 0x6C :: rest =>
    if skipSpace rest = [] then .ok zeroLicense else .error errSyntax
  | _ => .error errSyntax

/-- A layout that consists of white space only. -/
def Layout.Blank (w : Layout) : Prop :=
  (∀ c ∈ w.colon, isSpace c = true) ∧ (∀ c ∈ w.objOpen, isSpace c = true) ∧
  (∀ c ∈ w.objSep, isSpace c = true) ∧ (∀ c ∈ w.objClose, isSpace c = true) ∧
  (∀ c ∈ w.arrOpen, isSpace c = true) ∧ (∀ c ∈ w.arrSep, isSpace c = true) ∧
  (∀ c ∈ w.arrClose, isSpace c = true)

/-- A license whose strings (the features among them) are valid UTF-8 and whose
two times are presented in zones with an offset of whole minutes: the
licenses that JSON text can represent exactly. -/
def License.WellFormed (l : License) : Prop :=
  validUTF8 l.ID = true ∧ validUTF8 l.UserName = true ∧ validUTF8 l.DeviceID = true ∧
  validUTF8 l.Level = true ∧ l.IssuedAt.offset % 60 = 0 ∧ l.ExpiresAt.offset % 60 = 0 ∧
  (l.Features.getD []).all validUTF8 = true ∧ validUTF8 l.Signature = true ∧
  validUTF8 l.IssuerID = true ∧ validUTF8 l.Version = true

instance (l : License) : Decidable l.WellFormed := by
  unfold License.WellFormed; infer_instance

/-- A byte the scanner takes as text of a string literal. -/
def isPlain (c : Byte) : Prop := c ≠ 0x22 ∧ c ≠ 0x5C ∧ 0x20 ≤ c.val

/-- The effect on the result of the scanner of text it passes over. -/
def pre (chunk : GoString) (p : GoString × GoString) : GoString × GoString :=
  (chunk ++ p.1, p.2)

/-- The encoding of the elements of an array after the first, up to the
closing bracket. -/
def arrTail (w : Layout) : List GoString → GoString
  | [] => w.arrClose ++ [0x5D]
  | x :: xs => [0x2C] ++ w.arrSep ++ appendString x ++ arrTail w xs

/-- The value the decoder reads from the encoding of a `Features` slice. -/
def featuresValue : Option (List GoString) → Value
  | none => .null
  | some xs => .arr (xs.map (fun x => some (appendStringAux x.length x)))

/-! ## `encoding/base64` -/

/-- The character of the standard base64 alphabet for the six-bit value `n`. -/
def b64char (n : Nat) : Byte :=
  if n < 26 then Fin.ofNat (65 + n)
  else if n < 52 then Fin.ofNat (71 + n)
  else if n < 62 then Fin.ofNat (n - 4)
  else if n = 62 then 0x2B
  else 0x2F

/-- The six-bit value of a character of the standard alphabet. -/
def b64val (c : Byte) : Option Nat :=
  if 65 ≤ c.val ∧ c.val ≤ 90 then some (c.val - 65)
  else if 97 ≤ c.val ∧ c.val ≤ 122 then some (c.val - 71)
  else if 48 ≤ c.val ∧ c.val ≤ 57 then some (c.val + 4)
  else if c.val = 0x2B then some 62
  else if c.val = 0x2F then some 63
  else none

/-- `base64.StdEncoding.EncodeToString`. -/
def base64Encode : GoString → GoString
  | a :: b :: c :: rest =>
    [b64char (a.val / 4), b64char (a.val % 4 * 16 + b.val / 16),
     b64char (b.val % 16 * 4 + c.val / 64), b64char (c.val % 64)] ++ base64Encode rest
  | [a, b] =>
    [b64char (a.val / 4), b64char (a.val % 4 * 16 + b.val / 16), b64char (b.val % 16 * 4), 0x3D]
  | [a] => [b64char (a.val / 4), b64char (a.val % 4 * 16), 0x3D, 0x3D]
  | [] => []

/-- The `base64.CorruptInputError`; the byte position it reports is left out. -/
def errCorruptInput : Error := ⟨"illegal base64 data at input byte"⟩

/-- The quanta of `base64.StdEncoding.DecodeString`, after the carriage
returns and line feeds have been dropped: four characters give three bytes;
padding is accepted only as the last one or two characters of the last
quantum, and the unused low bits of a padded quantum are not checked. -/
def base64DecodeQuanta : GoString → Except Error GoString
  | [] => .ok []
  | c0 :: c1 :: c2 :: c3 :: rest =>
    match b64val c0, b64val c1 with
    | some v0, some v1 =>
      if c2 = 0x3D then
        if c3 = 0x3D ∧ rest = [] then .ok [Fin.ofNat (v0 * 4 + v1 / 16)]
        else .error errCorruptInput
      else
        match b64val c2 with
        | none => .error errCorruptInput
        | some v2 =>
          if c3 = 0x3D then
            if rest = [] then
              .ok [Fin.ofNat (v0 * 4 + v1 / 16), Fin.ofNat (v1 % 16 * 16 + v2 / 4)]
            else .error errCorruptInput
          else
            match b64val c3 with
            | none => .error errCorruptInput
            | some v3 =>
              match base64DecodeQuanta rest with
              | .error e => .error e
              | .ok tail =>
                .ok (Fin.ofNat (v0 * 4 + v1 / 16) :: Fin.ofNat (v1 % 16 * 16 + v2 / 4)
                      :: Fin.ofNat (v2 % 4 * 64 + v3) :: tail)
    | _, _ => .error errCorruptInput
  | _ => .error errCorruptInput

/-- `base64.StdEncoding.DecodeString`: carriage returns and line feeds are
ignored wherever they stand. -/
def base64Decode (s : GoString) : Except Error GoString :=
  base64DecodeQuanta (s.filter (fun c => c ≠ 0x0D ∧ c ≠ 0x0A))

/-! ## `internal/crypto/rsa.go` -/

/-- An `rsa.PublicKey`: modulus and public exponent. -/
structure PublicKey where
  N : Nat
  E : Nat
deriving DecidableEq, Repr

/-- An `rsa.PrivateKey`: its public half and the private exponent. -/
structure PrivateKey where
  PublicKey : PublicKey
  D : Nat
deriving DecidableEq, Repr

/-- What the operations take from outside the program: the key files and the
signature primitive.
* `loadPrivateKey`, `loadPublicKey`: the outcome of `crypto.LoadPrivateKey`
  and `crypto.LoadPublicKey` on a path (reading the file, PEM and DER
  decoding), a key or the error.
* `pkcs1v15 pub data`: the RSASSA-PKCS1-v1_5 signature over the SHA-256 digest
  of `data` that is valid under the public key `pub`. The scheme is
  deterministic: a key pair has exactly one valid signature for a digest, the
  one `rsa.SignPKCS1v15` returns with the private half and the only one
  `rsa.VerifyPKCS1v15` accepts with the public half. It is an error when the
  key cannot sign (a modulus too short for the digest). -/
structure Env where
  loadPrivateKey : GoString → Except Error PrivateKey
  loadPublicKey : GoString → Except Error PublicKey
  pkcs1v15 : PublicKey → GoString → Except Error GoString

/-- `crypto.Sign`. -/
def Sign (env : Env) (privateKey : PrivateKey) (data : GoString) : Except Error GoString :=
  env.pkcs1v15 privateKey.PublicKey data

/-- The `rsa.ErrVerification` error. -/
def ErrVerification : Error := ⟨"crypto/rsa: verification error"⟩

/-- `crypto.Verify`: accepts exactly the signature of `data` under `publicKey`. -/
def Verify (env : Env) (publicKey : PublicKey) (data signature : GoString) : Except Error Unit :=
  match env.pkcs1v15 publicKey data with
  | .ok s => if s = signature then .ok () else .error ErrVerification
  | .error _ => .error ErrVerification

/-! ## `internal/license/manager.go` -/

/-- The `Manager` struct. -/
structure Manager where
  privateKeyPath : GoString
  publicKeyPath : GoString
deriving DecidableEq, Repr

/-- A call into the `crypto` package. -/
inductive Call where
  | LoadPrivateKey (path : GoString)
  | LoadPublicKey (path : GoString)
  | Sign
  | Verify
deriving DecidableEq, Repr

/-- What a method that works on the caller's license leaves behind: the value
it returns, the license in memory at the return, and the calls it made into
the `crypto` package, in order. -/
structure Outcome (α : Type) where
  result : Except Error α
  license : License
  calls : List Call

/-- The error of the basic validity check of `VerifyLicense`. -/
def errNotValid : Error := ⟨"license is not valid for this device or has expired"⟩

/-- `Manager.GenerateLicense`; `localLoc`, `now` and `uuid` are the Location,
the clock reading and the identifier of `NewLicense`. -/
def Manager.GenerateLicense (env : Env) (m : Manager) (localLoc : Location) (now : Time)
    (uuid : GoString) (userName deviceID level : GoString) (validDays : Int) :
    Except Error License :=
  let license := NewLicense localLoc now uuid userName deviceID level validDays
  match env.loadPrivateKey m.privateKeyPath with
  | .error err => .error err
  | .ok privateKey =>
    let license := { license with Signature := [] }
    match Marshal license with
    | .error err => .error err
    | .ok licenseData =>
      match Sign env privateKey licenseData with
      | .error err => .error err
      | .ok signature => .ok { license with Signature := base64Encode signature }

/-- `Manager.VerifyLicense`, at clock reading `now`. -/
def Manager.VerifyLicense (env : Env) (m : Manager) (now : Time) (license : License)
    (deviceID : GoString) : Outcome Unit :=
  if license.IsValid now deviceID = false then
    ⟨.error errNotValid, license, []⟩
  else
    match env.loadPublicKey m.publicKeyPath with
    | .error err => ⟨.error err, license, [.LoadPublicKey m.publicKeyPath]⟩
    | .ok publicKey =>
      match base64Decode license.Signature with
      | .error err => ⟨.error err, license, [.LoadPublicKey m.publicKeyPath]⟩
      | .ok signature =>
        let tempSignature := license.Signature
        let license := { license with Signature := [] }
        match Marshal license with
        | .error err => ⟨.error err, license, [.LoadPublicKey m.publicKeyPath]⟩
        | .ok licenseData =>
          let license := { license with Signature := tempSignature }
          ⟨Verify env publicKey licenseData signature, license,
            [.LoadPublicKey m.publicKeyPath, .Verify]⟩

/-- `Manager.RenewLicense`; `localLoc`, `loc`, `now` and `now2` are the
Locations and the clock readings of `License.Renew`. On success the result is
the caller's license itself. -/
def Manager.RenewLicense (env : Env) (m : Manager) (localLoc loc : Location) (now now2 : Time)
    (license : License) (days : Int) : Outcome License :=
  let license := license.Renew localLoc loc now now2 days
  match env.loadPrivateKey m.privateKeyPath with
  | .error err => ⟨.error err, license, [.LoadPrivateKey m.privateKeyPath]⟩
  | .ok privateKey =>
    let license := { license with Signature := [] }
    match Marshal license with
    | .error err => ⟨.error err, license, [.LoadPrivateKey m.privateKeyPath]⟩
    | .ok licenseData =>
      match Sign env privateKey licenseData with
      | .error err => ⟨.error err, license, [.LoadPrivateKey m.privateKeyPath, .Sign]⟩
      | .ok signature =>
        let license := { license with Signature := base64Encode signature }
        ⟨.ok license, license, [.LoadPrivateKey m.privateKeyPath, .Sign]⟩

/-- The files of the machine: the content of a path, if a file is there, and
the paths at which `os.WriteFile` succeeds. A file that was written is read
back as it was written. -/
structure FS where
  files : GoString → Option GoString
  writable : GoString → Bool

/-- `os.ReadFile`. -/
def FS.ReadFile (fs : FS) (path : GoString) : Except Error GoString :=
  match fs.files path with
  | some data => .ok data
  | none => .error ⟨"open: no such file or directory"⟩

/-- `os.WriteFile(path, data, 0644)`: the error or nothing, and the files
afterwards. -/
def FS.WriteFile (fs : FS) (path data : GoString) : Except Error Unit × FS :=
  if fs.writable path then
    (.ok (), { fs with files := fun p => if p = path then some data else fs.files p })
  else (.error ⟨"open: permission denied"⟩, fs)

/-- `Manager.SaveLicense`: the error or nothing, and the files afterwards. -/
def Manager.SaveLicense (_m : Manager) (fs : FS) (license : License) (filePath : GoString) :
    Except Error Unit × FS :=
  match MarshalIndent license with
  | .error err => (.error err, fs)
  | .ok data => fs.WriteFile filePath data

/-- `Manager.LoadLicense`. -/
def Manager.LoadLicense (_m : Manager) (fs : FS) (filePath : GoString) : Except Error License :=
  match fs.ReadFile filePath with
  | .error err => .error err
  | .ok data =>
    match Unmarshal data with
    | .error err => .error err
    | .ok license => .ok license

/-- The invariant of a signed license under the private key `K`: the
signature is the base64 text of `Sign(K, payload)`, the payload being
`json.Marshal` of the license with the signature cleared. -/
def SignedBy (env : Env) (K : PrivateKey) (L : License) : Prop :=
  ∃ payload sig, Marshal { L with Signature := [] } = .ok payload ∧
    Sign env K payload = .ok sig ∧ L.Signature = base64Encode sig

/-! ## Concrete values used to instantiate the theorems -/

deriving instance DecidableEq for Except

/-- An environment in which both key files load, as the two halves of one
pair, and a signature is the key's modulus byte followed by the signed data
(so that it is a different signature for different data). -/
def demoEnv : Env :=
  { loadPrivateKey := fun _ => .ok ⟨⟨3233, 17⟩, 413⟩
    loadPublicKey := fun _ => .ok ⟨3233, 17⟩
    pkcs1v15 := fun pub data => .ok (Fin.ofNat pub.N :: data) }

/-- An environment in which no key file can be read. -/
def noKeysEnv : Env :=
  { loadPrivateKey := fun _ => .error ⟨"open private.pem: no such file or directory"⟩
    loadPublicKey := fun _ => .error ⟨"open public.pem: no such file or directory"⟩
    pkcs1v15 := fun _ data => .ok data }

/-- A manager over two key paths. -/
def demoManager : Manager := ⟨ascii "private.pem", ascii "public.pem"⟩

/-- The clock reading 2023-11-14T22:13:20Z. -/
def demoNow : Time := ⟨1700000000000000000, 0⟩

/-- The rules of `America/New_York` from March 2023 to March 2025: five hours
west of UTC in winter, four in summer, the changes being at 2023-11-05,
2024-03-10 and 2024-11-03. -/
def newYork : Location :=
  ⟨fun sec =>
    if sec < 1699164000 then (-14400, 1678604400, 1699164000)
    else if sec < 1710054000 then (-18000, 1699164000, 1710054000)
    else if sec < 1730613600 then (-14400, 1710054000, 1730613600)
    else (-18000, 1730613600, 1741503600)⟩

/-- The clock reading of `demoNow` as New York presents it,
2023-11-14T17:13:20-05:00. -/
def demoNowNewYork : Time := ⟨1700000000000000000, -18000⟩

/-- A license issued at `demoNow` for 30 days, not yet signed. -/
def demoLicense : License :=
  NewLicense (FixedZone 0) demoNow (ascii "6ba7b810-9dad-11d1-80b4-00c04fd430c8") (ascii "alice")
    (ascii "dev-1") (ascii "professional") 30

/-- A license that expired a day before `demoNow`. -/
def expiredLicense : License :=
  { demoLicense with ExpiresAt := demoNow.AddDate (FixedZone 0) (-1) }

/-- A license that is not expired at `demoNow`, expires in the year 10000 and
carries the (well-formed base64) signature `AAAA`. -/
def farFutureLicense : License :=
  { demoLicense with ExpiresAt := ⟨253402300800000000000, 0⟩, Signature := ascii "AAAA" }

/-- A license issued at `demoNow` for 200000 days (some 547 years). -/
def centuriesLicense : License :=
  NewLicense (FixedZone 0) demoNow (ascii "6ba7b810-9dad-11d1-80b4-00c04fd430c8") (ascii "alice")
    (ascii "dev-1") (ascii "professional") 200000

/-- The demo license with its expiry at `demoNow` itself: at that clock
reading it is in its last moment, not expired. -/
def lastMomentLicense : License := { demoLicense with ExpiresAt := demoNow }

/-- A license that at `demoNow` has one nanosecond less than 171 days left. -/
def almost171License : License :=
  { demoLicense with ExpiresAt := ⟨demoNow.unixNano + 171 * nanosPerDay - 1, 0⟩ }

/-- The license in memory after renewing `demoLicense` by 10 days at `demoNow`. -/
def demoRenewed : License :=
  (demoManager.RenewLicense demoEnv (FixedZone 0) (FixedZone 0) demoNow demoNow demoLicense
    10).license

/-- The license `GenerateLicense` returns for alice at `demoNow`. -/
def demoSigned : License :=
  { demoLicense with
    Signature := base64Encode (Fin.ofNat 3233 :: (Marshal demoLicense).toOption.getD []) }

/-- A machine without files, on which every path can be written. -/
def emptyFS : FS := ⟨fun _ => none, fun _ => true⟩

/-- The path `license.dat`. -/
def licensePath : GoString := ascii "license.dat"

/-- The signed demo license with a user name that is the single byte `0xFF`,
which is not valid UTF-8. -/
def badNameLicense : License := { demoSigned with UserName := [0xFF] }

/-- The license `GenerateLicense` returns for the user name `0xFF` at `demoNow`. -/
def badNameSigned : License :=
  { demoLicense with
    UserName := [0xFF]
    Signature := base64Encode
      (Fin.ofNat 3233 :: (Marshal { demoLicense with UserName := [0xFF] }).toOption.getD []) }

/-- The signed demo license with its issue time presented in a zone 30 seconds
east of UTC. -/
def oddZoneLicense : License := { demoSigned with IssuedAt := ⟨1700000000000000000, 30⟩ }

/-! ## Theorems -/

/-! ### base64 -/

theorem b64val_b64char : ∀ n : Fin 64, b64val (b64char n.val) = some n.val := by decide

theorem b64char_ne : ∀ n : Fin 64,
    b64char n.val ≠ 0x3D ∧ b64char n.val ≠ 0x0D ∧ b64char n.val ≠ 0x0A := by decide

theorem b64val_b64char_lt (n : Nat) (h : n < 64) : b64val (b64char n) = some n :=
  b64val_b64char ⟨n, h⟩

theorem b64char_ne_pad (n : Nat) (h : n < 64) : b64char n ≠ 0x3D := (b64char_ne ⟨n, h⟩).1

theorem base64DecodeQuanta_encode (s : GoString) :
    base64DecodeQuanta (base64Encode s) = .ok s := by
  induction s using base64Encode.induct with
  | case1 a b c rest ih =>
    have ha := a.isLt; have hb := b.isLt; have hc := c.isLt
    have h0 : a.val / 4 < 64 := by omega
    have h1 : a.val % 4 * 16 + b.val / 16 < 64 := by omega
    have h2 : b.val % 16 * 4 + c.val / 64 < 64 := by omega
    have h3 : c.val % 64 < 64 := by omega
    simp only [base64Encode, List.cons_append, List.nil_append, base64DecodeQuanta,
      b64val_b64char_lt _ h0, b64val_b64char_lt _ h1, b64val_b64char_lt _ h2,
      b64val_b64char_lt _ h3, b64char_ne_pad _ h2, b64char_ne_pad _ h3, if_false]
    have hnil : ([] : List Byte).append (base64Encode rest) = base64Encode rest := rfl
    rw [hnil, ih]
    simp only []
    have e1 : (Fin.ofNat (a.val / 4 * 4 + (a.val % 4 * 16 + b.val / 16) / 16) : Byte) = a := by
      apply Fin.ext; simp [Fin.ofNat]; omega
    have e2 : (Fin.ofNat ((a.val % 4 * 16 + b.val / 16) % 16 * 16
        + (b.val % 16 * 4 + c.val / 64) / 4) : Byte) = b := by
      apply Fin.ext; simp [Fin.ofNat]; omega
    have e3 : (Fin.ofNat ((b.val % 16 * 4 + c.val / 64) % 4 * 64 + c.val % 64) : Byte) = c := by
      apply Fin.ext; simp [Fin.ofNat]; omega
    rw [e1, e2, e3]
  | case2 a b =>
    have ha := a.isLt; have hb := b.isLt
    have h0 : a.val / 4 < 64 := by omega
    have h1 : a.val % 4 * 16 + b.val / 16 < 64 := by omega
    have h2 : b.val % 16 * 4 < 64 := by omega
    simp only [base64Encode, base64DecodeQuanta,
      b64val_b64char_lt _ h0, b64val_b64char_lt _ h1, b64val_b64char_lt _ h2,
      b64char_ne_pad _ h2, if_false, if_true]
    congr 1
    have e1 : (Fin.ofNat (a.val / 4 * 4 + (a.val % 4 * 16 + b.val / 16) / 16) : Byte) = a := by
      apply Fin.ext; simp [Fin.ofNat]; omega
    have e2 : (Fin.ofNat ((a.val % 4 * 16 + b.val / 16) % 16 * 16
        + (b.val % 16 * 4) / 4) : Byte) = b := by
      apply Fin.ext; simp [Fin.ofNat]; omega
    rw [e1, e2]
  | case3 a =>
    have ha := a.isLt
    have h0 : a.val / 4 < 64 := by omega
    have h1 : a.val % 4 * 16 < 64 := by omega
    simp only [base64Encode, base64DecodeQuanta,
      b64val_b64char_lt _ h0, b64val_b64char_lt _ h1, if_true, and_self]
    congr 1
    have e1 : (Fin.ofNat (a.val / 4 * 4 + (a.val % 4 * 16) / 16) : Byte) = a := by
      apply Fin.ext; simp [Fin.ofNat]; omega
    rw [e1]
  | case4 => simp [base64Encode, base64DecodeQuanta]

theorem base64Encode_no_newline (s : GoString) :
    ∀ c ∈ base64Encode s, c ≠ 0x0D ∧ c ≠ 0x0A := by
  induction s using base64Encode.induct with
  | case1 a b c rest ih =>
    have ha := a.isLt; have hb := b.isLt; have hc := c.isLt
    have h0 : a.val / 4 < 64 := by omega
    have h1 : a.val % 4 * 16 + b.val / 16 < 64 := by omega
    have h2 : b.val % 16 * 4 + c.val / 64 < 64 := by omega
    have h3 : c.val % 64 < 64 := by omega
    intro x hx
    simp only [base64Encode, List.cons_append, List.nil_append, List.mem_cons] at hx
    rcases hx with rfl | rfl | rfl | rfl | hx
    · exact (b64char_ne ⟨_, h0⟩).2
    · exact (b64char_ne ⟨_, h1⟩).2
    · exact (b64char_ne ⟨_, h2⟩).2
    · exact (b64char_ne ⟨_, h3⟩).2
    · exact ih x hx
  | case2 a b =>
    have ha := a.isLt; have hb := b.isLt
    have h0 : a.val / 4 < 64 := by omega
    have h1 : a.val % 4 * 16 + b.val / 16 < 64 := by omega
    have h2 : b.val % 16 * 4 < 64 := by omega
    intro x hx
    simp only [base64Encode, List.mem_cons, List.mem_singleton, List.not_mem_nil, or_false] at hx
    rcases hx with rfl | rfl | rfl | rfl
    · exact (b64char_ne ⟨_, h0⟩).2
    · exact (b64char_ne ⟨_, h1⟩).2
    · exact (b64char_ne ⟨_, h2⟩).2
    · decide
  | case3 a =>
    have ha := a.isLt
    have h0 : a.val / 4 < 64 := by omega
    have h1 : a.val % 4 * 16 < 64 := by omega
    intro x hx
    simp only [base64Encode, List.mem_cons, List.mem_singleton, List.not_mem_nil, or_false] at hx
    rcases hx with rfl | rfl | rfl | rfl
    · exact (b64char_ne ⟨_, h0⟩).2
    · exact (b64char_ne ⟨_, h1⟩).2
    · decide
    · decide
  | case4 => simp [base64Encode]

/-- Decoding what `EncodeToString` wrote gives the bytes back. -/
theorem base64Decode_encode (s : GoString) : base64Decode (base64Encode s) = .ok s := by
  unfold base64Decode
  rw [List.filter_eq_self.2, base64DecodeQuanta_encode]
  intro c hc
  have := base64Encode_no_newline s c hc
  simp [this.1, this.2]

/-! ### `float64` rounding and `DaysUntilExpiration` -/

theorem roundHalfEven_intCast (n : Int) : roundHalfEven (n : ℚ) = n := by
  simp [roundHalfEven]

theorem floor_le_roundHalfEven (q : ℚ) : ⌊q⌋ ≤ roundHalfEven q := by
  unfold roundHalfEven; split_ifs <;> omega

theorem roundHalfEven_le_floor_succ (q : ℚ) : roundHalfEven q ≤ ⌊q⌋ + 1 := by
  unfold roundHalfEven; split_ifs <;> omega

theorem roundHalfEven_mono {p q : ℚ} (h : p ≤ q) : roundHalfEven p ≤ roundHalfEven q := by
  have hf : ⌊p⌋ ≤ ⌊q⌋ := Int.floor_mono h
  rcases hf.lt_or_eq with hlt | heq
  · calc roundHalfEven p ≤ ⌊p⌋ + 1 := roundHalfEven_le_floor_succ p
      _ ≤ ⌊q⌋ := hlt
      _ ≤ roundHalfEven q := floor_le_roundHalfEven q
  · have hr : p - ⌊p⌋ ≤ q - ⌊q⌋ := by rw [heq]; linarith
    unfold roundHalfEven
    rw [heq] at hr ⊢
    split_ifs <;> first | omega | (exfalso; linarith)


theorem two_zpow_pos (n : ℤ) : (0 : ℚ) < 2 ^ n := zpow_pos (by norm_num) n

/-- For positive `x` the scaled significand lies in `[2^52, 2^53)`. -/
theorem scaled_bounds {x : ℚ} (hx : 0 < x) :
    (2 : ℚ) ^ (52 : ℤ) ≤ x / 2 ^ (Int.log 2 x - 52) ∧
    x / 2 ^ (Int.log 2 x - 52) < (2 : ℚ) ^ (53 : ℤ) := by
  have hu := two_zpow_pos (Int.log 2 x - 52)
  have h1 : (2 : ℚ) ^ Int.log 2 x ≤ x := by
    have := Int.zpow_log_le_self (R := ℚ) (b := 2) (by norm_num) hx
    simpa using this
  have h2 : x < (2 : ℚ) ^ (Int.log 2 x + 1) := by
    have := Int.lt_zpow_succ_log_self (R := ℚ) (b := 2) (by norm_num) x
    simpa using this
  constructor
  · rw [le_div_iff₀ hu, ← zpow_add₀ (by norm_num : (2 : ℚ) ≠ 0)]
    have : (52 : ℤ) + (Int.log 2 x - 52) = Int.log 2 x := by ring
    rw [this]; exact h1
  · rw [div_lt_iff₀ hu, ← zpow_add₀ (by norm_num : (2 : ℚ) ≠ 0)]
    have : (53 : ℤ) + (Int.log 2 x - 52) = Int.log 2 x + 1 := by ring
    rw [this]; exact h2

theorem round64_of_pos {x : ℚ} (hx : 0 < x) :
    round64 x = roundHalfEven (x / 2 ^ (Int.log 2 x - 52)) * 2 ^ (Int.log 2 x - 52) := by
  simp [round64, hx.ne', abs_of_pos hx]

/-- A positive number rounds into the closure of its binade. -/
theorem round64_binade {x : ℚ} (hx : 0 < x) :
    (2 : ℚ) ^ Int.log 2 x ≤ round64 x ∧ round64 x ≤ (2 : ℚ) ^ (Int.log 2 x + 1) := by
  have hu := two_zpow_pos (Int.log 2 x - 52)
  obtain ⟨hlo, hhi⟩ := scaled_bounds hx
  have e52 : ((2 ^ 52 : ℤ) : ℚ) = (2 : ℚ) ^ (52 : ℤ) := by norm_num
  have e53 : ((2 ^ 53 : ℤ) : ℚ) = (2 : ℚ) ^ (53 : ℤ) := by norm_num
  have r1 : (2 ^ 52 : ℤ) ≤ roundHalfEven (x / 2 ^ (Int.log 2 x - 52)) := by
    have := roundHalfEven_mono (e52 ▸ hlo)
    rwa [roundHalfEven_intCast] at this
  have r2 : roundHalfEven (x / 2 ^ (Int.log 2 x - 52)) ≤ (2 ^ 53 : ℤ) := by
    have := roundHalfEven_mono (e53 ▸ hhi.le)
    rwa [roundHalfEven_intCast] at this
  rw [round64_of_pos hx]
  constructor
  · have : (2 : ℚ) ^ Int.log 2 x = (2 : ℚ) ^ (52 : ℤ) * 2 ^ (Int.log 2 x - 52) := by
      rw [← zpow_add₀ (by norm_num : (2 : ℚ) ≠ 0)]; congr 1; ring
    rw [this, ← e52]
    exact mul_le_mul_of_nonneg_right (by exact_mod_cast r1) hu.le
  · have : (2 : ℚ) ^ (Int.log 2 x + 1) = (2 : ℚ) ^ (53 : ℤ) * 2 ^ (Int.log 2 x - 52) := by
      rw [← zpow_add₀ (by norm_num : (2 : ℚ) ≠ 0)]; congr 1; ring
    rw [this, ← e53]
    exact mul_le_mul_of_nonneg_right (by exact_mod_cast r2) hu.le

theorem round64_nonneg {x : ℚ} (hx : 0 ≤ x) : 0 ≤ round64 x := by
  rcases hx.eq_or_lt with h | h
  · simp [round64, ← h]
  · exact le_trans (two_zpow_pos _).le (round64_binade h).1

/-- Rounding is monotone on the non-negative numbers. -/
theorem round64_mono {x y : ℚ} (hx : 0 ≤ x) (h : x ≤ y) : round64 x ≤ round64 y := by
  rcases hx.eq_or_lt with h0 | hpos
  · have : round64 x = 0 := by simp [round64, ← h0]
    rw [this]; exact round64_nonneg (hx.trans h)
  · have hy : 0 < y := lt_of_lt_of_le hpos h
    have hlog : Int.log 2 x ≤ Int.log 2 y := Int.log_mono_right hpos h
    rcases hlog.lt_or_eq with hlt | heq
    · calc round64 x ≤ (2 : ℚ) ^ (Int.log 2 x + 1) := (round64_binade hpos).2
        _ ≤ (2 : ℚ) ^ Int.log 2 y := zpow_le_zpow_right₀ (by norm_num) hlt
        _ ≤ round64 y := (round64_binade hy).1
    · rw [round64_of_pos hpos, round64_of_pos hy, heq]
      have hu := two_zpow_pos (Int.log 2 y - 52)
      apply mul_le_mul_of_nonneg_right _ hu.le
      have : x / 2 ^ (Int.log 2 y - 52) ≤ y / 2 ^ (Int.log 2 y - 52) :=
        div_le_div_of_nonneg_right h hu.le
      exact_mod_cast roundHalfEven_mono this

/-- A number with a significand of at most 53 bits is its own rounding. -/
theorem round64_exact (m : ℕ) (e : ℤ) (hm : m < 2 ^ 53) :
    round64 ((m : ℚ) * 2 ^ e) = (m : ℚ) * 2 ^ e := by
  rcases Nat.eq_zero_or_pos m with h0 | hpos
  · simp [round64, h0]
  · have hx : (0 : ℚ) < (m : ℚ) * 2 ^ e := mul_pos (by exact_mod_cast hpos) (two_zpow_pos e)
    set x : ℚ := (m : ℚ) * 2 ^ e with hxdef
    set E := Int.log 2 x with hE
    have h1 : (2 : ℚ) ^ E ≤ x := by
      have := Int.zpow_log_le_self (R := ℚ) (b := 2) (by norm_num) hx
      simpa using this
    have hlt : x < (2 : ℚ) ^ (53 + e) := by
      rw [zpow_add₀ (by norm_num : (2 : ℚ) ≠ 0)]
      apply mul_lt_mul_of_pos_right _ (two_zpow_pos e)
      rw [show ((2 : ℚ) ^ (53 : ℤ)) = ((2 ^ 53 : ℕ) : ℚ) by norm_num]
      exact_mod_cast hm
    have hEe : E < 53 + e := (zpow_lt_zpow_iff_right₀ (by norm_num : (1 : ℚ) < 2)).1 (lt_of_le_of_lt h1 hlt)
    obtain ⟨n, hn⟩ : ∃ n : ℕ, (n : ℤ) = e - (E - 52) := ⟨(e - (E - 52)).toNat, by omega⟩
    have hdiv : x / 2 ^ (E - 52) = (((m * 2 ^ n : ℕ) : ℤ) : ℚ) := by
      rw [div_eq_iff (two_zpow_pos _).ne']
      push_cast
      rw [mul_assoc, ← zpow_natCast (2 : ℚ) n, ← zpow_add₀ (by norm_num : (2 : ℚ) ≠ 0), hn]
      rw [hxdef]; congr 2; ring
    rw [round64_of_pos hx, ← hE, hdiv, roundHalfEven_intCast, ← hdiv]
    exact div_mul_cancel₀ _ (two_zpow_pos _).ne'

theorem round64_natCast (m : ℕ) (hm : m < 2 ^ 53) : round64 (m : ℚ) = m := by
  simpa using round64_exact m 0 hm

theorem roundHalfEven_neg (q : ℚ) : roundHalfEven (-q) = -roundHalfEven q := by
  by_cases hq : (⌊q⌋ : ℚ) = q
  · rw [← hq, ← Int.cast_neg, roundHalfEven_intCast, roundHalfEven_intCast]
  · have hlt : (⌊q⌋ : ℚ) < q := lt_of_le_of_ne (Int.floor_le q) hq
    have hf : ⌊-q⌋ = -⌊q⌋ - 1 := by
      rw [Int.floor_eq_iff]
      have := Int.lt_floor_add_one q
      push_cast
      constructor <;> linarith
    unfold roundHalfEven
    rw [hf]
    push_cast
    split_ifs <;> first | omega | (exfalso; linarith)

/-- Rounding is symmetric about zero. -/
theorem round64_neg (x : ℚ) : round64 (-x) = -round64 x := by
  unfold round64
  by_cases hx : x = 0
  · simp [hx]
  · rw [if_neg hx, if_neg (neg_ne_zero.2 hx), abs_neg, neg_div, roundHalfEven_neg]
    push_cast
    ring

theorem Hours_natCast (n : ℕ) (hn : n < 2 ^ 63) :
    Hours (n : ℤ) = round64 (((n / 3600000000000 : ℕ) : ℚ)
      + round64 (((n % 3600000000000 : ℕ) : ℚ) / 3600000000000)) := by
  have h1 : (n : ℤ).tdiv nanosPerHour = ((n / 3600000000000 : ℕ) : ℤ) := by
    rw [Int.tdiv_eq_ediv (by omega) (by decide)]; simp [nanosPerHour]
  have h2 : (n : ℤ).tmod nanosPerHour = ((n % 3600000000000 : ℕ) : ℤ) := by
    rw [Int.tmod_eq_emod (by omega) (by decide)]; simp [nanosPerHour]
  have e1 : round64 (((n / 3600000000000 : ℕ) : ℤ) : ℚ) = ((n / 3600000000000 : ℕ) : ℚ) := by
    rw [Int.cast_natCast]; exact round64_natCast _ (by omega)
  have e2 : round64 (((n % 3600000000000 : ℕ) : ℤ) : ℚ) = ((n % 3600000000000 : ℕ) : ℚ) := by
    rw [Int.cast_natCast]; exact round64_natCast _ (by omega)
  unfold Hours
  rw [h1, h2, e1, e2]

/-- The quotient by 24 of the hours of a duration of at least `k` days rounds
to at least `k`. -/
theorem days_lower (n k : ℕ) (hn : n < 2 ^ 63) (hk : k * 86400000000000 ≤ n) :
    (k : ℚ) ≤ round64 (Hours (n : ℤ) / 24) := by
  have hk53 : 24 * k < 2 ^ 53 := by omega
  have hhour : 24 * k ≤ n / 3600000000000 := by omega
  have hfrac : (0 : ℚ) ≤ round64 (((n % 3600000000000 : ℕ) : ℚ) / 3600000000000) :=
    round64_nonneg (by positivity)
  have hsum : ((24 * k : ℕ) : ℚ) ≤ ((n / 3600000000000 : ℕ) : ℚ)
      + round64 (((n % 3600000000000 : ℕ) : ℚ) / 3600000000000) := by
    have : ((24 * k : ℕ) : ℚ) ≤ ((n / 3600000000000 : ℕ) : ℚ) := by exact_mod_cast hhour
    linarith
  have hH : ((24 * k : ℕ) : ℚ) ≤ Hours (n : ℤ) := by
    rw [Hours_natCast n hn, ← round64_natCast (24 * k) hk53]
    exact round64_mono (by positivity) hsum
  have hq : (k : ℚ) ≤ Hours (n : ℤ) / 24 := by
    rw [le_div_iff₀ (by norm_num)]
    push_cast at hH; linarith
  rw [← round64_natCast k (by omega)]
  exact round64_mono (by positivity) hq

/-- The quotient by 24 of the hours of a duration of less than `k + 1` days
rounds to at most `k + 1`. -/
theorem days_upper (n k : ℕ) (hn : n < 2 ^ 63) (hk0 : k * 86400000000000 ≤ n)
    (hk : n < (k + 1) * 86400000000000) :
    round64 (Hours (n : ℤ) / 24) ≤ (k : ℚ) + 1 := by
  have hk53 : 24 * (k + 1) < 2 ^ 53 := by omega
  have hhour : n / 3600000000000 + 1 ≤ 24 * (k + 1) := by omega
  have hfrac : round64 (((n % 3600000000000 : ℕ) : ℚ) / 3600000000000) ≤ 1 := by
    have h1 : ((n % 3600000000000 : ℕ) : ℚ) / 3600000000000 ≤ ((1 : ℕ) : ℚ) := by
      rw [div_le_iff₀ (by norm_num)]
      have : n % 3600000000000 ≤ 3600000000000 := by omega
      have : ((n % 3600000000000 : ℕ) : ℚ) ≤ ((3600000000000 : ℕ) : ℚ) := by exact_mod_cast this
      simpa using this
    have := round64_mono (by positivity) h1
    rwa [round64_natCast 1 (by norm_num), Nat.cast_one] at this
  have hsum : ((n / 3600000000000 : ℕ) : ℚ)
      + round64 (((n % 3600000000000 : ℕ) : ℚ) / 3600000000000) ≤ ((24 * (k + 1) : ℕ) : ℚ) := by
    have : ((n / 3600000000000 + 1 : ℕ) : ℚ) ≤ ((24 * (k + 1) : ℕ) : ℚ) := by
      exact_mod_cast hhour
    push_cast at this ⊢; linarith
  have hH : Hours (n : ℤ) ≤ ((24 * (k + 1) : ℕ) : ℚ) := by
    rw [Hours_natCast n hn, ← round64_natCast (24 * (k + 1)) hk53]
    exact round64_mono (add_nonneg (by positivity) (round64_nonneg (by positivity))) hsum
  have hH0 : 0 ≤ Hours (n : ℤ) := by
    rw [Hours_natCast n hn]
    exact round64_nonneg (add_nonneg (by positivity) (round64_nonneg (by positivity)))
  have hq : Hours (n : ℤ) / 24 ≤ ((k + 1 : ℕ) : ℚ) := by
    rw [div_le_iff₀ (by norm_num)]
    push_cast at hH ⊢; linarith
  have := round64_mono (div_nonneg hH0 (by norm_num)) hq
  rw [round64_natCast (k + 1) (by omega)] at this
  push_cast at this; exact this

/-- `x - 2^(-a)` is representable when `x * 2^a` fits the significand. -/
theorem round64_sub_pow (x a : ℕ) (hx : 0 < x) (h : x * 2 ^ a ≤ 2 ^ 53) :
    round64 ((x : ℚ) - 2 ^ (-(a : ℤ))) = (x : ℚ) - 2 ^ (-(a : ℤ)) := by
  have hpos : 0 < x * 2 ^ a := Nat.mul_pos hx (by positivity)
  have key : (x : ℚ) - 2 ^ (-(a : ℤ)) = ((x * 2 ^ a - 1 : ℕ) : ℚ) * 2 ^ (-(a : ℤ)) := by
    rw [Nat.cast_sub hpos]
    push_cast
    rw [sub_mul, mul_assoc, ← zpow_natCast (2 : ℚ) a, ← zpow_add₀ (by norm_num : (2 : ℚ) ≠ 0)]
    simp
  rw [key]
  exact round64_exact _ _ (by omega)

theorem pow_neg_le_one (a : ℕ) : (2 : ℚ) ^ (-(a : ℤ)) ≤ 1 := by
  rw [zpow_neg, zpow_natCast]
  exact inv_le_one_of_one_le₀ (one_le_pow₀ (by norm_num))

/-- With a margin of `2^(-a)` hours before the next day boundary, the quotient
rounds strictly below `k + 1`. -/
theorem days_exact (n k a : ℕ) (hn : n < 2 ^ 63) (hk0 : k * 86400000000000 ≤ n)
    (hk : n < (k + 1) * 86400000000000) (ha : (k + 1) * 2 ^ (a + 5) ≤ 2 ^ 53)
    (hm : n / 3600000000000 = 24 * k + 23 →
      (n % 3600000000000) * 2 ^ a ≤ 3600000000000 * (2 ^ a - 1)) :
    round64 (Hours (n : ℤ) / 24) < (k : ℚ) + 1 := by
  have hu0 : (0 : ℚ) < 2 ^ (-(a : ℤ)) := two_zpow_pos _
  have hu1 := pow_neg_le_one a
  have h2a : 0 < 2 ^ a := by positivity
  have ha1 : 1 * 2 ^ a ≤ 2 ^ 53 := by
    have : 2 ^ (a + 5) = 2 ^ a * 32 := by rw [pow_add]; norm_num
    nlinarith
  have ha24 : (24 * (k + 1)) * 2 ^ a ≤ 2 ^ 53 := by
    have : 2 ^ (a + 5) = 2 ^ a * 32 := by rw [pow_add]; norm_num
    nlinarith
  have hhour : n / 3600000000000 ≤ 24 * k + 23 := by omega
  have hfrac1 : round64 (((n % 3600000000000 : ℕ) : ℚ) / 3600000000000) ≤ 1 := by
    have h1 : ((n % 3600000000000 : ℕ) : ℚ) / 3600000000000 ≤ ((1 : ℕ) : ℚ) := by
      rw [div_le_iff₀ (by norm_num)]
      have : n % 3600000000000 ≤ 3600000000000 := by omega
      have : ((n % 3600000000000 : ℕ) : ℚ) ≤ ((3600000000000 : ℕ) : ℚ) := by exact_mod_cast this
      simpa using this
    have := round64_mono (by positivity) h1
    rwa [round64_natCast 1 (by norm_num), Nat.cast_one] at this
  have hsum : ((n / 3600000000000 : ℕ) : ℚ)
      + round64 (((n % 3600000000000 : ℕ) : ℚ) / 3600000000000)
        ≤ ((24 * (k + 1) : ℕ) : ℚ) - 2 ^ (-(a : ℤ)) := by
    rcases hhour.lt_or_eq with hlt | heq
    · have : ((n / 3600000000000 + 1 : ℕ) : ℚ) ≤ ((24 * k + 23 : ℕ) : ℚ) := by
        exact_mod_cast hlt
      push_cast at this ⊢; linarith
    · have hm' := hm heq
      have hf : ((n % 3600000000000 : ℕ) : ℚ) / 3600000000000
          ≤ ((1 : ℕ) : ℚ) - 2 ^ (-(a : ℤ)) := by
        rw [div_le_iff₀ (by norm_num)]
        have h3 : ((n % 3600000000000 * 2 ^ a : ℕ) : ℚ)
            ≤ ((3600000000000 * (2 ^ a - 1) : ℕ) : ℚ) := by exact_mod_cast hm'
        rw [Nat.cast_mul, Nat.cast_mul, Nat.cast_sub h2a] at h3
        push_cast at h3 ⊢
        have h2q : (0 : ℚ) < 2 ^ a := by positivity
        have hinv : (2 : ℚ) ^ (-(a : ℤ)) * 2 ^ a = 1 := by
          rw [← zpow_natCast (2 : ℚ) a, ← zpow_add₀ (by norm_num : (2 : ℚ) ≠ 0)]; simp
        have : ((n % 3600000000000 : ℕ) : ℚ) * 2 ^ a
            ≤ ((1 - 2 ^ (-(a : ℤ))) * 3600000000000) * 2 ^ a := by
          calc ((n % 3600000000000 : ℕ) : ℚ) * 2 ^ a ≤ 3600000000000 * (2 ^ a - 1) := h3
            _ = ((1 - 2 ^ (-(a : ℤ))) * 3600000000000) * 2 ^ a := by
              have : (1 - (2 : ℚ) ^ (-(a : ℤ))) * 3600000000000 * 2 ^ a
                  = 3600000000000 * (2 ^ a - 2 ^ (-(a : ℤ)) * 2 ^ a) := by ring
              rw [this, hinv]
        exact le_of_mul_le_mul_right this h2q
      have hr := round64_mono (by positivity) hf
      rw [round64_sub_pow 1 a (by norm_num) ha1] at hr
      have : ((n / 3600000000000 : ℕ) : ℚ) = ((24 * k + 23 : ℕ) : ℚ) := by exact_mod_cast heq
      rw [this]; push_cast at hr ⊢; linarith
  have hfr0 : (0 : ℚ) ≤ round64 (((n % 3600000000000 : ℕ) : ℚ) / 3600000000000) :=
    round64_nonneg (by positivity)
  have hH : Hours (n : ℤ) ≤ ((24 * (k + 1) : ℕ) : ℚ) - 2 ^ (-(a : ℤ)) := by
    rw [Hours_natCast n hn, ← round64_sub_pow (24 * (k + 1)) a (by omega) ha24]
    exact round64_mono (add_nonneg (by positivity) hfr0) hsum
  have hH0 : 0 ≤ Hours (n : ℤ) := by
    rw [Hours_natCast n hn]
    exact round64_nonneg (add_nonneg (by positivity) hfr0)
  have h32 : (2 : ℚ) ^ (-((a + 5 : ℕ) : ℤ)) = 2 ^ (-(a : ℤ)) / 32 := by
    rw [show (-((a + 5 : ℕ) : ℤ)) = -(a : ℤ) + (-5) by push_cast; ring,
      zpow_add₀ (by norm_num : (2 : ℚ) ≠ 0)]
    have : (2 : ℚ) ^ (-5 : ℤ) = 1 / 32 := by norm_num
    rw [this]; ring
  have hq : Hours (n : ℤ) / 24 ≤ ((k + 1 : ℕ) : ℚ) - 2 ^ (-((a + 5 : ℕ) : ℤ)) := by
    rw [h32, div_le_iff₀ (by norm_num)]
    push_cast at hH ⊢; linarith
  have hr := round64_mono (div_nonneg hH0 (by norm_num)) hq
  rw [round64_sub_pow (k + 1) (a + 5) (by omega) ha] at hr
  have : (0 : ℚ) < 2 ^ (-((a + 5 : ℕ) : ℤ)) := two_zpow_pos _
  have hk1 : ((k + 1 : ℕ) : ℚ) = (k : ℚ) + 1 := by push_cast; ring
  rw [hk1] at hr
  linarith

theorem truncToInt_of_nonneg {f : ℚ} (h : 0 ≤ f) : truncToInt f = ⌊f⌋ := by
  simp [truncToInt, h]

/-- What `int(d.Hours() / 24)` is for a duration of `n` nanoseconds. -/
theorem trunc_days (n : ℕ) (hn : n < 2 ^ 63) :
    ((n / 86400000000000 : ℕ) : ℤ) ≤ truncToInt (round64 (Hours (n : ℤ) / 24)) ∧
    truncToInt (round64 (Hours (n : ℤ) / 24)) ≤ ((n / 86400000000000 : ℕ) : ℤ) + 1 ∧
    (n % 86400000000000 + 2000 ≤ 86400000000000 →
      truncToInt (round64 (Hours (n : ℤ) / 24)) = ((n / 86400000000000 : ℕ) : ℤ)) ∧
    (n < 64 * 86400000000000 →
      truncToInt (round64 (Hours (n : ℤ) / 24)) = ((n / 86400000000000 : ℕ) : ℤ)) := by
  have hk0 : n / 86400000000000 * 86400000000000 ≤ n := Nat.div_mul_le_self _ _
  have hk1 : n < (n / 86400000000000 + 1) * 86400000000000 := by omega
  have hlow := days_lower n _ hn hk0
  have hup := days_upper n _ hn hk0 hk1
  have h0 : (0 : ℚ) ≤ round64 (Hours (n : ℤ) / 24) := le_trans (by positivity) hlow
  rw [truncToInt_of_nonneg h0]
  have hfl : ((n / 86400000000000 : ℕ) : ℤ) ≤ ⌊round64 (Hours (n : ℤ) / 24)⌋ :=
    Int.le_floor.2 (by exact_mod_cast hlow)
  refine ⟨hfl, ?_, ?_, ?_⟩
  · have : ⌊round64 (Hours (n : ℤ) / 24)⌋ ≤ ⌊(((n / 86400000000000 : ℕ) : ℤ) + 1 : ℚ)⌋ :=
      Int.floor_mono (by exact_mod_cast hup)
    have e : ⌊(((n / 86400000000000 : ℕ) : ℤ) + 1 : ℚ)⌋ = ((n / 86400000000000 : ℕ) : ℤ) + 1 := by
      exact_mod_cast Int.floor_intCast (α := ℚ) (((n / 86400000000000 : ℕ) : ℤ) + 1)
    rw [e] at this; exact this
  · intro hmargin
    have hlt := days_exact n (n / 86400000000000) 31 hn hk0 hk1 (by norm_num; omega)
      (by intro hh; norm_num; omega)
    have : ⌊round64 (Hours (n : ℤ) / 24)⌋ < ((n / 86400000000000 : ℕ) : ℤ) + 1 :=
      Int.floor_lt.2 (by exact_mod_cast hlt)
    omega
  · intro hsmall
    have hlt := days_exact n (n / 86400000000000) 42 hn hk0 hk1 (by norm_num; omega)
      (by intro hh; norm_num; omega)
    have : ⌊round64 (Hours (n : ℤ) / 24)⌋ < ((n / 86400000000000 : ℕ) : ℤ) + 1 :=
      Int.floor_lt.2 (by exact_mod_cast hlt)
    omega

theorem Sub_of_le {t u : Time} (h : u.unixNano ≤ t.unixNano) :
    t.Sub u = min (t.unixNano - u.unixNano) maxDuration ∧ 0 ≤ t.Sub u ∧ t.Sub u < 2 ^ 63 := by
  unfold Time.Sub maxDuration minDuration
  split_ifs <;> refine ⟨?_, ?_, ?_⟩ <;> omega

/-- The remaining days of a license that is not expired at the first clock
reading and not past its expiry at the second. -/
theorem daysUntilExpiration_live (l : License) (now now2 : Time) (h : l.IsExpired now = false)
    (hle : now2.unixNano ≤ l.ExpiresAt.unixNano) :
    l.ExpiresAt.Sub now2 = min (l.ExpiresAt.unixNano - now2.unixNano) maxDuration ∧
    l.ExpiresAt.Sub now2 / nanosPerDay ≤ l.DaysUntilExpiration now now2 ∧
    l.DaysUntilExpiration now now2 ≤ l.ExpiresAt.Sub now2 / nanosPerDay + 1 ∧
    (l.ExpiresAt.Sub now2 % nanosPerDay + 2000 ≤ nanosPerDay →
      l.DaysUntilExpiration now now2 = l.ExpiresAt.Sub now2 / nanosPerDay) ∧
    (l.ExpiresAt.Sub now2 < 64 * nanosPerDay →
      l.DaysUntilExpiration now now2 = l.ExpiresAt.Sub now2 / nanosPerDay) := by
  obtain ⟨hmin, h0, hlt⟩ := Sub_of_le hle
  obtain ⟨n, hn⟩ : ∃ n : ℕ, (n : ℤ) = l.ExpiresAt.Sub now2 := ⟨_, Int.toNat_of_nonneg h0⟩
  have hn63 : n < 2 ^ 63 := by omega
  have hr : l.DaysUntilExpiration now now2 = truncToInt (round64 (Hours (n : ℤ) / 24)) := by
    simp [License.DaysUntilExpiration, h, hn]
  obtain ⟨t1, t2, t3, t4⟩ := trunc_days n hn63
  have hdiv : l.ExpiresAt.Sub now2 / nanosPerDay = ((n / 86400000000000 : ℕ) : ℤ) := by
    rw [← hn]; simp [nanosPerDay, nanosPerSecond]
  have hmod : l.ExpiresAt.Sub now2 % nanosPerDay = ((n % 86400000000000 : ℕ) : ℤ) := by
    rw [← hn]; simp [nanosPerDay, nanosPerSecond]
  rw [hr, hdiv, hmod]
  refine ⟨hmin, t1, t2, ?_, ?_⟩
  · intro hm; apply t3
    simp only [nanosPerDay, nanosPerSecond] at hm; omega
  · intro hs; apply t4
    rw [← hn] at hs
    simp only [nanosPerDay, nanosPerSecond] at hs; omega

theorem log_two_eq {x : ℚ} (hx : 0 < x) (E : ℤ) (h1 : (2 : ℚ) ^ E ≤ x) (h2 : x < (2 : ℚ) ^ (E + 1)) :
    Int.log 2 x = E := by
  have a := (Int.zpow_le_iff_le_log (R := ℚ) (b := 2) (by norm_num) (x := E) hx).1
    (by simpa using h1)
  have b := (Int.lt_zpow_iff_log_lt (R := ℚ) (b := 2) (by norm_num) (x := E + 1) hx).1
    (by simpa using h2)
  omega

/-- Just below 4104 the nearest float64 is 4104 itself. -/
theorem round64_below_4104 : round64 (4104 - 3 * 2 ^ (-43 : ℤ)) = 4104 := by
  have hx : (0 : ℚ) < 4104 - 3 * 2 ^ (-43 : ℤ) := by norm_num
  have hlog : Int.log 2 (4104 - 3 * 2 ^ (-43 : ℤ) : ℚ) = 12 :=
    log_two_eq hx 12 (by norm_num) (by norm_num)
  rw [round64_of_pos hx, hlog]
  have hfl : ⌊((4104 - 3 * 2 ^ (-43 : ℤ)) / 2 ^ ((12 : ℤ) - 52) : ℚ)⌋ = 4104 * 2 ^ 40 - 1 := by
    rw [Int.floor_eq_iff]; constructor <;> norm_num
  have : roundHalfEven ((4104 - 3 * 2 ^ (-43 : ℤ)) / 2 ^ ((12 : ℤ) - 52) : ℚ) = 4104 * 2 ^ 40 := by
    unfold roundHalfEven
    rw [hfl]
    norm_num
  rw [this]; norm_num

/-- One nanosecond short of 171 days, the hours round up to 4104 and the
remaining days to 171. -/
theorem trunc_days_rounds_up :
    truncToInt (round64 (Hours ((14774399999999999 : ℕ) : ℤ) / 24)) = 171 := by
  have hn : (14774399999999999 : ℕ) < 2 ^ 63 := by norm_num
  obtain ⟨-, hup, -, -⟩ := trunc_days 14774399999999999 hn
  have hfrac : (1 : ℚ) - 3 * 2 ^ (-43 : ℤ)
      ≤ round64 (((14774399999999999 % 3600000000000 : ℕ) : ℚ) / 3600000000000) := by
    have e : round64 ((1 : ℚ) - 3 * 2 ^ (-43 : ℤ)) = 1 - 3 * 2 ^ (-43 : ℤ) := by
      have := round64_exact (2 ^ 43 - 3) (-43) (by norm_num)
      have k : (((2 ^ 43 - 3 : ℕ) : ℚ)) * 2 ^ (-43 : ℤ) = 1 - 3 * 2 ^ (-43 : ℤ) := by norm_num
      rwa [k] at this
    rw [← e]
    exact round64_mono (by norm_num) (by norm_num)
  have hH : (4104 : ℚ) ≤ Hours ((14774399999999999 : ℕ) : ℤ) := by
    rw [Hours_natCast _ hn, ← round64_below_4104]
    apply round64_mono (by norm_num)
    have : (((14774399999999999 / 3600000000000 : ℕ)) : ℚ) = 4103 := by norm_num
    rw [this]; linarith
  have hq : (171 : ℚ) ≤ round64 (Hours ((14774399999999999 : ℕ) : ℤ) / 24) := by
    have := round64_mono (x := ((171 : ℕ) : ℚ)) (by norm_num)
      (show ((171 : ℕ) : ℚ) ≤ Hours ((14774399999999999 : ℕ) : ℤ) / 24 by
        rw [le_div_iff₀ (by norm_num), show ((171 : ℕ) : ℚ) = 171 by norm_num]; linarith)
    rwa [round64_natCast 171 (by norm_num)] at this
  have h0 : (0 : ℚ) ≤ round64 (Hours ((14774399999999999 : ℕ) : ℤ) / 24) := by linarith
  rw [truncToInt_of_nonneg h0] at hup ⊢
  have : (171 : ℤ) ≤ ⌊round64 (Hours ((14774399999999999 : ℕ) : ℤ) / 24)⌋ :=
    Int.le_floor.2 (by exact_mod_cast hq)
  have e2 : ((14774399999999999 / 86400000000000 : ℕ) : ℤ) = 170 := by norm_num
  rw [e2] at hup
  omega

/-! ### The calendar and the RFC 3339 text of a time -/

theorem yearDay_core (d1 n100 d2 n4 d3 n1 : Int) (h0 : 0 ≤ d1) (h1 : d1 < 146097)
    (e1 : n100 = d1 / 36524 - d1 / 36524 / 4) (e2 : d2 = d1 - 36524 * n100)
    (e3 : n4 = d2 / 1461) (e4 : d3 = d2 - 1461 * n4)
    (e5 : n1 = d3 / 365 - d3 / 365 / 4) :
    0 ≤ n100 ∧ n100 ≤ 3 ∧ 0 ≤ n4 ∧ n4 ≤ 24 ∧ 0 ≤ n1 ∧ n1 ≤ 3 ∧ 0 ≤ d3 - 365 * n1 ∧
    (d3 - 365 * n1 ≤ 364 ∨ (d3 - 365 * n1 = 365 ∧ n1 = 3 ∧ (n4 ≠ 24 ∨ n100 = 3))) := by
  omega

theorem isLeap_decomp (n400 n100 n4 n1 : Int) (h1 : 0 ≤ n100) (h2 : n100 ≤ 3) (h3 : 0 ≤ n4)
    (h4 : n4 ≤ 24) (h5 : 0 ≤ n1) (h6 : n1 ≤ 3) :
    isLeap (400 * n400 + 100 * n100 + 4 * n4 + n1 + 1) = true ↔
      (n1 = 3 ∧ (n4 ≠ 24 ∨ n100 = 3)) := by
  simp only [isLeap, Bool.and_eq_true, Bool.or_eq_true, decide_eq_true_eq, ne_eq]
  omega

theorem daysSinceEpoch_decomp (n400 n100 n4 n1 : Int) (h1 : 0 ≤ n100) (h2 : n100 ≤ 3)
    (h3 : 0 ≤ n4) (h4 : n4 ≤ 24) (h5 : 0 ≤ n1) (h6 : n1 ≤ 3) :
    daysSinceEpoch (400 * n400 + 100 * n100 + 4 * n4 + n1 + 1)
      = 146097 * n400 + 36524 * n100 + 1461 * n4 + 365 * n1 := by
  simp only [daysSinceEpoch]
  omega

/-- The year and the day of the year of a day count: the day is within the
year and the days up to the year plus the day give the count back. -/
theorem yearDay_spec (z : Int) :
    0 ≤ (yearDay z).2 ∧ (yearDay z).2 ≤ (if isLeap (yearDay z).1 = true then 365 else 364) ∧
    daysSinceEpoch (yearDay z).1 + (yearDay z).2 = z := by
  have h0 : 0 ≤ z % 146097 := Int.emod_nonneg _ (by decide)
  have h1 : z % 146097 < 146097 := Int.emod_lt_of_pos _ (by decide)
  obtain ⟨a1, a2, a3, a4, a5, a6, a7, a8⟩ := yearDay_core (z % 146097) _ _ _ _ _ h0 h1 rfl rfl rfl rfl rfl
  have hl := isLeap_decomp (z / 146097) _ _ _ a1 a2 a3 a4 a5 a6
  have hd := daysSinceEpoch_decomp (z / 146097) _ _ _ a1 a2 a3 a4 a5 a6
  simp only [yearDay]
  refine ⟨a7, ?_, ?_⟩
  · split_ifs with hleap
    · omega
    · rw [hl] at hleap
      omega
  · rw [hd]; omega

theorem daysBefore_eval :
    daysBefore 0 = 0 ∧ daysBefore 1 = 31 ∧ daysBefore 2 = 59 ∧ daysBefore 3 = 90 ∧
    daysBefore 4 = 120 ∧ daysBefore 5 = 151 ∧ daysBefore 6 = 181 ∧ daysBefore 7 = 212 ∧
    daysBefore 8 = 243 ∧ daysBefore 9 = 273 ∧ daysBefore 10 = 304 ∧ daysBefore 11 = 334 ∧
    daysBefore 12 = 365 := by decide

theorem monthDay_plain (day : Int) (h0 : 0 ≤ day) (h1 : day ≤ 364) :
    ∃ m d, (if daysBefore (day / 31 + 1) ≤ day
        then (day / 31 + 2, day - daysBefore (day / 31 + 1) + 1)
        else (day / 31 + 1, day - daysBefore (day / 31) + 1)) = (m, d) ∧
      1 ≤ m ∧ m ≤ 12 ∧ 1 ≤ d ∧ d ≤ monthLength false m ∧ daysBefore (m - 1) + (d - 1) = day ∧
      (m ≤ 2 ↔ day ≤ 58) := by
  obtain ⟨b0, b1, b2, b3, b4, b5, b6, b7, b8, b9, b10, b11, b12⟩ := daysBefore_eval
  have hq : day / 31 = 0 ∨ day / 31 = 1 ∨ day / 31 = 2 ∨ day / 31 = 3 ∨ day / 31 = 4 ∨
      day / 31 = 5 ∨ day / 31 = 6 ∨ day / 31 = 7 ∨ day / 31 = 8 ∨ day / 31 = 9 ∨
      day / 31 = 10 ∨ day / 31 = 11 := by omega
  rcases hq with h | h | h | h | h | h | h | h | h | h | h | h <;>
    simp only [h, zero_add, Int.reduceAdd, b0, b1, b2, b3, b4, b5, b6, b7, b8, b9, b10, b11, b12] <;>
    split_ifs <;>
    exact ⟨_, _, rfl, by simp [monthLength, b0, b1, b2, b3, b4, b5, b6, b7, b8, b9, b10, b11]; omega⟩

theorem monthDay_spec (leap : Bool) (yday : Int) (h0 : 0 ≤ yday)
    (h1 : yday ≤ (if leap = true then 365 else 364)) :
    1 ≤ (monthDay leap yday).1 ∧ (monthDay leap yday).1 ≤ 12 ∧ 1 ≤ (monthDay leap yday).2 ∧
    (monthDay leap yday).2 ≤ monthLength leap (monthDay leap yday).1 ∧
    daysBefore ((monthDay leap yday).1 - 1)
      + (if leap = true ∧ 3 ≤ (monthDay leap yday).1 then 1 else 0)
      + ((monthDay leap yday).2 - 1) = yday := by
  obtain ⟨b0, b1, -⟩ := daysBefore_eval
  unfold monthDay
  by_cases hleapday : leap = true ∧ yday = 59
  · rw [if_pos hleapday]
    obtain ⟨hl, hy⟩ := hleapday
    simp [hl, hy, monthLength, b1]
  · rw [if_neg hleapday]
    by_cases hafter : leap = true ∧ 59 < yday
    · obtain ⟨hl, hy⟩ := hafter
      subst hl
      simp only [if_true] at h1
      simp only [hy, and_self, if_true]
      obtain ⟨m, d, e, m1, m2, d1, d2, hs, hm⟩ := monthDay_plain (yday - 1) (by omega) (by omega)
      rw [e]
      have hm3 : 3 ≤ m := by
        by_contra hc
        have := hm.1 (by omega)
        omega
      have hlen : monthLength true m = monthLength false m := by
        simp only [monthLength]
        have : m ≠ 2 := by omega
        simp [this]
      simp only [hlen, hm3, and_self, if_true]
      omega
    · rw [if_neg hafter]
      have hy : yday ≤ 364 := by
        cases leap
        · simpa using h1
        · simp only [true_and, not_lt] at hafter hleapday; omega
      obtain ⟨m, d, e, m1, m2, d1, d2, hs, hm⟩ := monthDay_plain yday h0 hy
      rw [e]
      have hadj : ¬ (leap = true ∧ 3 ≤ m) := by
        rintro ⟨hl, hm3⟩
        have : ¬ (m ≤ 2) := by omega
        rw [hm] at this
        have hne : yday ≠ 59 := fun h => hleapday ⟨hl, h⟩
        exact hafter ⟨hl, by omega⟩
      have hlen : monthLength false m ≤ monthLength leap m := by
        cases leap
        · exact le_refl _
        · simp only [monthLength]; split_ifs <;> simp
      simp only [hadj, if_false]
      omega

/-- The date of a day count is a date of the calendar, and `daysFromCivil`
gives the count back. -/
theorem civilFromDays_spec (z : Int) :
    1 ≤ (civilFromDays z).2.1 ∧ (civilFromDays z).2.1 ≤ 12 ∧ 1 ≤ (civilFromDays z).2.2 ∧
    (civilFromDays z).2.2 ≤ monthLength (isLeap (civilFromDays z).1) (civilFromDays z).2.1 ∧
    daysFromCivil (civilFromDays z).1 (civilFromDays z).2.1 (civilFromDays z).2.2 = z := by
  obtain ⟨y0, y1, y2⟩ := yearDay_spec (z + 719162)
  obtain ⟨m1, m2, d1, d2, hs⟩ := monthDay_spec (isLeap (yearDay (z + 719162)).1) _ y0 y1
  simp only [civilFromDays, daysFromCivil]
  refine ⟨m1, m2, d1, d2, ?_⟩
  omega

theorem daysIn_eq (m y : Nat) : ((daysIn m y : Nat) : Int) = monthLength (isLeap y) (m : Int) := by
  simp only [daysIn, monthLength]
  split_ifs <;> first | rfl | omega

theorem digit_val (k : Nat) : ((Fin.ofNat (48 + k % 10) : Byte)).val = 48 + k % 10 := by
  simp only [Fin.ofNat, Fin.val_mk]; omega

theorem isDigit_digit (k : Nat) : isDigit (Fin.ofNat (48 + k % 10)) = true := by
  simp only [isDigit, digit_val, Bool.and_eq_true, decide_eq_true_eq]; omega

theorem digits_two (n : Nat) :
    digits 2 n = [Fin.ofNat (48 + n / 10 % 10), Fin.ofNat (48 + n % 10)] := by
  simp [digits]

theorem digits_four (n : Nat) :
    digits 4 n = [Fin.ofNat (48 + n / 10 / 10 / 10 % 10), Fin.ofNat (48 + n / 10 / 10 % 10),
      Fin.ofNat (48 + n / 10 % 10), Fin.ofNat (48 + n % 10)] := by
  simp [digits]

theorem parseUint_two (n lo hi : Nat) (h : n < 100) (h1 : lo ≤ n) (h2 : n ≤ hi) :
    parseUint [Fin.ofNat (48 + n / 10 % 10), Fin.ofNat (48 + n % 10)] lo hi = some n := by
  have hv : natOfDigits [Fin.ofNat (48 + n / 10 % 10), Fin.ofNat (48 + n % 10)] = n := by
    simp only [natOfDigits, List.foldl, digit_val]; omega
  simp only [parseUint, hv, List.all_cons, isDigit_digit, List.all_nil, Bool.and_self, h1, h2,
    and_self, if_true]

theorem parseUint_four (n lo hi : Nat) (h : n < 10000) (h1 : lo ≤ n) (h2 : n ≤ hi) :
    parseUint [Fin.ofNat (48 + n / 10 / 10 / 10 % 10), Fin.ofNat (48 + n / 10 / 10 % 10),
      Fin.ofNat (48 + n / 10 % 10), Fin.ofNat (48 + n % 10)] lo hi = some n := by
  have hv : natOfDigits [Fin.ofNat (48 + n / 10 / 10 / 10 % 10),
      Fin.ofNat (48 + n / 10 / 10 % 10), Fin.ofNat (48 + n / 10 % 10),
      Fin.ofNat (48 + n % 10)] = n := by
    simp only [natOfDigits, List.foldl, digit_val]; omega
  simp only [parseUint, hv, List.all_cons, isDigit_digit, List.all_nil, Bool.and_self, h1, h2,
    and_self, if_true]

/-- The zone that was written is the zone that is read, for an offset of whole
minutes below 24 hours. -/
theorem parseZone_formatZone (offset : Int) (hmin : offset % 60 = 0)
    (hhour : (offset.tdiv 60).natAbs / 60 < 24) : parseZone (formatZone offset) = some offset := by
  unfold formatZone
  by_cases h0 : offset = 0
  · simp [h0, parseZone]
  · rw [if_neg h0]
    have hq : offset.tdiv 60 * 60 = offset := by
      have := Int.tdiv_eq_ediv_of_dvd (Int.dvd_of_emod_eq_zero hmin)
      rw [this]; omega
    generalize hz : offset.tdiv 60 = zone at *
    have hlt : zone.natAbs % 60 < 100 := by omega
    have hlt2 : zone.natAbs / 60 < 100 := by omega
    by_cases hneg : zone < 0
    · simp only [hneg, if_true, digits_two, List.cons_append, List.nil_append, parseZone,
        parseUint_two _ 0 23 hlt2 (Nat.zero_le _) (by omega),
        parseUint_two _ 0 59 hlt (Nat.zero_le _) (by omega)]
      rw [if_neg (by decide), if_pos (by decide)]
      congr 1
      omega
    · simp only [hneg, if_false, digits_two, List.cons_append, List.nil_append, parseZone,
        parseUint_two _ 0 23 hlt2 (Nat.zero_le _) (by omega),
        parseUint_two _ 0 59 hlt (Nat.zero_le _) (by omega)]
      rw [if_pos (by decide)]
      congr 1
      omega

theorem natOfDigits_append_singleton (l : GoString) (c : Byte) :
    natOfDigits (l ++ [c]) = natOfDigits l * 10 + (c.val - 48) := by
  simp [natOfDigits, List.foldl_append]

theorem digits_length (w n : Nat) : (digits w n).length = w := by
  induction w generalizing n with
  | zero => rfl
  | succ w ih => simp [digits, ih]

theorem digits_all_digit (w n : Nat) : ∀ c ∈ digits w n, isDigit c = true := by
  induction w generalizing n with
  | zero => simp [digits]
  | succ w ih =>
    intro c hc
    simp only [digits, List.mem_append, List.mem_singleton] at hc
    rcases hc with hc | rfl
    · exact ih _ c hc
    · exact isDigit_digit n

theorem natOfDigits_digits (w n : Nat) : natOfDigits (digits w n) = n % 10 ^ w := by
  induction w generalizing n with
  | zero => simp [digits, natOfDigits, Nat.mod_one]
  | succ w ih =>
    rw [digits, natOfDigits_append_singleton, ih, digit_val, pow_succ, Nat.add_sub_cancel_left,
      Nat.mul_comm (10 ^ w) 10, Nat.mod_mul]
    ring

theorem trimZeros_append (l : GoString) :
    ∃ j, l = trimZeros l ++ List.replicate j 48 := by
  induction l with
  | nil => exact ⟨0, rfl⟩
  | cons b rest ih =>
    obtain ⟨j, hj⟩ := ih
    simp only [trimZeros]
    cases ht : trimZeros rest with
    | nil =>
      rw [ht] at hj
      by_cases hb : b = 48
      · refine ⟨j + 1, ?_⟩
        simp only [hb, if_true, List.nil_append, List.replicate_succ]
        simp only [List.nil_append] at hj
        rw [← hj]
      · refine ⟨j, ?_⟩
        simp only [hb, if_false, List.singleton_append]
        simp only [List.nil_append] at hj
        rw [← hj]
    | cons r rs =>
      rw [ht] at hj
      refine ⟨j, ?_⟩
      simp only [List.cons_append]
      rw [List.cons_append] at hj
      rw [← hj]

theorem natOfDigits_append_zeros (x : GoString) (j : Nat) :
    natOfDigits (x ++ List.replicate j 48) = natOfDigits x * 10 ^ j := by
  induction j with
  | zero => simp
  | succ j ih =>
    rw [List.replicate_succ', ← List.append_assoc, natOfDigits_append_singleton, ih, pow_succ]
    have : ((48 : Byte).val - 48) = 0 := rfl
    rw [this, Nat.add_zero, Nat.mul_assoc]

theorem natOfDigits_zeros (j : Nat) : natOfDigits (List.replicate j 48) = 0 := by
  have := natOfDigits_append_zeros [] j
  simpa [natOfDigits] using this

theorem takeWhile_digits_append (ds z : GoString) (hds : ∀ c ∈ ds, isDigit c = true)
    (hz : ∀ c ∈ z.head?, isDigit c = false) :
    (ds ++ z).takeWhile isDigit = ds ∧ (ds ++ z).dropWhile isDigit = z := by
  induction ds with
  | nil =>
    cases z with
    | nil => simp
    | cons c rest =>
      have := hz c (by simp)
      simp [List.takeWhile, List.dropWhile, this]
  | cons d ds ih =>
    have hd := hds d (by simp)
    have := ih (fun c hc => hds c (by simp [hc]))
    simp [List.takeWhile, List.dropWhile, hd, this.1, this.2]

theorem formatZone_head (offset : Int) :
    ∃ c rest, formatZone offset = c :: rest ∧ isDigit c = false ∧ c ≠ 0x2E := by
  simp only [formatZone]
  by_cases h0 : offset = 0
  · rw [if_pos h0]; exact ⟨_, _, rfl, by decide, by decide⟩
  · rw [if_neg h0]
    by_cases hneg : offset.tdiv 60 < 0
    · rw [if_pos hneg]; exact ⟨_, _, rfl, by decide, by decide⟩
    · rw [if_neg hneg]; exact ⟨_, _, rfl, by decide, by decide⟩

/-- The fraction that was written is the fraction that is read. -/
theorem parseFrac_formatFrac (nsec : Nat) (h : nsec < 1000000000) (offset : Int) :
    parseFrac (formatFrac nsec ++ formatZone offset) = (nsec, formatZone offset) := by
  obtain ⟨c, rest, hz, hc, hp⟩ := formatZone_head offset
  unfold formatFrac
  by_cases h0 : nsec = 0
  · rw [if_pos h0, List.nil_append, hz, h0]
    unfold parseFrac
    cases rest with
    | nil => rfl
    | cons d rest => simp [hp]
  · rw [if_neg h0]
    obtain ⟨j, hj⟩ := trimZeros_append (digits 9 nsec)
    have hval : natOfDigits (digits 9 nsec) = nsec := by
      rw [natOfDigits_digits]; exact Nat.mod_eq_of_lt (by norm_num; exact h)
    have hall : ∀ c ∈ trimZeros (digits 9 nsec), isDigit c = true := by
      intro c hc
      apply digits_all_digit 9 nsec
      rw [hj]; exact List.mem_append_left _ hc
    have hlen : (trimZeros (digits 9 nsec)).length + j = 9 := by
      have := congrArg List.length hj
      rw [digits_length, List.length_append, List.length_replicate] at this
      omega
    have hv2 : natOfDigits (trimZeros (digits 9 nsec)) * 10 ^ j = nsec := by
      rw [← natOfDigits_append_zeros, ← hj, hval]
    cases ht : trimZeros (digits 9 nsec) with
    | nil =>
      rw [ht] at hv2
      simp [natOfDigits] at hv2
      exact absurd hv2.symm h0
    | cons d ds =>
      rw [ht] at hall hlen hv2
      have hd : isDigit d = true := hall d (by simp)
      have htw := takeWhile_digits_append (d :: ds) (formatZone offset) hall
        (by rw [hz]; intro x hx; simp at hx; rw [← hx]; exact hc)
      simp only [List.cons_append] at htw ⊢
      unfold parseFrac
      simp only [hd, and_self, if_true, htw.1, htw.2, true_and]
      have ht9 : (d :: ds).take 9 = d :: ds := List.take_of_length_le (by omega)
      rw [ht9]
      have hj9 : 9 - (d :: ds).length = j := by omega
      rw [hj9, hv2]

theorem format_shape (t : Time) :
    t.formatRFC3339Nano =
      digits 4 (civilFromDays (t.localNano / nanosPerDay)).1.toNat ++ 0x2D ::
      (digits 2 (civilFromDays (t.localNano / nanosPerDay)).2.1.toNat ++ 0x2D ::
      (digits 2 (civilFromDays (t.localNano / nanosPerDay)).2.2.toNat ++ 0x54 ::
      (digits 2 ((t.localNano % nanosPerDay).toNat / 1000000000 / 3600) ++ 0x3A ::
      (digits 2 ((t.localNano % nanosPerDay).toNat / 1000000000 / 60 % 60) ++ 0x3A ::
      (digits 2 ((t.localNano % nanosPerDay).toNat / 1000000000 % 60) ++
        (formatFrac ((t.localNano % nanosPerDay).toNat % 1000000000)
          ++ formatZone t.offset)))))) := by
  simp [Time.formatRFC3339Nano]

theorem monthLength_le (leap : Bool) (m : Int) : monthLength leap m ≤ 31 := by
  unfold monthLength; split_ifs <;> omega

/-- The text `MarshalJSON` writes for a time is read back as that time, when
the year has four digits and the zone offset is a whole number of minutes
below 24 hours. -/
theorem parseRFC3339_format (t : Time) (hy0 : 0 ≤ t.Year) (hy1 : t.Year ≤ 9999)
    (hmin : t.offset % 60 = 0) (hhour : (t.offset.tdiv 60).natAbs / 60 < 24) :
    parseRFC3339 t.formatRFC3339Nano = some t := by
  obtain ⟨m1, m2, d1, d2, hs⟩ := civilFromDays_spec (t.localNano / nanosPerDay)
  have d3 := monthLength_le (isLeap (civilFromDays (t.localNano / nanosPerDay)).1)
    (civilFromDays (t.localNano / nanosPerDay)).2.1
  have hL0 : 0 ≤ t.localNano % nanosPerDay := Int.emod_nonneg _ (by decide)
  have hL1 : t.localNano % nanosPerDay < nanosPerDay := Int.emod_lt_of_pos _ (by decide)
  have hLd : nanosPerDay * (t.localNano / nanosPerDay) + t.localNano % nanosPerDay
      = t.localNano := Int.ediv_add_emod _ _
  unfold Time.Year at hy0 hy1
  rw [format_shape]
  generalize hy : (civilFromDays (t.localNano / nanosPerDay)).1 = y at *
  generalize hm : (civilFromDays (t.localNano / nanosPerDay)).2.1 = m at *
  generalize hd : (civilFromDays (t.localNano / nanosPerDay)).2.2 = d at *
  generalize hr : t.localNano % nanosPerDay = r at *
  generalize hq : t.localNano / nanosPerDay = q at *
  obtain ⟨Y, rfl⟩ : ∃ Y : ℕ, (Y : ℤ) = y := ⟨y.toNat, Int.toNat_of_nonneg hy0⟩
  obtain ⟨M, rfl⟩ : ∃ M : ℕ, (M : ℤ) = m := ⟨m.toNat, Int.toNat_of_nonneg (by omega)⟩
  obtain ⟨D, rfl⟩ : ∃ D : ℕ, (D : ℤ) = d := ⟨d.toNat, Int.toNat_of_nonneg (by omega)⟩
  obtain ⟨R, rfl⟩ : ∃ R : ℕ, (R : ℤ) = r := ⟨r.toNat, Int.toNat_of_nonneg hL0⟩
  have hR : R < 86400000000000 := by
    simp only [nanosPerDay, nanosPerSecond] at hL1; omega
  have hdin : D ≤ daysIn M Y := by
    have := daysIn_eq M Y
    omega
  simp only [Int.toNat_ofNat, digits_four, digits_two, List.cons_append, List.nil_append,
    parseRFC3339,
    parseUint_four Y 0 9999 (by omega) (Nat.zero_le _) (by omega),
    parseUint_two M 1 12 (by omega) (by omega) (by omega),
    parseUint_two D 1 (daysIn M Y) (by omega) (by omega) hdin,
    parseUint_two (R / 1000000000 / 3600) 0 23 (by omega) (Nat.zero_le _) (by omega),
    parseUint_two (R / 1000000000 / 60 % 60) 0 59 (by omega) (Nat.zero_le _) (by omega),
    parseUint_two (R / 1000000000 % 60) 0 59 (by omega) (Nat.zero_le _) (by omega),
    parseFrac_formatFrac (R % 1000000000) (Nat.mod_lt _ (by norm_num)) t.offset,
    parseZone_formatZone t.offset hmin hhour, and_self, if_true]
  congr 1
  cases t with
  | mk u o =>
    simp only [Time.mk.injEq, and_true]
    simp only [Time.localNano, nanosPerDay, nanosPerSecond] at hLd hs ⊢
    rw [hs]
    omega

/-! ### UTF-8 -/

theorem ofNat_val_eq (n : Nat) (b : Byte) (h : n = b.val) : (Fin.ofNat n : Byte) = b := by
  apply Fin.ext
  simp only [Fin.ofNat, Fin.val_mk]
  have := b.isLt
  omega

theorem decodeRune_two (s0 s1 : Byte) (t : GoString) (h0 : 0xC2 ≤ s0.val) (h0' : s0.val < 0xE0)
    (h1 : 0x80 ≤ s1.val) (h1' : s1.val ≤ 0xBF) :
    decodeRune (s0 :: s1 :: t) = ((s0.val % 32) * 64 + s1.val % 64, 2) := by
  have hsz : utf8Size s0 = 2 := by simp only [utf8Size]; rw [if_pos h0']
  have hlo : acceptLo s0 = 0x80 := by
    simp only [acceptLo]; rw [if_neg (by omega), if_neg (by omega)]
  have hhi : acceptHi s0 = 0xBF := by
    simp only [acceptHi]; rw [if_neg (by omega), if_neg (by omega)]
  simp only [decodeRune, hsz, hlo, hhi]
  rw [if_neg (by omega), if_neg (by omega), if_neg (by omega), if_pos (le_refl _)]

theorem decodeRune_three (s0 s1 s2 : Byte) (t : GoString) (h0 : 0xE0 ≤ s0.val)
    (h0' : s0.val < 0xF0) (h1 : acceptLo s0 ≤ s1.val) (h1' : s1.val ≤ acceptHi s0)
    (h2 : 0x80 ≤ s2.val) (h2' : s2.val ≤ 0xBF) :
    decodeRune (s0 :: s1 :: s2 :: t)
      = ((s0.val % 16) * 4096 + (s1.val % 64) * 64 + s2.val % 64, 3) := by
  have hsz : utf8Size s0 = 3 := by
    simp only [utf8Size]; rw [if_neg (by omega), if_pos h0']
  simp only [decodeRune, hsz]
  rw [if_neg (by omega), if_neg (by omega), if_neg (by omega), if_neg (by omega),
    if_neg (by omega), if_pos (le_refl _)]

theorem decodeRune_four (s0 s1 s2 s3 : Byte) (t : GoString) (h0 : 0xF0 ≤ s0.val)
    (h0' : s0.val ≤ 0xF4) (h1 : acceptLo s0 ≤ s1.val) (h1' : s1.val ≤ acceptHi s0)
    (h2 : 0x80 ≤ s2.val) (h2' : s2.val ≤ 0xBF) (h3 : 0x80 ≤ s3.val) (h3' : s3.val ≤ 0xBF) :
    decodeRune (s0 :: s1 :: s2 :: s3 :: t)
      = ((s0.val % 8) * 262144 + (s1.val % 64) * 4096 + (s2.val % 64) * 64 + s3.val % 64, 4) := by
  have hsz : utf8Size s0 = 4 := by
    simp only [utf8Size]; rw [if_neg (by omega), if_neg (by omega)]
  simp only [decodeRune, hsz]
  rw [if_neg (by omega), if_neg (by omega), if_neg (by omega), if_neg (by omega),
    if_neg (by omega), if_neg (by omega), if_neg (by omega)]

/-- The shapes of a string that starts with a valid encoding of more than one
byte. -/
theorem decodeRune_cases (c : Byte) (rest : GoString) (hc : 0x80 ≤ c.val)
    (hv : ¬ ((decodeRune (c :: rest)).1 = RuneError ∧ (decodeRune (c :: rest)).2 = 1)) :
    (∃ s1 t, rest = s1 :: t ∧ 0xC2 ≤ c.val ∧ c.val < 0xE0 ∧ 0x80 ≤ s1.val ∧ s1.val ≤ 0xBF) ∨
    (∃ s1 s2 t, rest = s1 :: s2 :: t ∧ 0xE0 ≤ c.val ∧ c.val < 0xF0 ∧ acceptLo c ≤ s1.val ∧
      s1.val ≤ acceptHi c ∧ 0x80 ≤ s2.val ∧ s2.val ≤ 0xBF) ∨
    (∃ s1 s2 s3 t, rest = s1 :: s2 :: s3 :: t ∧ 0xF0 ≤ c.val ∧ c.val ≤ 0xF4 ∧
      acceptLo c ≤ s1.val ∧ s1.val ≤ acceptHi c ∧ 0x80 ≤ s2.val ∧ s2.val ≤ 0xBF ∧
      0x80 ≤ s3.val ∧ s3.val ≤ 0xBF) := by
  have bad : ¬ ((RuneError, 1).1 = RuneError ∧ ((RuneError, 1) : Nat × Nat).2 = 1) → False :=
    fun h => h ⟨rfl, rfl⟩
  simp only [decodeRune] at hv
  rw [if_neg (by omega)] at hv
  by_cases hr : c.val < 0xC2 ∨ 0xF4 < c.val
  · rw [if_pos hr] at hv; exact (bad hv).elim
  rw [if_neg hr] at hv
  cases rest with
  | nil => exact (bad hv).elim
  | cons s1 rest1 =>
    simp only at hv
    by_cases h1 : s1.val < acceptLo c ∨ acceptHi c < s1.val
    · rw [if_pos h1] at hv; exact (bad hv).elim
    rw [if_neg h1] at hv
    by_cases hs2 : utf8Size c ≤ 2
    · left
      have hlt : c.val < 0xE0 := by
        simp only [utf8Size] at hs2; split_ifs at hs2 <;> omega
      have hlo : acceptLo c = 0x80 := by
        simp only [acceptLo]; rw [if_neg (by omega), if_neg (by omega)]
      have hhi : acceptHi c = 0xBF := by
        simp only [acceptHi]; rw [if_neg (by omega), if_neg (by omega)]
      exact ⟨s1, rest1, rfl, by omega, hlt, by omega, by omega⟩
    rw [if_neg hs2] at hv
    have hge : 0xE0 ≤ c.val := by
      simp only [utf8Size] at hs2; split_ifs at hs2 <;> omega
    cases rest1 with
    | nil => exact (bad hv).elim
    | cons s2 rest2 =>
      simp only at hv
      by_cases h2 : s2.val < 0x80 ∨ 0xBF < s2.val
      · rw [if_pos h2] at hv; exact (bad hv).elim
      rw [if_neg h2] at hv
      by_cases hs3 : utf8Size c ≤ 3
      · right; left
        have hlt : c.val < 0xF0 := by
          simp only [utf8Size] at hs3; split_ifs at hs3 <;> omega
        exact ⟨s1, s2, rest2, rfl, hge, hlt, by omega, by omega, by omega, by omega⟩
      rw [if_neg hs3] at hv
      have hge4 : 0xF0 ≤ c.val := by
        simp only [utf8Size] at hs3; split_ifs at hs3 <;> omega
      cases rest2 with
      | nil => exact (bad hv).elim
      | cons s3 rest3 =>
        simp only at hv
        by_cases h3 : s3.val < 0x80 ∨ 0xBF < s3.val
        · rw [if_pos h3] at hv; exact (bad hv).elim
        right; right
        exact ⟨s1, s2, s3, rest3, rfl, hge4, by omega, by omega, by omega, by omega, by omega,
          by omega, by omega⟩

theorem encodeRune_two (c s1 : Byte) (h0 : 0xC2 ≤ c.val) (h0' : c.val < 0xE0)
    (h1 : 0x80 ≤ s1.val) (h1' : s1.val ≤ 0xBF) :
    encodeRune ((c.val % 32) * 64 + s1.val % 64) = [c, s1] := by
  simp only [encodeRune]
  rw [if_neg (by omega), if_pos (by omega)]
  rw [ofNat_val_eq _ c (by omega), ofNat_val_eq _ s1 (by omega)]

theorem encodeRune_three (c s1 s2 : Byte) (h0 : 0xE0 ≤ c.val) (h0' : c.val < 0xF0)
    (h1 : acceptLo c ≤ s1.val) (h1' : s1.val ≤ acceptHi c)
    (h2 : 0x80 ≤ s2.val) (h2' : s2.val ≤ 0xBF) :
    encodeRune ((c.val % 16) * 4096 + (s1.val % 64) * 64 + s2.val % 64) = [c, s1, s2] := by
  have hlo : 0x80 ≤ s1.val ∧ (c.val = 0xE0 → 0xA0 ≤ s1.val) := by
    simp only [acceptLo] at h1; split_ifs at h1 <;> omega
  have hhi : s1.val ≤ 0xBF ∧ (c.val = 0xED → s1.val ≤ 0x9F) := by
    simp only [acceptHi] at h1'; split_ifs at h1' <;> omega
  simp only [encodeRune]
  rw [if_neg (by omega), if_neg (by omega), if_neg (by omega), if_pos (by omega)]
  rw [ofNat_val_eq _ c (by omega), ofNat_val_eq _ s1 (by omega), ofNat_val_eq _ s2 (by omega)]

theorem encodeRune_four (c s1 s2 s3 : Byte) (h0 : 0xF0 ≤ c.val) (h0' : c.val ≤ 0xF4)
    (h1 : acceptLo c ≤ s1.val) (h1' : s1.val ≤ acceptHi c)
    (h2 : 0x80 ≤ s2.val) (h2' : s2.val ≤ 0xBF) (h3 : 0x80 ≤ s3.val) (h3' : s3.val ≤ 0xBF) :
    encodeRune ((c.val % 8) * 262144 + (s1.val % 64) * 4096 + (s2.val % 64) * 64 + s3.val % 64)
      = [c, s1, s2, s3] := by
  have hlo : 0x80 ≤ s1.val ∧ (c.val = 0xF0 → 0x90 ≤ s1.val) := by
    simp only [acceptLo] at h1; split_ifs at h1 <;> omega
  have hhi : s1.val ≤ 0xBF ∧ (c.val = 0xF4 → s1.val ≤ 0x8F) := by
    simp only [acceptHi] at h1'; split_ifs at h1' <;> omega
  simp only [encodeRune]
  rw [if_neg (by omega), if_neg (by omega), if_neg (by omega), if_neg (by omega)]
  rw [ofNat_val_eq _ c (by omega), ofNat_val_eq _ s1 (by omega), ofNat_val_eq _ s2 (by omega),
    ofNat_val_eq _ s3 (by omega)]

theorem acceptLo_ge (c : Byte) : 0x80 ≤ acceptLo c := by
  simp only [acceptLo]; split_ifs <;> omega

/-- A string that starts with a valid encoding of more than one byte splits
into that encoding and the rest: decoding reads the encoding whatever follows
it, and encoding the rune gives its bytes back. -/
theorem decodeRune_valid (c : Byte) (rest : GoString) (hc : 0x80 ≤ c.val)
    (hv : ¬ ((decodeRune (c :: rest)).1 = RuneError ∧ (decodeRune (c :: rest)).2 = 1)) :
    ∃ chunk tail, c :: rest = chunk ++ tail ∧
      (c :: rest).take (decodeRune (c :: rest)).2 = chunk ∧
      (c :: rest).drop (decodeRune (c :: rest)).2 = tail ∧
      (decodeRune (c :: rest)).2 = chunk.length ∧ 0 < chunk.length ∧
      encodeRune (decodeRune (c :: rest)).1 = chunk ∧
      (∀ b ∈ chunk, 0x80 ≤ b.val) ∧
      (∀ t, decodeRune (chunk ++ t) = decodeRune (c :: rest)) := by
  rcases decodeRune_cases c rest hc hv with
    ⟨s1, t, rfl, h0, h0', h1, h1'⟩ |
    ⟨s1, s2, t, rfl, h0, h0', h1, h1', h2, h2'⟩ |
    ⟨s1, s2, s3, t, rfl, h0, h0', h1, h1', h2, h2', h3, h3'⟩
  · refine ⟨[c, s1], t, rfl, ?_, ?_, ?_, by simp, ?_, ?_, ?_⟩
    · rw [decodeRune_two c s1 t h0 h0' h1 h1']; rfl
    · rw [decodeRune_two c s1 t h0 h0' h1 h1']; rfl
    · rw [decodeRune_two c s1 t h0 h0' h1 h1']; rfl
    · rw [decodeRune_two c s1 t h0 h0' h1 h1']; exact encodeRune_two c s1 h0 h0' h1 h1'
    · intro b hb
      simp only [List.mem_cons, List.mem_singleton, List.not_mem_nil, or_false] at hb
      rcases hb with rfl | rfl <;> omega
    · intro t2
      rw [decodeRune_two c s1 t h0 h0' h1 h1']
      exact decodeRune_two c s1 t2 h0 h0' h1 h1'
  · have hlo := acceptLo_ge c
    refine ⟨[c, s1, s2], t, rfl, ?_, ?_, ?_, by simp, ?_, ?_, ?_⟩
    · rw [decodeRune_three c s1 s2 t h0 h0' h1 h1' h2 h2']; rfl
    · rw [decodeRune_three c s1 s2 t h0 h0' h1 h1' h2 h2']; rfl
    · rw [decodeRune_three c s1 s2 t h0 h0' h1 h1' h2 h2']; rfl
    · rw [decodeRune_three c s1 s2 t h0 h0' h1 h1' h2 h2']
      exact encodeRune_three c s1 s2 h0 h0' h1 h1' h2 h2'
    · intro b hb
      simp only [List.mem_cons, List.mem_singleton, List.not_mem_nil, or_false] at hb
      rcases hb with rfl | rfl | rfl <;> omega
    · intro t2
      rw [decodeRune_three c s1 s2 t h0 h0' h1 h1' h2 h2']
      exact decodeRune_three c s1 s2 t2 h0 h0' h1 h1' h2 h2'
  · have hlo := acceptLo_ge c
    refine ⟨[c, s1, s2, s3], t, rfl, ?_, ?_, ?_, by simp, ?_, ?_, ?_⟩
    · rw [decodeRune_four c s1 s2 s3 t h0 h0' h1 h1' h2 h2' h3 h3']; rfl
    · rw [decodeRune_four c s1 s2 s3 t h0 h0' h1 h1' h2 h2' h3 h3']; rfl
    · rw [decodeRune_four c s1 s2 s3 t h0 h0' h1 h1' h2 h2' h3 h3']; rfl
    · rw [decodeRune_four c s1 s2 s3 t h0 h0' h1 h1' h2 h2' h3 h3']
      exact encodeRune_four c s1 s2 s3 h0 h0' h1 h1' h2 h2' h3 h3'
    · intro b hb
      simp only [List.mem_cons, List.mem_singleton, List.not_mem_nil, or_false] at hb
      rcases hb with rfl | rfl | rfl | rfl <;> omega
    · intro t2
      rw [decodeRune_four c s1 s2 s3 t h0 h0' h1 h1' h2 h2' h3 h3']
      exact decodeRune_four c s1 s2 s3 t2 h0 h0' h1 h1' h2 h2' h3 h3'

/-! ### The scanner on the encoding of a string -/

theorem hexDigit_spec : ∀ n : Fin 16, isHex (hexDigit n.val) = true ∧ hexVal (hexDigit n.val) = n.val := by
  decide

theorem isHex_hexDigit (n : Nat) (h : n < 16) : isHex (hexDigit n) = true :=
  (hexDigit_spec ⟨n, h⟩).1

theorem hexVal_hexDigit (n : Nat) (h : n < 16) : hexVal (hexDigit n) = n :=
  (hexDigit_spec ⟨n, h⟩).2

theorem map_pre_pre (a b : GoString) (o : Option (GoString × GoString)) :
    (o.map (pre b)).map (pre a) = o.map (pre (a ++ b)) := by
  cases o <;> simp [pre]

theorem scan_inString_cons (c : Byte) (rest : GoString) :
    scanString .inString (c :: rest) =
      if c = 0x22 then some ([], rest)
      else if c = 0x5C then (scanString .inStringEsc rest).map (fun p => (c :: p.1, p.2))
      else if c.val < 0x20 then none
      else (scanString .inString rest).map (fun p => (c :: p.1, p.2)) := by
  rw [scanString]

theorem scan_esc_cons (c : Byte) (rest : GoString) :
    scanString .inStringEsc (c :: rest) =
      if isSimpleEscape c then (scanString .inString rest).map (fun p => (c :: p.1, p.2))
      else if c = 0x75 then (scanString (.inStringEscU 3) rest).map (fun p => (c :: p.1, p.2))
      else none := by
  rw [scanString]

theorem scan_escU_cons (n : Nat) (c : Byte) (rest : GoString) :
    scanString (.inStringEscU n) (c :: rest) =
      if isHex c then
        (scanString (match n with | 0 => .inString | k + 1 => .inStringEscU k) rest).map
          (fun p => (c :: p.1, p.2))
      else none := rfl

theorem map_cons_eq_pre (c : Byte) (o : Option (GoString × GoString)) :
    o.map (fun p => (c :: p.1, p.2)) = o.map (pre [c]) := rfl

theorem scan_plain (c : Byte) (X : GoString) (h1 : c ≠ 0x22) (h2 : c ≠ 0x5C)
    (h3 : 0x20 ≤ c.val) :
    scanString .inString (c :: X) = (scanString .inString X).map (pre [c]) := by
  rw [scan_inString_cons, if_neg h1, if_neg h2, if_neg (by omega)]
  rfl

theorem isPlain_of_high (c : Byte) (h : 0x80 ≤ c.val) : isPlain c :=
  ⟨by intro e; rw [e] at h; revert h; decide, by intro e; rw [e] at h; revert h; decide,
    by omega⟩

theorem scan_plain_list (chunk X : GoString) (h : ∀ b ∈ chunk, isPlain b) :
    scanString .inString (chunk ++ X) = (scanString .inString X).map (pre chunk) := by
  induction chunk with
  | nil =>
    rw [List.nil_append]
    cases scanString .inString X with
    | none => rfl
    | some p => simp [pre]
  | cons c cs ih =>
    have hc := h c (by simp)
    rw [List.cons_append, scan_plain c _ hc.1 hc.2.1 hc.2.2,
      ih (fun b hb => h b (by simp [hb])), map_pre_pre]
    rfl

theorem scan_escape (e : Byte) (X : GoString) (he : isSimpleEscape e = true) :
    scanString .inString (0x5C :: e :: X) = (scanString .inString X).map (pre [0x5C, e]) := by
  rw [scan_inString_cons, if_neg (by decide), if_pos rfl, scan_esc_cons, if_pos he,
    map_cons_eq_pre, map_cons_eq_pre, map_pre_pre]
  rfl

theorem scan_u (h1 h2 h3 h4 : Byte) (X : GoString) (e1 : isHex h1 = true) (e2 : isHex h2 = true)
    (e3 : isHex h3 = true) (e4 : isHex h4 = true) :
    scanString .inString (0x5C :: 0x75 :: h1 :: h2 :: h3 :: h4 :: X)
      = (scanString .inString X).map (pre [0x5C, 0x75, h1, h2, h3, h4]) := by
  rw [scan_inString_cons, if_neg (by decide), if_pos rfl, scan_esc_cons, if_neg (by decide),
    if_pos rfl, scan_escU_cons, if_pos e1, scan_escU_cons, if_pos e2, scan_escU_cons, if_pos e3,
    scan_escU_cons, if_pos e4]
  simp only [map_cons_eq_pre, map_pre_pre]
  rfl

theorem escapeByte_scan (b : Byte) (hb : b.val < 0x80) (hs : htmlSafe b = false) (X : GoString) :
    scanString .inString (escapeByte b ++ X)
      = (scanString .inString X).map (pre (escapeByte b)) := by
  unfold escapeByte
  split_ifs with h1 h2 h3 h4 h5 h6
  · have : isSimpleEscape b = true := by
      rcases h1 with h | h
      · have : b = 0x5C := Fin.ext h
        subst this; decide
      · have : b = 0x22 := Fin.ext h
        subst this; decide
    exact scan_escape b X this
  · exact scan_escape 0x62 X (by decide)
  · exact scan_escape 0x66 X (by decide)
  · exact scan_escape 0x6E X (by decide)
  · exact scan_escape 0x72 X (by decide)
  · exact scan_escape 0x74 X (by decide)
  · exact scan_u 0x30 0x30 _ _ X (by decide) (by decide) (isHex_hexDigit _ (by omega))
      (isHex_hexDigit _ (by omega))

/-- The scanner reads what the encoder wrote for a string up to the closing
quote. -/
theorem scan_appendStringAux (fuel : Nat) (s X : GoString) :
    scanString .inString (appendStringAux fuel s ++ 0x22 :: X)
      = some (appendStringAux fuel s, X) := by
  induction fuel generalizing s with
  | zero => simp [appendStringAux, scanString]
  | succ fuel ih =>
    cases s with
    | nil => simp [appendStringAux, scanString]
    | cons b rest =>
      simp only [appendStringAux]
      by_cases hb : b.val < 0x80
      · rw [if_pos hb]
        by_cases hs : htmlSafe b = true
        · rw [if_pos hs]
          have hs' := hs
          simp only [htmlSafe, decide_eq_true_eq] at hs'
          rw [List.cons_append, scan_plain b _ (by intro e; rw [e] at hs'; exact hs'.2.2.1 rfl)
            (by intro e; rw [e] at hs'; exact hs'.2.2.2.1 rfl) hs'.1, ih]
          rfl
        · rw [if_neg hs, List.append_assoc,
            escapeByte_scan b hb (by simpa using hs), ih]
          rfl
      · rw [if_neg hb]
        by_cases hinv : (decodeRune (b :: rest)).1 = RuneError ∧ (decodeRune (b :: rest)).2 = 1
        · rw [if_pos hinv, List.append_assoc]
          have := scan_u 0x66 0x66 0x66 0x64 (appendStringAux fuel rest ++ 0x22 :: X)
            (by decide) (by decide) (by decide) (by decide)
          rw [show ascii "\\ufffd" = [0x5C, 0x75, 0x66, 0x66, 0x66, 0x64] by decide]
          rw [List.cons_append, List.cons_append, List.cons_append, List.cons_append,
            List.cons_append, List.cons_append, List.nil_append, this, ih]
          rfl
        · rw [if_neg hinv]
          obtain ⟨chunk, tail, hsplit, htake, hdrop, hsz, hlen, henc, hhigh, hpre⟩ :=
            decodeRune_valid b rest (by omega) hinv
          by_cases hls : (decodeRune (b :: rest)).1 = 0x2028 ∨ (decodeRune (b :: rest)).1 = 0x2029
          · rw [if_pos hls, List.append_assoc]
            have hx : isHex (hexDigit ((decodeRune (b :: rest)).1 % 16)) = true :=
              isHex_hexDigit _ (Nat.mod_lt _ (by norm_num))
            have := scan_u 0x32 0x30 0x32 (hexDigit ((decodeRune (b :: rest)).1 % 16))
              (appendStringAux fuel ((b :: rest).drop (decodeRune (b :: rest)).2) ++ 0x22 :: X)
              (by decide) (by decide) (by decide) hx
            rw [show ascii "\\u202" = [0x5C, 0x75, 0x32, 0x30, 0x32] by decide]
            simp only [List.cons_append, List.nil_append, List.append_assoc] at this ⊢
            rw [this, ih]
            rfl
          · rw [if_neg hls, htake, hdrop, List.append_assoc, scan_plain_list chunk _ (fun b hb => isPlain_of_high b (hhigh b hb)), ih]
            rfl

/-! ### `unquote` on the encoding of a string -/

theorem unquoteAux_nil (F : Nat) : unquoteAux F [] = some [] := by
  cases F <;> rfl

theorem unq_plain (F : Nat) (c : Byte) (X : GoString) (h1 : c ≠ 0x5C) (h2 : c ≠ 0x22)
    (h3 : 0x20 ≤ c.val) (h4 : c.val < 0x80) :
    unquoteAux (F + 1) (c :: X) = (unquoteAux F X).map (c :: ·) := by
  rw [unquoteAux, if_neg h1, if_neg (by rintro (h | h); exact h2 h; omega), if_pos h4]

theorem unq_escape (F : Nat) (e b : Byte) (X : GoString) (h1 : e ≠ 0x75)
    (h2 : unescape e = some b) :
    unquoteAux (F + 1) (0x5C :: e :: X) = (unquoteAux F X).map (b :: ·) := by
  rw [unquoteAux, if_pos rfl]
  simp only [unquoteEsc, if_neg h1, h2]

theorem unq_u (F : Nat) (h1 h2 h3 h4 : Byte) (X : GoString) (e1 : isHex h1 = true)
    (e2 : isHex h2 = true) (e3 : isHex h3 = true) (e4 : isHex h4 = true)
    (hs : ¬ (0xD800 ≤ getu4 h1 h2 h3 h4 ∧ getu4 h1 h2 h3 h4 < 0xE000)) :
    unquoteAux (F + 1) (0x5C :: 0x75 :: h1 :: h2 :: h3 :: h4 :: X)
      = (unquoteAux F X).map (encodeRune (getu4 h1 h2 h3 h4) ++ ·) := by
  rw [unquoteAux, if_pos rfl]
  simp only [unquoteEsc, e1, e2, e3, e4, Bool.and_self, if_true, unquoteU, if_neg hs]

theorem unq_multi (F : Nat) (c : Byte) (rest : GoString) (hc : 0x80 ≤ c.val) :
    unquoteAux (F + 1) (c :: rest)
      = (unquoteAux F ((c :: rest).drop (decodeRune (c :: rest)).2)).map
          (encodeRune (decodeRune (c :: rest)).1 ++ ·) := by
  rw [unquoteAux, if_neg (by intro e; rw [e] at hc; revert hc; decide),
    if_neg (by rintro (h | h); (rw [h] at hc; revert hc; decide); omega), if_neg (by omega)]

theorem escapeByte_unquote (F : Nat) (b : Byte) (hb : b.val < 0x80) (X : GoString) :
    unquoteAux (F + 1) (escapeByte b ++ X) = (unquoteAux F X).map (b :: ·) := by
  unfold escapeByte
  split_ifs with h1 h2 h3 h4 h5 h6
  · have : unescape b = some b := by
      rcases h1 with h | h
      · have : b = 0x5C := Fin.ext h
        subst this; decide
      · have : b = 0x22 := Fin.ext h
        subst this; decide
    have hne : b ≠ 0x75 := by
      rintro rfl
      rcases h1 with h | h <;> exact absurd h (by decide)
    exact unq_escape F b b X hne this
  · have : b = 0x08 := Fin.ext h2
    subst this; exact unq_escape F 0x62 _ X (by decide) (by decide)
  · have : b = 0x0C := Fin.ext h3
    subst this; exact unq_escape F 0x66 _ X (by decide) (by decide)
  · have : b = 0x0A := Fin.ext h4
    subst this; exact unq_escape F 0x6E _ X (by decide) (by decide)
  · have : b = 0x0D := Fin.ext h5
    subst this; exact unq_escape F 0x72 _ X (by decide) (by decide)
  · have : b = 0x09 := Fin.ext h6
    subst this; exact unq_escape F 0x74 _ X (by decide) (by decide)
  · have e3 := isHex_hexDigit (b.val / 16) (by omega)
    have e4 := isHex_hexDigit (b.val % 16) (by omega)
    have hg : getu4 0x30 0x30 (hexDigit (b.val / 16)) (hexDigit (b.val % 16)) = b.val := by
      simp only [getu4, hexVal_hexDigit (b.val / 16) (by omega),
        hexVal_hexDigit (b.val % 16) (by omega)]
      have : hexVal 0x30 = 0 := by decide
      rw [this]; omega
    have := unq_u F 0x30 0x30 _ _ X (by decide) (by decide) e3 e4 (by rw [hg]; omega)
    rw [hg] at this
    have henc : encodeRune b.val = [b] := by
      simp only [encodeRune]; rw [if_pos hb, ofNat_val_eq _ b rfl]
    rw [henc] at this
    rw [show ascii "\\u00" = [0x5C, 0x75, 0x30, 0x30] by decide]
    exact this

theorem map_append_cons (chunk : GoString) (o : Option GoString) (s : GoString)
    (h : o = some s) : o.map (chunk ++ ·) = some (chunk ++ s) := by
  rw [h]; rfl

/-- Unquoting what the encoder wrote for a string of valid UTF-8 gives the
string back. -/
theorem unquote_appendStringAux (fuel : Nat) (s : GoString) (F : Nat)
    (hv : validUTF8Aux fuel s = true) (hF : (appendStringAux fuel s).length ≤ F) :
    unquoteAux F (appendStringAux fuel s) = some s := by
  induction fuel generalizing s F with
  | zero =>
    cases s with
    | nil => simp [appendStringAux, unquoteAux_nil]
    | cons b rest => simp [validUTF8Aux] at hv
  | succ fuel ih =>
    cases s with
    | nil => simp [appendStringAux, unquoteAux_nil]
    | cons b rest =>
      simp only [validUTF8Aux] at hv
      simp only [appendStringAux] at hF ⊢
      by_cases hinv : (decodeRune (b :: rest)).1 = RuneError ∧ (decodeRune (b :: rest)).2 = 1
      · rw [if_pos hinv] at hv; exact absurd hv (by decide)
      rw [if_neg hinv] at hv
      by_cases hb : b.val < 0x80
      · have hd : (decodeRune (b :: rest)).2 = 1 := by
          simp only [decodeRune]; rw [if_pos hb]
        rw [hd] at hv
        simp only [List.drop_succ_cons, List.drop_zero] at hv
        rw [if_pos hb] at hF ⊢
        by_cases hs : htmlSafe b = true
        · rw [if_pos hs] at hF ⊢
          have hs' := hs
          simp only [htmlSafe, decide_eq_true_eq] at hs'
          obtain ⟨F', rfl⟩ : ∃ F', F = F' + 1 := ⟨F - 1, by simp at hF; omega⟩
          rw [unq_plain F' b _ (by intro e; rw [e] at hs'; exact hs'.2.2.2.1 rfl)
            (by intro e; rw [e] at hs'; exact hs'.2.2.1 rfl) hs'.1 hb,
            ih rest F' hv (by simp at hF; omega)]
          rfl
        · rw [if_neg hs] at hF ⊢
          have hpos : 0 < (escapeByte b).length := by
            unfold escapeByte; split_ifs <;> simp [ascii]
          obtain ⟨F', rfl⟩ : ∃ F', F = F' + 1 := ⟨F - 1, by simp at hF; omega⟩
          rw [escapeByte_unquote F' b hb, ih rest F' hv (by simp at hF; omega)]
          rfl
      · rw [if_neg hb, if_neg hinv] at hF ⊢
        obtain ⟨chunk, tail, hsplit, htake, hdrop, hsz, hlen, henc, hhigh, hpre⟩ :=
          decodeRune_valid b rest (by omega) hinv
        rw [hdrop] at hv
        by_cases hls : (decodeRune (b :: rest)).1 = 0x2028 ∨ (decodeRune (b :: rest)).1 = 0x2029
        · rw [if_pos hls, hdrop] at hF ⊢
          rw [show ascii "\\u202" = [0x5C, 0x75, 0x32, 0x30, 0x32] by decide] at hF ⊢
          obtain ⟨F', rfl⟩ : ∃ F', F = F' + 1 := ⟨F - 1, by simp at hF; omega⟩
          have hx : isHex (hexDigit ((decodeRune (b :: rest)).1 % 16)) = true :=
            isHex_hexDigit _ (Nat.mod_lt _ (by norm_num))
          have hg : getu4 0x32 0x30 0x32 (hexDigit ((decodeRune (b :: rest)).1 % 16))
              = (decodeRune (b :: rest)).1 := by
            simp only [getu4, hexVal_hexDigit _ (Nat.mod_lt _ (by norm_num : 0 < 16))]
            have h2 : hexVal 0x32 = 2 := by decide
            have h0 : hexVal 0x30 = 0 := by decide
            rw [h2, h0]
            rcases hls with h | h <;> rw [h]
          have := unq_u F' 0x32 0x30 0x32 _ (appendStringAux fuel tail) (by decide) (by decide)
            (by decide) hx (by rw [hg]; rcases hls with h | h <;> rw [h] <;> decide)
          rw [hg, henc] at this
          simp only [List.cons_append, List.nil_append, List.append_assoc] at this ⊢
          rw [this, ih tail F' hv (by simp at hF; omega), hsplit]
          rfl
        · rw [if_neg hls, htake, hdrop] at hF ⊢
          obtain ⟨F', rfl⟩ : ∃ F', F = F' + 1 := ⟨F - 1, by simp at hF; omega⟩
          obtain ⟨c0, cs, hchunk⟩ : ∃ c0 cs, chunk = c0 :: cs := by
            cases chunk with
            | nil => simp at hlen
            | cons c0 cs => exact ⟨c0, cs, rfl⟩
          have hc0 : 0x80 ≤ c0.val := hhigh c0 (by rw [hchunk]; simp)
          have hstep := unq_multi F' c0 (cs ++ appendStringAux fuel tail) hc0
          have hd := hpre (appendStringAux fuel tail)
          rw [hchunk, List.cons_append] at hd
          rw [hd] at hstep
          have hdr : (c0 :: (cs ++ appendStringAux fuel tail)).drop (decodeRune (b :: rest)).2
              = appendStringAux fuel tail := by
            rw [hsz, ← List.cons_append, ← hchunk, List.drop_left]
          rw [hdr, henc] at hstep
          rw [hchunk, List.cons_append, hstep,
            ih tail F' hv (by rw [hchunk] at hF; simp at hF; omega), hsplit]
          rfl

/-! ### Values -/

theorem parseValue_string (s X : GoString) :
    parseValue (appendString s ++ X) = .ok (.str (appendStringAux s.length s), X) := by
  have : appendString s ++ X = 0x22 :: (appendStringAux s.length s ++ 0x22 :: X) := by
    simp [appendString]
  rw [this, parseValue, scan_appendStringAux]

theorem unquote_appendString (s : GoString) (h : validUTF8 s = true) :
    unquote (appendStringAux s.length s) = some s :=
  unquote_appendStringAux s.length s _ h (le_refl _)

theorem storeString_appendString (s old : GoString) (h : validUTF8 s = true) :
    storeString (.str (appendStringAux s.length s)) old = .ok s := by
  simp only [storeString, unquote_appendString s h]

theorem isPlain_of_isDigit (c : Byte) (h : isDigit c = true) : isPlain c := by
  simp only [isDigit, Bool.and_eq_true, decide_eq_true_eq] at h
  refine ⟨?_, ?_, by omega⟩
  · intro e; rw [e] at h; revert h; decide
  · intro e; rw [e] at h; revert h; decide

theorem mem_trimZeros (l : GoString) (c : Byte) (h : c ∈ trimZeros l) : c ∈ l := by
  obtain ⟨j, hj⟩ := trimZeros_append l
  rw [hj]; exact List.mem_append_left _ h

theorem formatFrac_plain (n : Nat) : ∀ b ∈ formatFrac n, isPlain b := by
  intro b hb
  unfold formatFrac at hb
  split_ifs at hb
  · simp at hb
  · simp only [List.mem_cons] at hb
    rcases hb with rfl | hb
    · exact ⟨by decide, by decide, by decide⟩
    · exact isPlain_of_isDigit b (digits_all_digit 9 n b (mem_trimZeros _ _ hb))

theorem formatZone_plain (offset : Int) : ∀ b ∈ formatZone offset, isPlain b := by
  intro b hb
  simp only [formatZone] at hb
  split_ifs at hb
  · simp only [List.mem_singleton] at hb
    subst hb; exact ⟨by decide, by decide, by decide⟩
  all_goals
    simp only [List.mem_append, List.mem_singleton, List.mem_cons, List.not_mem_nil,
      or_false] at hb
    rcases hb with ((rfl | hb) | rfl) | hb
    · exact ⟨by decide, by decide, by decide⟩
    · exact isPlain_of_isDigit b (digits_all_digit _ _ b hb)
    · exact ⟨by decide, by decide, by decide⟩
    · exact isPlain_of_isDigit b (digits_all_digit _ _ b hb)

theorem format_plain (t : Time) : ∀ b ∈ t.formatRFC3339Nano, isPlain b := by
  intro b hb
  simp only [Time.formatRFC3339Nano, List.mem_append, List.mem_singleton, or_assoc] at hb
  have hd : ∀ w n, b ∈ digits w n → isPlain b :=
    fun w n h => isPlain_of_isDigit b (digits_all_digit w n b h)
  have hp : ∀ c : Byte, b = c → isPlain c → isPlain b := fun c e h => e ▸ h
  rcases hb with h | h | h | h | h | h | h | h | h | h | h | h | h
  · exact hd _ _ h
  · exact hp _ h ⟨by decide, by decide, by decide⟩
  · exact hd _ _ h
  · exact hp _ h ⟨by decide, by decide, by decide⟩
  · exact hd _ _ h
  · exact hp _ h ⟨by decide, by decide, by decide⟩
  · exact hd _ _ h
  · exact hp _ h ⟨by decide, by decide, by decide⟩
  · exact hd _ _ h
  · exact hp _ h ⟨by decide, by decide, by decide⟩
  · exact hd _ _ h
  · exact formatFrac_plain _ b h
  · exact formatZone_plain _ b h

/-- A time that `MarshalJSON` encodes and whose zone offset is a whole number
of minutes is read back from its encoding. -/
theorem parseValue_time (t : Time) (enc X : GoString) (h : t.MarshalJSON = .ok enc) :
    parseValue (enc ++ X) = .ok (.str t.formatRFC3339Nano, X) ∧
    (t.offset % 60 = 0 → ∀ old, storeTime (.str t.formatRFC3339Nano) old = .ok t) := by
  unfold Time.MarshalJSON at h
  split_ifs at h with hy hz
  simp only [Except.ok.injEq] at h
  subst h
  constructor
  · have : [0x22] ++ t.formatRFC3339Nano ++ [0x22] ++ X
        = 0x22 :: (t.formatRFC3339Nano ++ 0x22 :: X) := by simp
    rw [this, parseValue, scan_plain_list _ _ (format_plain t), scan_inString_cons,
      if_pos rfl]
    simp [pre]
  · intro hmin old
    have := parseRFC3339_format t (by omega) (by omega) hmin (by omega)
    simp only [storeTime, this]

/-! ### White space and arrays -/

theorem skipSpace_blank (ws s : GoString) (h : ∀ c ∈ ws, isSpace c = true) :
    skipSpace (ws ++ s) = skipSpace s := by
  induction ws with
  | nil => rfl
  | cons c cs ih =>
    rw [List.cons_append, skipSpace, if_pos (h c (by simp)), ih (fun b hb => h b (by simp [hb]))]

theorem skipSpace_cons (c : Byte) (s : GoString) (h : isSpace c = false) :
    skipSpace (c :: s) = c :: s := by
  rw [skipSpace, if_neg (by simp [h])]

theorem appendString_cons (s X : GoString) :
    appendString s ++ X = 0x22 :: (appendStringAux s.length s ++ 0x22 :: X) := by
  simp [appendString]

theorem skipSpace_appendString (s X : GoString) :
    skipSpace (appendString s ++ X) = appendString s ++ X := by
  rw [appendString_cons, skipSpace_cons _ _ (by decide)]

theorem joinWith_arrTail (w : Layout) (y : GoString) (ys : List GoString) :
    joinWith (0x2C :: w.arrSep) ((y :: ys).map appendString) ++ (w.arrClose ++ [0x5D])
      = appendString y ++ arrTail w ys := by
  induction ys generalizing y with
  | nil => simp [joinWith, arrTail]
  | cons z zs ih =>
    have := ih z
    simp only [List.map_cons, joinWith, arrTail, List.append_assoc, List.singleton_append,
      List.cons_append, List.nil_append] at this ⊢
    rw [this]

theorem encodeFeatures_cons (w : Layout) (x : GoString) (xs : List GoString) :
    encodeFeatures w (some (x :: xs)) = 0x5B :: (w.arrOpen ++ (appendString x ++ arrTail w xs)) := by
  simp only [encodeFeatures, List.append_assoc, List.singleton_append, List.cons_append, List.nil_append]
  rw [joinWith_arrTail]

theorem arrTail_length (w : Layout) (xs : List GoString) : xs.length < (arrTail w xs).length := by
  induction xs with
  | nil => simp [arrTail]
  | cons x xs ih => simp only [arrTail, List.length_append, List.length_cons]; omega

theorem parseElems_succ (fuel : Nat) (c : Byte) (rest : GoString) :
    parseElems (fuel + 1) (c :: rest) =
      if c = 0x5D then .ok ([], rest)
      else if c = 0x2C then
        match skipSpace rest with
        | 0x22 :: rest1 =>
          match scanString .inString rest1 with
          | none => .error errSyntax
          | some (raw, rest2) =>
            match parseElems fuel (skipSpace rest2) with
            | .error e => .error e
            | .ok (elems, rest3) => .ok (some raw :: elems, rest3)
        | 0x6E :: 0x75 :: 0x6C :: 0x6C :: rest1 =>
          match parseElems fuel (skipSpace rest1) with
          | .error e => .error e
          | .ok (elems, rest3) => .ok (none :: elems, rest3)
        | _ => .error errSyntax
      else .error errSyntax := rfl

/-- The elements after the first are read back from their encoding. -/
theorem parseElems_arrTail (w : Layout) (hw : w.Blank) (xs : List GoString) (fuel : Nat)
    (X : GoString) (hf : xs.length < fuel) :
    parseElems fuel (skipSpace (arrTail w xs ++ X))
      = .ok (xs.map (fun x => some (appendStringAux x.length x)), X) := by
  induction xs generalizing fuel with
  | nil =>
    obtain ⟨f, rfl⟩ : ∃ f, fuel = f + 1 := ⟨fuel - 1, by simp at hf; omega⟩
    simp only [arrTail, List.append_assoc, List.singleton_append]
    rw [skipSpace_blank _ _ hw.2.2.2.2.2.2, skipSpace_cons _ _ (by decide), parseElems_succ,
      if_pos rfl]
    rfl
  | cons x xs ih =>
    obtain ⟨f, rfl⟩ : ∃ f, fuel = f + 1 := ⟨fuel - 1, by simp at hf; omega⟩
    simp only [arrTail, List.append_assoc, List.singleton_append, List.cons_append, List.nil_append]
    rw [skipSpace_cons _ _ (by decide), parseElems_succ, if_neg (by decide), if_pos rfl,
      skipSpace_blank _ _ hw.2.2.2.2.2.1, skipSpace_appendString, appendString_cons]
    simp only [scan_appendStringAux, ih f (by simp at hf; omega), List.map_cons]

theorem storeElems_valid (xs : List GoString) (h : xs.all validUTF8 = true) :
    storeElems (xs.map (fun x => some (appendStringAux x.length x))) = .ok xs := by
  induction xs with
  | nil => rfl
  | cons x xs ih =>
    simp only [List.all_cons, Bool.and_eq_true] at h
    simp only [List.map_cons, storeElems, unquote_appendString x h.1, ih h.2]

/-- The `Features` slice is read back from its encoding. -/
theorem parseValue_features (w : Layout) (hw : w.Blank) (fs : Option (List GoString))
    (X : GoString) :
    parseValue (encodeFeatures w fs ++ X) = .ok (featuresValue fs, X) := by
  cases fs with
  | none =>
    rw [encodeFeatures, show ascii "null" = [0x6E, 0x75, 0x6C, 0x6C] by decide]
    rfl
  | some xs =>
    cases xs with
    | nil =>
      rw [encodeFeatures, show ascii "[]" = [0x5B, 0x5D] by decide]
      simp only [List.cons_append, List.nil_append, parseValue,
        skipSpace_cons 0x5D X (by decide), featuresValue, List.map_nil]
    | cons x xs =>
      rw [encodeFeatures_cons, List.cons_append, parseValue]
      simp only [List.append_assoc]
      rw [skipSpace_blank _ _ hw.2.2.2.2.1, skipSpace_appendString, appendString_cons]
      have hfuel : xs.length < (arrTail w xs ++ X).length.succ := by
        have := arrTail_length w xs
        rw [List.length_append]; omega
      simp only [scan_appendStringAux, parseElems_arrTail w hw xs _ X hfuel, List.map_cons,
        featuresValue]

theorem storeFeatures_featuresValue (fs : Option (List GoString))
    (h : (fs.getD []).all validUTF8 = true) : storeFeatures (featuresValue fs) = .ok fs := by
  cases fs with
  | none => rfl
  | some xs =>
    simp only [Option.getD_some] at h
    simp only [featuresValue, storeFeatures, storeElems_valid _ h]

/-! ### Members and the object -/

theorem parseMembers_succ (fuel : Nat) (rest : GoString) (l : License) :
    parseMembers (fuel + 1) (0x22 :: rest) l =
      match scanString .inString rest with
      | none => .error errSyntax
      | some (rawKey, rest1) =>
        match unquote rawKey, skipSpace rest1 with
        | some key, 0x3A :: rest2 =>
          match parseValue (skipSpace rest2) with
          | .error e => .error e
          | .ok (v, rest3) =>
            match assign (lookupField key) v l with
            | .error e => .error e
            | .ok l2 =>
              match skipSpace rest3 with
              | 0x2C :: rest4 => parseMembers fuel (skipSpace rest4) l2
              | 0x7D :: rest4 => .ok (l2, rest4)
              | _ => .error errSyntax
        | _, _ => .error errSyntax := rfl

/-- One member of the object is read and stored. -/
theorem member_step (w : Layout) (hw : w.Blank) (fuel : Nat) (key venc tail : GoString)
    (f : Option Field) (v : Value) (l l2 : License) (hkey : validUTF8 key = true)
    (hf : lookupField key = f) (hval : parseValue (venc ++ tail) = .ok (v, tail))
    (hhead : skipSpace (venc ++ tail) = venc ++ tail) (hassign : assign f v l = .ok l2) :
    parseMembers (fuel + 1) (appendString key ++ (0x3A :: (w.colon ++ (venc ++ tail)))) l =
      match skipSpace tail with
      | 0x2C :: rest4 => parseMembers fuel (skipSpace rest4) l2
      | 0x7D :: rest4 => .ok (l2, rest4)
      | _ => .error errSyntax := by
  rw [appendString_cons, parseMembers_succ, scan_appendStringAux]
  simp only [unquote_appendString key hkey, skipSpace_cons 0x3A _ (by decide),
    skipSpace_blank _ _ hw.1, hhead, hval, hf, hassign]

theorem member_step_comma (w : Layout) (hw : w.Blank) (fuel : Nat) (key venc key2 Y : GoString)
    (f : Option Field) (v : Value) (l l2 : License) (hkey : validUTF8 key = true)
    (hf : lookupField key = f) (hval : ∀ T, parseValue (venc ++ T) = .ok (v, T))
    (hhead : ∀ T, skipSpace (venc ++ T) = venc ++ T) (hassign : assign f v l = .ok l2) :
    parseMembers (fuel + 1) (appendString key ++ (0x3A :: (w.colon ++ (venc ++
        (0x2C :: (w.objSep ++ (appendString key2 ++ Y))))))) l =
      parseMembers fuel (appendString key2 ++ Y) l2 := by
  rw [member_step w hw fuel key venc _ f v l l2 hkey hf (hval _) (hhead _) hassign,
    skipSpace_cons 0x2C _ (by decide)]
  simp only [skipSpace_blank _ _ hw.2.2.1, skipSpace_appendString]

theorem member_step_last (w : Layout) (hw : w.Blank) (fuel : Nat) (key venc X : GoString)
    (f : Option Field) (v : Value) (l l2 : License) (hkey : validUTF8 key = true)
    (hf : lookupField key = f) (hval : ∀ T, parseValue (venc ++ T) = .ok (v, T))
    (hhead : ∀ T, skipSpace (venc ++ T) = venc ++ T) (hassign : assign f v l = .ok l2) :
    parseMembers (fuel + 1) (appendString key ++ (0x3A :: (w.colon ++ (venc ++
        (w.objClose ++ (0x7D :: X)))))) l = .ok (l2, X) := by
  rw [member_step w hw fuel key venc _ f v l l2 hkey hf (hval _) (hhead _) hassign,
    skipSpace_blank _ _ hw.2.2.2.1, skipSpace_cons 0x7D _ (by decide)]

theorem Unmarshal_object (rest key Y : GoString) (l : License)
    (hs : skipSpace rest = appendString key ++ Y) (hlen : 10 ≤ rest.length)
    (hp : ∀ n, parseMembers (n + 1 + 1 + 1 + 1 + 1 + 1 + 1 + 1 + 1 + 1) (appendString key ++ Y)
      zeroLicense = .ok (l, [])) :
    Unmarshal (0x7B :: rest) = .ok l := by
  unfold Unmarshal
  rw [skipSpace_cons 0x7B rest (by decide)]
  simp only [hs]
  obtain ⟨n, hn⟩ : ∃ n, (0x7B :: rest).length = n + 1 + 1 + 1 + 1 + 1 + 1 + 1 + 1 + 1 + 1 :=
    ⟨(0x7B :: rest).length - 10, by simp only [List.length_cons]; omega⟩
  have := hp n
  rw [appendString_cons] at this ⊢
  simp only [hn, this, skipSpace, if_true]

theorem skipSpace_encodeFeatures (w : Layout) (fs : Option (List GoString)) (T : GoString) :
    skipSpace (encodeFeatures w fs ++ T) = encodeFeatures w fs ++ T := by
  cases fs with
  | none =>
    rw [encodeFeatures, show ascii "null" = [0x6E, 0x75, 0x6C, 0x6C] by decide]
    exact skipSpace_cons _ _ (by decide)
  | some xs =>
    cases xs with
    | nil =>
      rw [encodeFeatures, show ascii "[]" = [0x5B, 0x5D] by decide]
      exact skipSpace_cons _ _ (by decide)
    | cons x xs =>
      rw [encodeFeatures_cons]
      exact skipSpace_cons _ _ (by decide)

theorem MarshalJSON_head (t : Time) (enc : GoString) (h : t.MarshalJSON = .ok enc)
    (T : GoString) : skipSpace (enc ++ T) = enc ++ T := by
  unfold Time.MarshalJSON at h
  split_ifs at h
  simp only [Except.ok.injEq] at h
  subst h
  exact skipSpace_cons _ _ (by decide)

theorem tags_spec :
    (∀ f ∈ allFields, validUTF8 f.tag = true ∧ lookupField f.tag = some f) := by
  decide

/-! ### The encoding of a license is decoded to the license -/

theorem assign_string (s : GoString) (hs : validUTF8 s = true) (l : License) :
    assign (some .ID) (.str (appendStringAux s.length s)) l = .ok { l with ID := s } ∧
    assign (some .UserName) (.str (appendStringAux s.length s)) l = .ok { l with UserName := s } ∧
    assign (some .DeviceID) (.str (appendStringAux s.length s)) l = .ok { l with DeviceID := s } ∧
    assign (some .Level) (.str (appendStringAux s.length s)) l = .ok { l with Level := s } ∧
    assign (some .Signature) (.str (appendStringAux s.length s)) l
      = .ok { l with Signature := s } ∧
    assign (some .IssuerID) (.str (appendStringAux s.length s)) l = .ok { l with IssuerID := s } ∧
    assign (some .Version) (.str (appendStringAux s.length s)) l = .ok { l with Version := s } := by
  simp only [assign, storeString_appendString s _ hs]
  exact ⟨rfl, rfl, rfl, rfl, rfl, rfl, rfl⟩

theorem assign_time (t : Time) (v : Value) (h : ∀ old, storeTime v old = .ok t) (l : License) :
    assign (some .IssuedAt) v l = .ok { l with IssuedAt := t } ∧
    assign (some .ExpiresAt) v l = .ok { l with ExpiresAt := t } := by
  simp only [assign, h]
  exact ⟨rfl, rfl⟩

theorem assign_features (fs : Option (List GoString)) (v : Value)
    (h : storeFeatures v = .ok fs) (l : License) :
    assign (some .Features) v l = .ok { l with Features := fs } := by
  simp only [assign, h]
  rfl

/-- Decoding the encoding of a well-formed license, in any layout of white
space, gives the license back. -/
theorem Unmarshal_encodeLicense (w : Layout) (hw : w.Blank) (l : License)
    (hl : l.WellFormed) (data : GoString) (h : encodeLicense w l = .ok data) :
    Unmarshal data = .ok l := by
  obtain ⟨vID, vUser, vDev, vLevel, oIss, oExp, vFeat, vSig, vIssuer, vVer⟩ := hl
  unfold encodeLicense at h
  cases hi : l.IssuedAt.MarshalJSON with
  | error e => rw [hi] at h; simp at h
  | ok issuedAt =>
    cases he : l.ExpiresAt.MarshalJSON with
    | error e => rw [hi, he] at h; simp at h
    | ok expiresAt =>
      rw [hi, he] at h
      simp only [Except.ok.injEq] at h
      subst h
      have pI := fun T => (parseValue_time l.IssuedAt issuedAt T hi).1
      have sI := (parseValue_time l.IssuedAt issuedAt [] hi).2 oIss
      have pE := fun T => (parseValue_time l.ExpiresAt expiresAt T he).1
      have sE := (parseValue_time l.ExpiresAt expiresAt [] he).2 oExp
      have hI := MarshalJSON_head l.IssuedAt issuedAt hi
      have hE := MarshalJSON_head l.ExpiresAt expiresAt he
      have sF := storeFeatures_featuresValue l.Features vFeat
      obtain ⟨t0, t1, t2, t3, t4, t5, t6, t7, t8, t9⟩ :
          (validUTF8 (ascii "id") = true ∧ lookupField (ascii "id") = some .ID) ∧
          (validUTF8 (ascii "userName") = true ∧ lookupField (ascii "userName") = some .UserName) ∧
          (validUTF8 (ascii "deviceId") = true ∧ lookupField (ascii "deviceId") = some .DeviceID) ∧
          (validUTF8 (ascii "level") = true ∧ lookupField (ascii "level") = some .Level) ∧
          (validUTF8 (ascii "issuedAt") = true ∧ lookupField (ascii "issuedAt") = some .IssuedAt) ∧
          (validUTF8 (ascii "expiresAt") = true
            ∧ lookupField (ascii "expiresAt") = some .ExpiresAt) ∧
          (validUTF8 (ascii "features") = true ∧ lookupField (ascii "features") = some .Features) ∧
          (validUTF8 (ascii "signature") = true
            ∧ lookupField (ascii "signature") = some .Signature) ∧
          (validUTF8 (ascii "issuerId") = true ∧ lookupField (ascii "issuerId") = some .IssuerID) ∧
          (validUTF8 (ascii "version") = true ∧ lookupField (ascii "version") = some .Version) := by
        decide
      simp only [List.append_assoc, List.cons_append, List.nil_append, List.singleton_append]
      apply Unmarshal_object _ (ascii "id") _ l
        (by rw [skipSpace_blank _ _ hw.2.1, skipSpace_appendString])
        (by simp only [List.length_cons, List.length_append]; omega)
      intro n
      rw [member_step_comma w hw _ (ascii "id") (appendString l.ID) (ascii "userName") _
        (some .ID) _ zeroLicense _ t0.1 t0.2 (parseValue_string _) (skipSpace_appendString _)
        (assign_string l.ID vID _).1]
      rw [member_step_comma w hw _ (ascii "userName") (appendString l.UserName)
        (ascii "deviceId") _ (some .UserName) _ _ _ t1.1 t1.2 (parseValue_string _)
        (skipSpace_appendString _) (assign_string l.UserName vUser _).2.1]
      rw [member_step_comma w hw _ (ascii "deviceId") (appendString l.DeviceID)
        (ascii "level") _ (some .DeviceID) _ _ _ t2.1 t2.2 (parseValue_string _)
        (skipSpace_appendString _) (assign_string l.DeviceID vDev _).2.2.1]
      rw [member_step_comma w hw _ (ascii "level") (appendString l.Level)
        (ascii "issuedAt") _ (some .Level) _ _ _ t3.1 t3.2 (parseValue_string _)
        (skipSpace_appendString _) (assign_string l.Level vLevel _).2.2.2.1]
      rw [member_step_comma w hw _ (ascii "issuedAt") issuedAt
        (ascii "expiresAt") _ (some .IssuedAt) _ _ _ t4.1 t4.2 pI hI
        (assign_time l.IssuedAt _ sI _).1]
      rw [member_step_comma w hw _ (ascii "expiresAt") expiresAt
        (ascii "features") _ (some .ExpiresAt) _ _ _ t5.1 t5.2 pE hE
        (assign_time l.ExpiresAt _ sE _).2]
      rw [member_step_comma w hw _ (ascii "features") (encodeFeatures w l.Features)
        (ascii "signature") _ (some .Features) _ _ _ t6.1 t6.2
        (parseValue_features w hw l.Features) (skipSpace_encodeFeatures w l.Features)
        (assign_features l.Features _ sF _)]
      rw [member_step_comma w hw _ (ascii "signature") (appendString l.Signature)
        (ascii "issuerId") _ (some .Signature) _ _ _ t7.1 t7.2 (parseValue_string _)
        (skipSpace_appendString _) (assign_string l.Signature vSig _).2.2.2.2.1]
      rw [member_step_comma w hw _ (ascii "issuerId") (appendString l.IssuerID)
        (ascii "version") _ (some .IssuerID) _ _ _ t8.1 t8.2 (parseValue_string _)
        (skipSpace_appendString _) (assign_string l.IssuerID vIssuer _).2.2.2.2.2.1]
      rw [member_step_last w hw _ (ascii "version") (appendString l.Version) []
        (some .Version) _ _ _ t9.1 t9.2 (parseValue_string _)
        (skipSpace_appendString _) (assign_string l.Version vVer _).2.2.2.2.2.2]

/-! ### `AddDate` -/

theorem wrap64_of_range {n : Int} (h1 : -9223372036854775808 ≤ n)
    (h2 : n ≤ 9223372036854775807) : wrap64 n = n := by
  unfold wrap64; omega

theorem daysFromCivil_add (y m day d : Int) :
    daysFromCivil y m (day + d) = daysFromCivil y m day + d := by
  unfold daysFromCivil; ring

theorem wallOffset_bounded {loc : Location} (h : loc.Bounded) (wall : Int) :
    -100000 ≤ loc.wallOffset wall ∧ loc.wallOffset wall ≤ 100000 := by
  unfold Location.wallOffset
  simp only
  split_ifs
  · exact h _
  · exact h _

/-- The time `Date` returns for wall-clock seconds that fit 64 bits with room
to spare. -/
theorem Date_spec (y m day secOfDay nsec wall : Int) (loc : Location)
    (hw : daysFromCivil y m day * 86400 + secOfDay = wall)
    (h1 : -9000000000000000000 ≤ wall) (h2 : wall ≤ 9000000000000000000)
    (hloc : loc.Bounded) :
    Date y m day secOfDay nsec loc
      = ⟨(wall - loc.wallOffset wall) * nanosPerSecond + nsec,
         (loc.lookup (wall - loc.wallOffset wall)).1⟩ := by
  have hz := hloc wall
  have hoff := wallOffset_bounded hloc wall
  have e0 : wrap64 (daysFromCivil y m day * 86400 + secOfDay) = wall := by
    rw [hw]; exact wrap64_of_range (by omega) (by omega)
  have e1 : wrap64 (wall - (loc.lookup wall).1) = wall - (loc.lookup wall).1 :=
    wrap64_of_range (by omega) (by omega)
  have hunix : (if (loc.lookup wall).1 ≠ 0 then
      wrap64 (wall - if wrap64 (wall - (loc.lookup wall).1) < (loc.lookup wall).2.1 ∨
        (loc.lookup wall).2.2 ≤ wrap64 (wall - (loc.lookup wall).1)
        then (loc.lookup (wrap64 (wall - (loc.lookup wall).1))).1 else (loc.lookup wall).1)
      else wall) = wall - loc.wallOffset wall := by
    rw [e1]
    unfold Location.wallOffset at hoff ⊢
    by_cases h0 : (loc.lookup wall).1 = 0
    · simp [h0]
    · simp only [ne_eq, h0, not_false_eq_true, if_true, true_and] at hoff ⊢
      exact wrap64_of_range (by omega) (by omega)
  have hext : wrap64 (wall - loc.wallOffset wall + unixToInternal)
      = wall - loc.wallOffset wall + unixToInternal :=
    wrap64_of_range (by unfold unixToInternal; omega) (by unfold unixToInternal; omega)
  have hback : wrap64 (wall - loc.wallOffset wall + unixToInternal - unixToInternal)
      = wall - loc.wallOffset wall := by
    rw [show wall - loc.wallOffset wall + unixToInternal - unixToInternal
      = wall - loc.wallOffset wall by ring]
    exact wrap64_of_range (by omega) (by omega)
  simp only [Date, e0, hunix, hext, hback]
  congr 1
  ring

/-- While no 64-bit operation wraps, `AddDate` moves a time by `d` days of the
calendar of its location. -/
theorem AddDate_moves (t : Time) (loc : Location) (d : Int)
    (hd : -100000000000000 ≤ d ∧ d ≤ 100000000000000) (ht : t.InRange) (hloc : loc.Bounded) :
    MovedByDays loc t d (t.AddDate loc d) := by
  obtain ⟨-, -, c1, c2, c3⟩ := civilFromDays_spec ((t.unixSec + (loc.lookup t.unixSec).1) / 86400)
  have c4 := monthLength_le
    (isLeap (civilFromDays ((t.unixSec + (loc.lookup t.unixSec).1) / 86400)).1)
    (civilFromDays ((t.unixSec + (loc.lookup t.unixSec).1) / 86400)).2.1
  unfold Time.InRange at ht
  have hs1 : -100000000000000000 ≤ t.unixSec := by
    unfold Time.unixSec nanosPerSecond; omega
  have hs2 : t.unixSec ≤ 100000000000000000 := by
    unfold Time.unixSec nanosPerSecond; omega
  have hn : t.unixNano = t.unixSec * nanosPerSecond + t.nsec := by
    unfold Time.unixSec Time.nsec nanosPerSecond; omega
  have hns : 0 ≤ t.nsec ∧ t.nsec < 1000000000 := by
    unfold Time.nsec nanosPerSecond; omega
  have h0 := hloc t.unixSec
  have hoff := wallOffset_bounded hloc (t.unixSec + (loc.lookup t.unixSec).1 + d * 86400)
  have hday : daysFromCivil (civilFromDays ((t.unixSec + (loc.lookup t.unixSec).1) / 86400)).1
      (civilFromDays ((t.unixSec + (loc.lookup t.unixSec).1) / 86400)).2.1
      (wrap64 ((civilFromDays ((t.unixSec + (loc.lookup t.unixSec).1) / 86400)).2.2 + d)) * 86400
      + (t.unixSec + (loc.lookup t.unixSec).1) % 86400
      = t.unixSec + (loc.lookup t.unixSec).1 + d * 86400 := by
    rw [wrap64_of_range (n := _ + d) (by omega) (by omega), daysFromCivil_add, c3]
    omega
  have hr := Date_spec _ _ _ _ t.nsec _ loc hday (by omega) (by omega) hloc
  unfold Time.AddDate
  simp only
  rw [hr]
  refine ⟨?_, ?_⟩
  · simp only [hn, nanosPerDay]
    ring
  · simp only [Time.unixSec]
    congr 2
    unfold nanosPerSecond
    omega

theorem FixedZone_bounded (off : Int) (h : -100000 ≤ off ∧ off ≤ 100000) :
    (FixedZone off).Bounded := fun _ => h

theorem FixedZone_wallOffset (off wall : Int) (h : -100000 ≤ off ∧ off ≤ 100000)
    (h1 : -9000000000000000000 ≤ wall) (h2 : wall ≤ 9000000000000000000) :
    (FixedZone off).wallOffset wall = off := by
  unfold Location.wallOffset FixedZone
  simp only
  rw [if_neg]
  omega

/-- In a location with one offset (`time.UTC`, a `FixedZone`) `AddDate` moves
the instant by `d` times 24 hours, while no 64-bit operation wraps. -/
theorem AddDate_fixed (t : Time) (off d : Int) (h : -100000 ≤ off ∧ off ≤ 100000)
    (hd : -100000000000000 ≤ d ∧ d ≤ 100000000000000) (ht : t.InRange) :
    t.AddDate (FixedZone off) d = ⟨t.unixNano + d * nanosPerDay, off⟩ := by
  obtain ⟨m1, m2⟩ := AddDate_moves t (FixedZone off) d hd ht (FixedZone_bounded off h)
  unfold Time.InRange at ht
  have hs1 : -100000000000000000 ≤ t.unixSec := by
    unfold Time.unixSec nanosPerSecond; omega
  have hs2 : t.unixSec ≤ 100000000000000000 := by
    unfold Time.unixSec nanosPerSecond; omega
  have e : ((FixedZone off).lookup t.unixSec).1 = off := rfl
  rw [e, FixedZone_wallOffset off _ h (by omega) (by omega)] at m1
  have e2 : ((FixedZone off).lookup (t.AddDate (FixedZone off) d).unixSec).1 = off := rfl
  rw [e2] at m2
  have m3 : (t.AddDate (FixedZone off) d).unixNano = t.unixNano + d * nanosPerDay := by
    linarith
  cases hr : t.AddDate (FixedZone off) d with
  | mk u o =>
    rw [hr] at m2 m3
    simp only at m2 m3
    rw [m2, m3]

/-! ### The license entity -/

/-- C4: `IsExpired` is true exactly when the clock reading is strictly after
`ExpiresAt` (an `ExpiresAt` equal to the reading is not expired), and `IsValid`
is true exactly when the license is not expired and its `DeviceID` equals the
presented one. -/
theorem validity_predicate (l : License) (d : GoString) (now : Time) :
    (l.IsExpired now = true ↔ l.ExpiresAt.unixNano < now.unixNano) ∧
    (now.unixNano = l.ExpiresAt.unixNano → l.IsExpired now = false) ∧
    (l.IsValid now d = true ↔ l.IsExpired now = false ∧ l.DeviceID = d) := by
  refine ⟨by simp [License.IsExpired, Time.After], ?_, ?_⟩
  · intro h
    simp [License.IsExpired, Time.After, h]
  · unfold License.IsValid
    by_cases he : l.IsExpired now = true
    · simp [he]
    · by_cases hd : l.DeviceID = d <;> simp [he, hd]

theorem newYork_bounded : newYork.Bounded := by
  intro sec
  unfold newYork
  simp only
  split_ifs <;> decide

/-- Counterexample to C3 as stated: renewing by `2^50` days, in UTC. The
license that expired a day before the clock reading gets an expiry `35 * 2^57`
seconds after the reading, and the license with 30 days left an expiry
`35 * 2^57` seconds after the old one: the seconds of `2^50` days taken modulo
`2^64`, which is not `2^50` days. -/
theorem renew_wraps :
    expiredLicense.IsExpired demoNow = true ∧
    (expiredLicense.Renew (FixedZone 0) (FixedZone 0) demoNow demoNow (2 ^ 50)).ExpiresAt.unixNano
      = demoNow.unixNano + 35 * 2 ^ 57 * nanosPerSecond ∧
    (expiredLicense.Renew (FixedZone 0) (FixedZone 0) demoNow demoNow (2 ^ 50)).ExpiresAt.unixNano
      ≠ demoNow.unixNano + 2 ^ 50 * nanosPerDay ∧
    demoLicense.IsExpired demoNow = false ∧
    (demoLicense.Renew (FixedZone 0) (FixedZone 0) demoNow demoNow (2 ^ 50)).ExpiresAt.unixNano
      = demoLicense.ExpiresAt.unixNano + 35 * 2 ^ 57 * nanosPerSecond ∧
    (demoLicense.Renew (FixedZone 0) (FixedZone 0) demoNow demoNow (2 ^ 50)).ExpiresAt.unixNano
      ≠ demoLicense.ExpiresAt.unixNano + 2 ^ 50 * nanosPerDay := by
  decide

/-- The days of a renewal are days of the calendar of the location: in New
York, renewing at 2023-11-14T17:13:20-05:00 an expired license by 150 days
gives the expiry 2024-04-12T17:13:20-04:00, which is one hour less than 150
times 24 hours after the clock reading. -/
theorem renew_across_dst :
    expiredLicense.IsExpired demoNowNewYork = true ∧
    (expiredLicense.Renew newYork newYork demoNowNewYork demoNowNewYork 150).ExpiresAt
      = ⟨1712956400000000000, -14400⟩ ∧
    (1712956400000000000 : Int)
      = demoNowNewYork.unixNano + 150 * nanosPerDay - 3600 * nanosPerSecond ∧
    demoNowNewYork.formatRFC3339Nano = ascii "2023-11-14T17:13:20-05:00" ∧
    Time.formatRFC3339Nano ⟨1712956400000000000, -14400⟩ = ascii "2024-04-12T17:13:20-04:00" := by
  decide

/-- C3, amended: for a number of days `d` of at most `10^14` in magnitude,
times within three billion years of 1970 and locations with offsets within
`100000` seconds, renewing a license that is not expired at the clock reading
sets `ExpiresAt` to the old `ExpiresAt = T` moved by `d` days of the calendar
of the location of `T`, and renewing an expired one sets it to the clock
reading of the renewal moved by `d` days of the calendar of `time.Local`, the
old expiry playing no part. In a location with one offset (UTC, a fixed zone)
the move is `d` times 24 hours exactly, so the new expiry of an expired license
is not `T` plus `d` days when the clock reading is after `T`. -/
theorem renew_semantics (localLoc loc : Location) (l : License) (d : Int) (now now2 : Time)
    (hd : -100000000000000 ≤ d ∧ d ≤ 100000000000000)
    (hT : l.ExpiresAt.InRange) (hnow : now2.InRange)
    (hloc : loc.Bounded) (hlocal : localLoc.Bounded) :
    (l.IsExpired now = false →
      (l.Renew localLoc loc now now2 d).ExpiresAt = l.ExpiresAt.AddDate loc d ∧
      MovedByDays loc l.ExpiresAt d (l.Renew localLoc loc now now2 d).ExpiresAt) ∧
    (l.IsExpired now = true →
      (l.Renew localLoc loc now now2 d).ExpiresAt = now2.AddDate localLoc d ∧
      MovedByDays localLoc now2 d (l.Renew localLoc loc now now2 d).ExpiresAt) ∧
    (∀ off, -100000 ≤ off ∧ off ≤ 100000 → l.IsExpired now = false →
      (l.Renew localLoc (FixedZone off) now now2 d).ExpiresAt
        = ⟨l.ExpiresAt.unixNano + d * nanosPerDay, off⟩) ∧
    (∀ off, -100000 ≤ off ∧ off ≤ 100000 → l.IsExpired now = true →
      (l.Renew (FixedZone off) loc now now2 d).ExpiresAt
        = ⟨now2.unixNano + d * nanosPerDay, off⟩ ∧
      (l.ExpiresAt.unixNano < now2.unixNano →
        (l.Renew (FixedZone off) loc now now2 d).ExpiresAt.unixNano
          ≠ l.ExpiresAt.unixNano + d * nanosPerDay)) := by
  refine ⟨?_, ?_, ?_, ?_⟩
  · intro h
    have e : (l.Renew localLoc loc now now2 d).ExpiresAt = l.ExpiresAt.AddDate loc d := by
      simp [License.Renew, h]
    exact ⟨e, e ▸ AddDate_moves l.ExpiresAt loc d hd hT hloc⟩
  · intro h
    have e : (l.Renew localLoc loc now now2 d).ExpiresAt = now2.AddDate localLoc d := by
      simp [License.Renew, h]
    exact ⟨e, e ▸ AddDate_moves now2 localLoc d hd hnow hlocal⟩
  · intro off hoff h
    have e : (l.Renew localLoc (FixedZone off) now now2 d).ExpiresAt
        = l.ExpiresAt.AddDate (FixedZone off) d := by
      simp [License.Renew, h]
    rw [e, AddDate_fixed l.ExpiresAt off d hoff hd hT]
  · intro off hoff h
    have e : (l.Renew (FixedZone off) loc now now2 d).ExpiresAt
        = now2.AddDate (FixedZone off) d := by
      simp [License.Renew, h]
    rw [e, AddDate_fixed now2 off d hoff hd hnow]
    refine ⟨rfl, ?_⟩
    intro hlt
    simp only [ne_eq]
    omega

/-- Witness of the amended C3: the renewal in New York of the expired license
by 150 days, across the change to summer time, and the renewal in UTC of the
license with 30 days left by 10 days. -/
theorem renew_semantics_witness :
    expiredLicense.IsExpired demoNowNewYork = true ∧
    MovedByDays newYork demoNowNewYork 150
      (expiredLicense.Renew newYork newYork demoNowNewYork demoNowNewYork 150).ExpiresAt ∧
    demoLicense.IsExpired demoNow = false ∧
    (demoLicense.Renew (FixedZone 0) (FixedZone 0) demoNow demoNow 10).ExpiresAt
      = ⟨demoLicense.ExpiresAt.unixNano + 10 * nanosPerDay, 0⟩ :=
  ⟨by decide,
   ((renew_semantics newYork newYork expiredLicense 150 demoNowNewYork demoNowNewYork
      (by decide) (by unfold Time.InRange; decide) (by unfold Time.InRange; decide)
      newYork_bounded newYork_bounded).2.1 (by decide)).2,
   by decide,
   (renew_semantics (FixedZone 0) (FixedZone 0) demoLicense 10 demoNow demoNow
      (by decide) (by unfold Time.InRange; decide) (by unfold Time.InRange; decide)
      (FixedZone_bounded 0 (by decide)) (FixedZone_bounded 0 (by decide))).2.2.1 0
      (by decide) (by decide)⟩

/-- C9 (the code departs from it): the license issued at 2023-11-14T22:13:20Z
for 200000 days is not expired at the time of issue and has 200000 whole days
left, and `DaysUntilExpiration` returns 106751, the whole days of the largest
`Duration`; it returns 106751 as well at any time within a day of the issue,
`now` being the clock reading of `IsExpired` and `now2` the later one of `Sub`,
when at least 199999 whole days are left. -/
theorem days_until_expiration_saturates :
    centuriesLicense.IsExpired demoNow = false ∧
    (centuriesLicense.ExpiresAt.unixNano - demoNow.unixNano) / nanosPerDay = 200000 ∧
    centuriesLicense.DaysUntilExpiration demoNow demoNow = 106751 ∧
    ∀ now now2 : Time, now.unixNano ≤ now2.unixNano →
      now2.unixNano ≤ demoNow.unixNano + nanosPerDay →
      centuriesLicense.IsExpired now = false ∧
      199999 ≤ (centuriesLicense.ExpiresAt.unixNano - now2.unixNano) / nanosPerDay ∧
      centuriesLicense.DaysUntilExpiration now now2 = 106751 := by
  have he : centuriesLicense.ExpiresAt.unixNano = 18980000000000000000 := by decide
  have hn : demoNow.unixNano = 1700000000000000000 := rfl
  have hd : nanosPerDay = 86400000000000 := by decide
  have general : ∀ now now2 : Time, now.unixNano ≤ now2.unixNano →
      now2.unixNano ≤ demoNow.unixNano + nanosPerDay →
      centuriesLicense.IsExpired now = false ∧
      199999 ≤ (centuriesLicense.ExpiresAt.unixNano - now2.unixNano) / nanosPerDay ∧
      centuriesLicense.DaysUntilExpiration now now2 = 106751 := by
    intro now now2 h1 h2
    rw [hn, hd] at h2
    have hlive : centuriesLicense.IsExpired now = false := by
      simp only [License.IsExpired, Time.After, he, decide_eq_false_iff_not, not_lt]
      omega
    have hsub : centuriesLicense.ExpiresAt.Sub now2 = maxDuration := by
      unfold Time.Sub
      rw [if_pos]
      rw [he]; unfold maxDuration; omega
    refine ⟨hlive, by rw [he, hd]; omega, ?_⟩
    have h := (daysUntilExpiration_live centuriesLicense now now2 hlive
      (by rw [he]; omega)).2.2.2.1
    rw [hsub] at h
    exact h (by decide)
  exact ⟨by decide, by decide, (general demoNow demoNow (by decide) (by decide)).2.2, general⟩

/-- The rounding of `Hours` shows as well: with one nanosecond less than 171
days left at the clock reading of `Sub`, the whole days left are 170 and
`DaysUntilExpiration` is 171, whenever the clock reading of `IsExpired` was
taken. -/
theorem days_until_expiration_rounds_up (now : Time) (h : now.unixNano ≤ demoNow.unixNano) :
    almost171License.IsExpired now = false ∧
    (almost171License.ExpiresAt.unixNano - demoNow.unixNano) / nanosPerDay = 170 ∧
    almost171License.DaysUntilExpiration now demoNow = 171 := by
  have he : almost171License.ExpiresAt.unixNano = 1714774399999999999 := by decide
  have hn : demoNow.unixNano = 1700000000000000000 := rfl
  rw [hn] at h
  have hlive : almost171License.IsExpired now = false := by
    simp only [License.IsExpired, Time.After, he, decide_eq_false_iff_not, not_lt]
    omega
  have hsub : almost171License.ExpiresAt.Sub demoNow = ((14774399999999999 : ℕ) : ℤ) := by
    decide
  refine ⟨hlive, by decide, ?_⟩
  simp only [License.DaysUntilExpiration, hlive, hsub, Bool.false_eq_true, if_false]
  exact trunc_days_rounds_up

/-- The two clock readings of `DaysUntilExpiration` show too: a license in its
last moment at the reading of `IsExpired`, with the reading of `Sub` two days
later, has -2 remaining days. -/
theorem days_until_expiration_negative :
    lastMomentLicense.IsExpired demoNow = false ∧
    lastMomentLicense.DaysUntilExpiration demoNow ⟨demoNow.unixNano + 2 * nanosPerDay, 0⟩
      = -2 := by
  refine ⟨by decide, ?_⟩
  have hsub : lastMomentLicense.ExpiresAt.Sub ⟨demoNow.unixNano + 2 * nanosPerDay, 0⟩
      = -172800000000000 := by decide
  have hlive : lastMomentLicense.IsExpired demoNow = false := by decide
  have h1 : (-172800000000000 : Int).tdiv nanosPerHour = -48 := by decide
  have h2 : (-172800000000000 : Int).tmod nanosPerHour = 0 := by decide
  have r48 : round64 (-48) = -48 := by
    rw [round64_neg]
    have := round64_natCast 48 (by norm_num)
    norm_num at this
    rw [this]
  have r2 : round64 (-2) = -2 := by
    rw [round64_neg]
    have := round64_natCast 2 (by norm_num)
    norm_num at this
    rw [this]
  have r0 : round64 0 = 0 := by simp [round64]
  have hH : Hours (-172800000000000) = -48 := by
    unfold Hours
    rw [h1, h2]
    norm_num [r0, r48]
  simp only [License.DaysUntilExpiration, hlive, hsub, Bool.false_eq_true, if_false, hH]
  norm_num [r2, truncToInt]
  exact_mod_cast Int.ceil_intCast (α := ℚ) (-2)

/-- What `DaysUntilExpiration` returns, `now` being the clock reading of
`IsExpired` and `now2` the one of `Sub`: 0 for a license expired at `now`; for
a license not expired at `now` and not past its expiry at `now2`, with `D` the
time remaining at `now2` cut off at the largest `Duration` (`2^63 - 1` ns,
about 292 years), the whole days of `D` or one more, hence not negative, and
exactly the whole days of `D` when `D` ends at least 2000 ns before the next
whole day or fewer than 64 days remain. -/
theorem days_until_expiration_bounds (l : License) (now now2 : Time) :
    (l.IsExpired now = true → l.DaysUntilExpiration now now2 = 0) ∧
    (l.IsExpired now = false → now2.unixNano ≤ l.ExpiresAt.unixNano →
      l.ExpiresAt.Sub now2 = min (l.ExpiresAt.unixNano - now2.unixNano) maxDuration ∧
      0 ≤ l.DaysUntilExpiration now now2 ∧
      l.ExpiresAt.Sub now2 / nanosPerDay ≤ l.DaysUntilExpiration now now2 ∧
      l.DaysUntilExpiration now now2 ≤ l.ExpiresAt.Sub now2 / nanosPerDay + 1 ∧
      (l.ExpiresAt.Sub now2 % nanosPerDay + 2000 ≤ nanosPerDay →
        l.DaysUntilExpiration now now2 = l.ExpiresAt.Sub now2 / nanosPerDay) ∧
      (l.ExpiresAt.Sub now2 < 64 * nanosPerDay →
        l.DaysUntilExpiration now now2 = l.ExpiresAt.Sub now2 / nanosPerDay)) := by
  refine ⟨fun h => by simp [License.DaysUntilExpiration, h], fun h hle => ?_⟩
  obtain ⟨hmin, hlow, hup, hm, hs⟩ := daysUntilExpiration_live l now now2 h hle
  have h0 := (Sub_of_le hle).2.1
  have : 0 ≤ l.ExpiresAt.Sub now2 / nanosPerDay := Int.ediv_nonneg h0 (by decide)
  exact ⟨hmin, by omega, hlow, hup, hm, hs⟩

/-! ### The license manager -/

/-- C5: when the basic check fails (the license is expired at the clock reading
or bound to another device), `VerifyLicense` returns the policy failure
whatever the signature holds and whether or not a public key can be loaded,
without having made any call into the `crypto` package, and leaves the license
as it was. -/
theorem verify_fails_fast (env : Env) (m : Manager) (now : Time) (l : License)
    (d : GoString) (h : l.IsValid now d = false) :
    (m.VerifyLicense env now l d).result = .error errNotValid ∧
    (m.VerifyLicense env now l d).calls = [] ∧
    (m.VerifyLicense env now l d).license = l := by
  simp [Manager.VerifyLicense, h]

/-- Witness of C5: an expired license with a signature that is not base64, in
an environment without key files. -/
theorem verify_fails_fast_witness :
    ({ expiredLicense with Signature := ascii "!!" }).IsValid demoNow (ascii "dev-1") = false ∧
    (demoManager.VerifyLicense noKeysEnv demoNow
      { expiredLicense with Signature := ascii "!!" } (ascii "dev-1")).result
        = .error errNotValid :=
  ⟨by decide, (verify_fails_fast noKeysEnv demoManager demoNow
    { expiredLicense with Signature := ascii "!!" } (ascii "dev-1") (by decide)).1⟩

/-- C6 (the code departs from it): for a license that passes the basic check
and whose signature is base64 but whose expiry lies in the year 10000,
serializing the signature-cleared license fails inside `VerifyLicense`, and the
method returns that error with the signature of the in-memory license still
cleared. -/
theorem verify_tears_signature :
    farFutureLicense.Signature = ascii "AAAA" ∧
    farFutureLicense.IsValid demoNow (ascii "dev-1") = true ∧
    (demoManager.VerifyLicense demoEnv demoNow farFutureLicense (ascii "dev-1")).result
      = .error (errMarshalTime "year outside of range [0,9999]") ∧
    (demoManager.VerifyLicense demoEnv demoNow farFutureLicense
      (ascii "dev-1")).license.Signature = [] := by
  decide

/-- On every return path but the failure of `json.Marshal`, `VerifyLicense`
leaves the license as it was. -/
theorem verify_restores_signature (env : Env) (m : Manager) (now : Time) (l : License)
    (d : GoString)
    (h : (∃ data, Marshal { l with Signature := [] } = .ok data) ∨ l.IsValid now d = false ∨
      (∃ e, env.loadPublicKey m.publicKeyPath = .error e) ∨
      (∃ e, base64Decode l.Signature = .error e)) :
    (m.VerifyLicense env now l d).license = l := by
  unfold Manager.VerifyLicense
  by_cases hv : l.IsValid now d = false
  · rw [if_pos hv]
  rw [if_neg hv]
  cases hk : env.loadPublicKey m.publicKeyPath with
  | error e => rfl
  | ok pk =>
    cases hd : base64Decode l.Signature with
    | error e => rfl
    | ok sig =>
      cases hm : Marshal { l with Signature := [] } with
      | error e =>
        rcases h with ⟨data, h⟩ | h | ⟨e2, h⟩ | ⟨e2, h⟩
        · rw [hm] at h; exact absurd h (by simp)
        · exact absurd h hv
        · rw [hk] at h; exact absurd h (by simp)
        · rw [hd] at h; exact absurd h (by simp)
      | ok data => simp only [hm]

/-- C7: a successful `RenewLicense` returns the caller's license itself, with
`ID`, `UserName`, `DeviceID`, `Level`, `IssuedAt`, `Features`, `IssuerID` and
`Version` as they were before the call. -/
theorem renew_frame (env : Env) (m : Manager) (localLoc loc : Location) (now now2 : Time)
    (l l2 : License) (d : Int)
    (h : (m.RenewLicense env localLoc loc now now2 l d).result = .ok l2) :
    (m.RenewLicense env localLoc loc now now2 l d).license = l2 ∧
    l2.ID = l.ID ∧ l2.UserName = l.UserName ∧ l2.DeviceID = l.DeviceID ∧
    l2.Level = l.Level ∧ l2.IssuedAt = l.IssuedAt ∧ l2.Features = l.Features ∧
    l2.IssuerID = l.IssuerID ∧ l2.Version = l.Version := by
  unfold Manager.RenewLicense at h ⊢
  cases hk : env.loadPrivateKey m.privateKeyPath with
  | error e => simp [hk] at h
  | ok k =>
    simp only [hk] at h ⊢
    cases hm : Marshal { l.Renew localLoc loc now now2 d with Signature := [] } with
    | error e => simp [hm] at h
    | ok data =>
      simp only [hm] at h ⊢
      cases hs : Sign env k data with
      | error e => simp [hs] at h
      | ok sig =>
        simp only [hs, Except.ok.injEq] at h ⊢
        subst h
        refine ⟨rfl, ?_⟩
        unfold License.Renew
        split <;> simp

/-- Witness of C7: renewing the 30-day license by 10 days with the demo keys. -/
theorem renew_frame_witness :
    (demoManager.RenewLicense demoEnv (FixedZone 0) (FixedZone 0) demoNow demoNow demoLicense
      10).result = .ok demoRenewed ∧
    demoRenewed.ID = demoLicense.ID ∧ demoRenewed.UserName = demoLicense.UserName ∧
    demoRenewed.IssuedAt = demoLicense.IssuedAt :=
  have r := renew_frame demoEnv demoManager (FixedZone 0) (FixedZone 0) demoNow demoNow
    demoLicense demoRenewed 10 (by decide)
  ⟨by decide, r.2.1, r.2.2.1, r.2.2.2.2.2.1⟩

/-- Counterexample to C8 as stated: the failure for an expired license
presented with its own device and the failure for a live license presented
with another device are one and the same value. -/
theorem expired_and_mismatch_same_failure :
    expiredLicense.IsExpired demoNow = true ∧
    demoLicense.IsExpired demoNow = false ∧ demoLicense.DeviceID ≠ ascii "dev-2" ∧
    (demoManager.VerifyLicense demoEnv demoNow expiredLicense expiredLicense.DeviceID).result
      = (demoManager.VerifyLicense demoEnv demoNow demoLicense (ascii "dev-2")).result := by
  decide

/-- C8, amended: `VerifyLicense` returns the one policy failure `license is not
valid for this device or has expired` both for an expired license presented
with its own device and for a live license presented with another device; a
license that passes the basic check, whose key loads, whose signature decodes
and whose payload serializes but whose signature is not the valid one fails
with `crypto/rsa: verification error`, a different value. -/
theorem verify_failure_reasons (env : Env) (m : Manager) (now : Time) (l : License)
    (d : GoString) :
    (l.IsExpired now = true →
      (m.VerifyLicense env now l l.DeviceID).result = .error errNotValid) ∧
    (l.IsExpired now = false → l.DeviceID ≠ d →
      (m.VerifyLicense env now l d).result = .error errNotValid) ∧
    (∀ publicKey signature licenseData, l.IsValid now d = true →
      env.loadPublicKey m.publicKeyPath = .ok publicKey →
      base64Decode l.Signature = .ok signature →
      Marshal { l with Signature := [] } = .ok licenseData →
      env.pkcs1v15 publicKey licenseData ≠ .ok signature →
      (m.VerifyLicense env now l d).result = .error ErrVerification) ∧
    errNotValid ≠ ErrVerification := by
  refine ⟨?_, ?_, ?_, by decide⟩
  · intro h
    simp [Manager.VerifyLicense, License.IsValid, h]
  · intro h hd
    simp [Manager.VerifyLicense, License.IsValid, h, hd]
  · intro publicKey signature licenseData hv hk hs hm hne
    simp only [Manager.VerifyLicense, hv, hk, hs, hm, Verify]
    cases hp : env.pkcs1v15 publicKey licenseData with
    | error e => simp
    | ok s =>
      have : s ≠ signature := fun h => hne (by rw [hp, h])
      simp [this]

/-- Witness of the amended C8 on the demo licenses: the policy failure for the
expired one, for the wrong device, and the verification error for a live
license carrying the signature `AAAA`. -/
theorem verify_failure_reasons_witness :
    (demoManager.VerifyLicense demoEnv demoNow expiredLicense expiredLicense.DeviceID).result
      = .error errNotValid ∧
    (demoManager.VerifyLicense demoEnv demoNow demoLicense (ascii "dev-2")).result
      = .error errNotValid ∧
    (demoManager.VerifyLicense demoEnv demoNow { demoLicense with Signature := ascii "AAAA" }
      (ascii "dev-1")).result = .error ErrVerification :=
  ⟨(verify_failure_reasons demoEnv demoManager demoNow expiredLicense (ascii "dev-1")).1
      (by decide),
   (verify_failure_reasons demoEnv demoManager demoNow demoLicense (ascii "dev-2")).2.1
      (by decide) (by decide),
   (verify_failure_reasons demoEnv demoManager demoNow
      { demoLicense with Signature := ascii "AAAA" } (ascii "dev-1")).2.2.1
      ⟨3233, 17⟩ [0, 0, 0] ((Marshal demoLicense).toOption.getD [])
      (by decide) (by decide) (by decide) (by decide) (by decide)⟩

/-- A license whose signature is cleared is well-formed when the license is. -/
theorem WellFormed_clear {l : License} (h : l.WellFormed) :
    ({ l with Signature := [] } : License).WellFormed := by
  obtain ⟨h1, h2, h3, h4, h5, h6, h7, -, h9, h10⟩ := h
  exact ⟨h1, h2, h3, h4, h5, h6, h7, rfl, h9, h10⟩

/-- The payload of a well-formed license determines the license. -/
theorem Marshal_injective (l1 l2 : License) (h1 : l1.WellFormed) (h2 : l2.WellFormed)
    (p : GoString) (e1 : Marshal l1 = .ok p) (e2 : Marshal l2 = .ok p) : l1 = l2 := by
  have hb : compactLayout.Blank := by
    refine ⟨?_, ?_, ?_, ?_, ?_, ?_, ?_⟩ <;> intro c hc <;> simp [compactLayout] at hc
  have a := Unmarshal_encodeLicense compactLayout hb l1 h1 p e1
  have b := Unmarshal_encodeLicense compactLayout hb l2 h2 p e2
  rw [a] at b
  exact Except.ok.inj b

/-- A license returned by a successful `GenerateLicense` or `RenewLicense`
under the private key `K` satisfies the signing invariant. -/
theorem signedBy_of_issue (env : Env) (m : Manager) (K : PrivateKey) (localLoc loc : Location)
    (now now2 : Time) (uuid userName deviceID level : GoString) (validDays days : Int)
    (l0 L : License) (hK : env.loadPrivateKey m.privateKeyPath = .ok K)
    (hL : m.GenerateLicense env localLoc now uuid userName deviceID level validDays = .ok L ∨
      (m.RenewLicense env localLoc loc now now2 l0 days).result = .ok L) :
    SignedBy env K L := by
  rcases hL with hg | hr
  · unfold Manager.GenerateLicense at hg
    simp only [hK] at hg
    cases hm : Marshal { NewLicense localLoc now uuid userName deviceID level validDays with
        Signature := [] } with
    | error e => simp [hm] at hg
    | ok data =>
      simp only [hm] at hg
      cases hs : Sign env K data with
      | error e => simp [hs] at hg
      | ok sig =>
        simp only [hs, Except.ok.injEq] at hg
        subst hg
        exact ⟨data, sig, hm, hs, rfl⟩
  · unfold Manager.RenewLicense at hr
    simp only [hK] at hr
    cases hm : Marshal { l0.Renew localLoc loc now now2 days with Signature := [] } with
    | error e => simp [hm] at hr
    | ok data =>
      simp only [hm] at hr
      cases hs : Sign env K data with
      | error e => simp [hs] at hr
      | ok sig =>
        simp only [hs, Except.ok.injEq] at hr
        subst hr
        exact ⟨data, sig, hm, hs, rfl⟩

/-- A license that satisfies the signing invariant under `K` verifies with the
public half of `K` on its own device at every clock reading at which it is
not expired. -/
theorem SignedBy.verifies {env : Env} {K : PrivateKey} {L : License} (h : SignedBy env K L)
    (m : Manager) (t : Time) (hpub : env.loadPublicKey m.publicKeyPath = .ok K.PublicKey)
    (hexp : L.IsExpired t = false) :
    (m.VerifyLicense env t L L.DeviceID).result = .ok () := by
  obtain ⟨payload, sig, hm, hs, hsig⟩ := h
  have hv : L.IsValid t L.DeviceID = true := by simp [License.IsValid, hexp]
  have hd : base64Decode L.Signature = .ok sig := by rw [hsig, base64Decode_encode]
  unfold Sign at hs
  simp [Manager.VerifyLicense, hv, hpub, hd, hm, Verify, hs]

/-- C2: a license returned by a successful `GenerateLicense` or `RenewLicense`
under the private key `K` has `Signature = base64(Sign(K, payload))`, the
payload being `json.Marshal` of the license with the signature cleared, and
`VerifyLicense` with the paired public key accepts it on its own device at
every clock reading at which it is not expired. -/
theorem signed_licenses_verify (env : Env) (m : Manager) (K : PrivateKey)
    (localLoc loc : Location) (now now2 : Time) (uuid userName deviceID level : GoString) (validDays days : Int)
    (l0 L : License) (hK : env.loadPrivateKey m.privateKeyPath = .ok K)
    (hL : m.GenerateLicense env localLoc now uuid userName deviceID level validDays = .ok L ∨
      (m.RenewLicense env localLoc loc now now2 l0 days).result = .ok L) :
    SignedBy env K L ∧
    ∀ t, env.loadPublicKey m.publicKeyPath = .ok K.PublicKey → L.IsExpired t = false →
      (m.VerifyLicense env t L L.DeviceID).result = .ok () := by
  have hsigned : SignedBy env K L :=
    signedBy_of_issue env m K localLoc loc now now2 uuid userName deviceID level validDays days
      l0 L hK hL
  exact ⟨hsigned, fun t hpub hexp => hsigned.verifies m t hpub hexp⟩

/-- Witness of C2: the license generated for alice with the demo keys verifies
on `dev-1` at the time of issue. -/
theorem signed_licenses_verify_witness :
    demoManager.GenerateLicense demoEnv (FixedZone 0) demoNow
      (ascii "6ba7b810-9dad-11d1-80b4-00c04fd430c8")
      (ascii "alice") (ascii "dev-1") (ascii "professional") 30 = .ok demoSigned ∧
    (demoManager.VerifyLicense demoEnv demoNow demoSigned demoSigned.DeviceID).result = .ok () :=
  ⟨by decide,
   (signed_licenses_verify demoEnv demoManager ⟨⟨3233, 17⟩, 413⟩ (FixedZone 0) (FixedZone 0)
      demoNow demoNow
      (ascii "6ba7b810-9dad-11d1-80b4-00c04fd430c8") (ascii "alice") (ascii "dev-1")
      (ascii "professional") 30 0 demoLicense demoSigned rfl (Or.inl (by decide))).2
      demoNow rfl (by decide)⟩

/-- Counterexample to C1 as stated: the license generated for the user name
`0xFF` (one byte, not valid UTF-8) and the license that differs from it only
in the user name, `0xFE`, have the same payload, so the second verifies with
the signature of the first. -/
theorem tamper_undetected_invalid_utf8 :
    demoManager.GenerateLicense demoEnv (FixedZone 0) demoNow
      (ascii "6ba7b810-9dad-11d1-80b4-00c04fd430c8")
      [0xFF] (ascii "dev-1") (ascii "professional") 30 = .ok badNameSigned ∧
    ({ badNameSigned with UserName := [0xFE] } : License).Signature = badNameSigned.Signature ∧
    ({ badNameSigned with UserName := [0xFE] } : License).UserName ≠ badNameSigned.UserName ∧
    (demoManager.VerifyLicense demoEnv demoNow { badNameSigned with UserName := [0xFE] }
      (ascii "dev-1")).result = .ok () := by
  decide

/-- C1, amended: let `L` be a license signed by `GenerateLicense` or
`RenewLicense` under the private key `K`, and `L2` a license with the same
signature that differs from `L` in a field other than the signature, both with
strings of valid UTF-8 and times in zones of whole minutes. If the manager's
public key is the public half of `K` and the signature primitive gives
different signatures to different payloads, `VerifyLicense` fails on `L2` for
every device and at every clock reading. -/
theorem tamper_detection (env : Env) (m : Manager) (K : PrivateKey) (localLoc loc : Location)
    (now now2 t : Time) (uuid userName deviceID level d : GoString) (validDays days : Int)
    (l0 L L2 : License) (hK : env.loadPrivateKey m.privateKeyPath = .ok K)
    (hL : m.GenerateLicense env localLoc now uuid userName deviceID level validDays = .ok L ∨
      (m.RenewLicense env localLoc loc now now2 l0 days).result = .ok L)
    (hpub : ∀ pk, env.loadPublicKey m.publicKeyPath = .ok pk → pk = K.PublicKey)
    (hinj : ∀ d1 d2 s, env.pkcs1v15 K.PublicKey d1 = .ok s →
      env.pkcs1v15 K.PublicKey d2 = .ok s → d1 = d2)
    (hwf : L.WellFormed) (hwf2 : L2.WellFormed) (hsig : L2.Signature = L.Signature)
    (hdiff : ({ L2 with Signature := [] } : License) ≠ { L with Signature := [] }) :
    (m.VerifyLicense env t L2 d).result ≠ .ok () := by
  obtain ⟨payload, sig, hm, hs, hb⟩ := signedBy_of_issue env m K localLoc loc now now2 uuid
    userName deviceID level validDays days l0 L hK hL
  intro hok
  unfold Manager.VerifyLicense at hok
  by_cases hvalid : L2.IsValid t d = false
  · rw [if_pos hvalid] at hok
    exact absurd hok (by simp)
  rw [if_neg hvalid] at hok
  cases hk : env.loadPublicKey m.publicKeyPath with
  | error e => rw [hk] at hok; exact absurd hok (by simp)
  | ok pk =>
    have hpk := hpub pk hk
    subst hpk
    have hd : base64Decode L2.Signature = .ok sig := by
      rw [hsig, hb, base64Decode_encode]
    simp only [hk, hd] at hok
    cases hm2 : Marshal { L2 with Signature := [] } with
    | error e => rw [hm2] at hok; exact absurd hok (by simp)
    | ok payload2 =>
      simp only [hm2, Verify] at hok
      unfold Sign at hs
      cases hp : env.pkcs1v15 K.PublicKey payload2 with
      | error e => rw [hp] at hok; exact absurd hok (by simp)
      | ok s2 =>
        simp only [hp] at hok
        by_cases heq : s2 = sig
        · subst heq
          have := hinj payload2 payload s2 hp hs
          subst this
          exact hdiff (Marshal_injective _ _ (WellFormed_clear hwf2) (WellFormed_clear hwf)
            payload2 hm2 hm)
        · rw [if_neg heq] at hok
          exact absurd hok (by simp)

/-- Witness of the amended C1: the generated demo license with the user name
changed to `mallory` does not verify. -/
theorem tamper_detection_witness :
    demoSigned.WellFormed ∧
    (demoManager.VerifyLicense demoEnv demoNow { demoSigned with UserName := ascii "mallory" }
      (ascii "dev-1")).result ≠ .ok () :=
  ⟨by decide,
   tamper_detection demoEnv demoManager ⟨⟨3233, 17⟩, 413⟩ (FixedZone 0) (FixedZone 0)
      demoNow demoNow demoNow
      (ascii "6ba7b810-9dad-11d1-80b4-00c04fd430c8") (ascii "alice") (ascii "dev-1")
      (ascii "professional") (ascii "dev-1") 30 0 demoLicense demoSigned
      { demoSigned with UserName := ascii "mallory" } rfl (Or.inl (by decide))
      (fun pk h => by cases h; rfl)
      (fun d1 d2 s h1 h2 => by
        simp only [demoEnv, Except.ok.injEq] at h1 h2
        rw [← h2] at h1
        exact (List.cons.inj h1).2)
      (by decide) (by decide) rfl (by decide)⟩

/-- Counterexample to C10 as stated: a license whose user name is the single
byte `0xFF` is saved and loaded without error, and the loaded license has the
user name U+FFFD (three bytes). -/
theorem roundtrip_breaks_invalid_utf8 :
    (demoManager.SaveLicense emptyFS badNameLicense licensePath).1 = .ok () ∧
    demoManager.LoadLicense (demoManager.SaveLicense emptyFS badNameLicense licensePath).2
      licensePath = .ok { badNameLicense with UserName := [0xEF, 0xBF, 0xBD] } ∧
    ({ badNameLicense with UserName := [0xEF, 0xBF, 0xBD] } : License) ≠ badNameLicense := by
  decide

/-- The seconds of a zone offset are not part of the JSON text either: a
license issued at an instant presented 30 seconds east of UTC is loaded with an
issue time 30 seconds later, in UTC. -/
theorem roundtrip_breaks_odd_zone :
    (demoManager.SaveLicense emptyFS oddZoneLicense licensePath).1 = .ok () ∧
    demoManager.LoadLicense (demoManager.SaveLicense emptyFS oddZoneLicense licensePath).2
      licensePath = .ok { oddZoneLicense with IssuedAt := ⟨1700000030000000000, 0⟩ } := by
  decide

/-- C10, amended: for a license whose strings (features included) are valid
UTF-8 and whose two times are presented in zones with an offset of whole
minutes, if `SaveLicense` succeeds at a path then `LoadLicense` of that path
succeeds and returns a license equal to the saved one in all ten fields, a
time being its instant and its zone offset. -/
theorem save_load_roundtrip (m : Manager) (fs : FS) (L : License) (p : GoString)
    (hL : L.WellFormed) (hsave : (m.SaveLicense fs L p).1 = .ok ()) :
    m.LoadLicense (m.SaveLicense fs L p).2 p = .ok L := by
  have hb : indentLayout.Blank := by
    refine ⟨?_, ?_, ?_, ?_, ?_, ?_, ?_⟩ <;> decide
  unfold Manager.SaveLicense at hsave ⊢
  cases hm : MarshalIndent L with
  | error e => simp [hm] at hsave
  | ok data =>
    simp only [hm] at hsave ⊢
    unfold FS.WriteFile at hsave ⊢
    split_ifs at hsave ⊢ with hw
    simp [Manager.LoadLicense, FS.ReadFile,
      Unmarshal_encodeLicense indentLayout hb L hL data hm]

/-- Witness of the amended C10: the signed demo license, with two features, is
saved to `license.dat` and loaded back. -/
theorem save_load_roundtrip_witness :
    ({ demoSigned with Features := some [ascii "export", ascii "a\"b\\c"] } : License).WellFormed ∧
    demoManager.LoadLicense (demoManager.SaveLicense emptyFS
      { demoSigned with Features := some [ascii "export", ascii "a\"b\\c"] } licensePath).2
      licensePath = .ok { demoSigned with Features := some [ascii "export", ascii "a\"b\\c"] } :=
  ⟨by decide,
   save_load_roundtrip demoManager emptyFS
     { demoSigned with Features := some [ascii "export", ascii "a\"b\\c"] } licensePath
     (by decide) (by decide)⟩

end LicenceCli
